import Mathlib

/-!
Verification of the aicli LLM streaming-protocol client and agent orchestration
loop (repository glennswest/aicli), against its natural-language specification.

Strings of the Go source are modelled as `List Char` (`Str`).  Go byte indexing
coincides with this model on the inputs the claims are about: every character
the algorithms branch on (braces, quotes, backslashes, ASCII letters of markers
and tool names) is a single-byte code point, and all other characters are
passed through untouched by every modelled routine.
-/

namespace AicliSpec

/-- Strings are modelled as lists of characters. -/
abbrev Str := List Char

/-! ## Basic string operations (Go `strings` package) -/

/-- Does `s` start with `p`?  (Go `strings.HasPrefix s p`.) -/
def startsWith : Str → Str → Bool
  | _, [] => true
  | [], _ :: _ => false
  | c :: s, d :: p => c = d && startsWith s p

/-- Index of the first occurrence of `p` in `s`, if any (Go `strings.Index`,
with `none` for Go's `-1`). -/
def firstIndexOf : Str → Str → Option Nat
  | s, p =>
    if startsWith s p then some 0
    else match s with
      | [] => none
      | _ :: t => (firstIndexOf t p).map (· + 1)

/-- Go `strings.Contains s p`. -/
def containsStr (s p : Str) : Bool := (firstIndexOf s p).isSome

/-- ASCII whitespace recognised by Go's `regexp` class `\s` = `[\t\n\f\r ]`. -/
def isRegexWS (c : Char) : Bool :=
  c = '\t' || c = '\n' || c = '\x0c' || c = '\r' || c = ' '

/-- ASCII whitespace trimmed by Go `strings.TrimSpace` (`unicode.IsSpace`;
the non-ASCII space code points do not occur in the modelled data). -/
def isTrimWS (c : Char) : Bool :=
  c = '\t' || c = '\n' || c = '\x0b' || c = '\x0c' || c = '\r' || c = ' '

/-- Whitespace skipped by Go `encoding/json` between tokens. -/
def isJsonWS (c : Char) : Bool :=
  c = ' ' || c = '\t' || c = '\n' || c = '\r'

/-- Go `strings.TrimSpace`. -/
def trimSpace (s : Str) : Str :=
  ((s.dropWhile fun c => isTrimWS c).reverse.dropWhile fun c => isTrimWS c).reverse

/-! ## The balanced-structure extractor (`extractJSON`, client.go:29-71)

The Go loop walks the string from `start`, keeping an integer nesting `depth`,
an `inString` flag toggled by `"`, and a one-shot `escaped` flag set by `\`
inside a string.  `extractLoop l i depth inString escaped` is that loop, where
`l` is the part of the string not yet consumed and `i` the absolute index of
its first character; it returns the absolute index of the matching `}`. -/

def extractLoop : Str → Nat → Int → Bool → Bool → Option Nat
  | [], _, _, _, _ => none
  | c :: rest, i, depth, inString, escaped =>
    if escaped = true then
      extractLoop rest (i + 1) depth inString false
    else if c = '\\' ∧ inString = true then
      extractLoop rest (i + 1) depth inString true
    else if c = '"' then
      extractLoop rest (i + 1) depth (!inString) escaped
    else if inString = true then
      extractLoop rest (i + 1) depth inString escaped
    else if c = '{' then
      extractLoop rest (i + 1) (depth + 1) inString escaped
    else if c = '}' then
      if depth - 1 = 0 then some i
      else extractLoop rest (i + 1) (depth - 1) inString escaped
    else
      extractLoop rest (i + 1) depth inString escaped

/-- `extractJSON` (client.go:29-71): extract a complete JSON object from `s`
starting at `start`.  Returns the substring from `start` through the matching
`}` and the index just past it, or `("", -1)` when `start` is out of range,
does not point at `{`, or the string ends before the structure closes. -/
def extractJSON (s : Str) (start : Nat) : Str × Int :=
  if start ≥ s.length then ([], -1)
  else if s.getD start ' ' ≠ '{' then ([], -1)
  else match extractLoop (s.drop start) start 0 false false with
    | some i => ((s.drop start).take (i + 1 - start), ((i + 1 : Nat) : Int))
    | none => ([], -1)

/-! ## Specification-side matcher for claim C1

Written from the specification's words: find the closing `}` matching the
opening `{` at the head, counting nesting depth only outside double-quoted
string sections, where a backslash inside a string escapes the next
character. -/

/-- Scanner mode of the specification automaton: outside any string, inside a
double-quoted section, or immediately after a backslash inside a string. -/
inductive ScanMode | outside | inQuotes | afterBackslash
deriving DecidableEq

/-- Specification scanner: relative index of the brace that brings the nesting
depth back to zero, scanning under the stated string/escape discipline. -/
def specScan : Str → Nat → ScanMode → Option Nat
  | [], _, _ => none
  | c :: rest, depth, m =>
    match m with
    | .afterBackslash => (specScan rest depth .inQuotes).map (· + 1)
    | .inQuotes =>
      if c = '"' then (specScan rest depth .outside).map (· + 1)
      else if c = '\\' then (specScan rest depth .afterBackslash).map (· + 1)
      else (specScan rest depth .inQuotes).map (· + 1)
    | .outside =>
      if c = '"' then (specScan rest depth .inQuotes).map (· + 1)
      else if c = '{' then (specScan rest (depth + 1) .outside).map (· + 1)
      else if c = '}' then
        if depth = 1 then some 0
        else (specScan rest (depth - 1) .outside).map (· + 1)
      else (specScan rest depth .outside).map (· + 1)

/-- Position (relative to the head, which must be `{`) of the matching `}`
as described by the specification. -/
def specMatch (s : Str) : Option Nat := specScan s 0 .outside

/-- Go-state view of a scanner mode: the `inString` flag. -/
def modeInString : ScanMode → Bool
  | .outside => false
  | .inQuotes => true
  | .afterBackslash => true

/-- Go-state view of a scanner mode: the `escaped` flag. -/
def modeEscaped : ScanMode → Bool
  | .outside => false
  | .inQuotes => false
  | .afterBackslash => true

/-- Composing the relative-index shift of `specScan` with the absolute base
index. -/
theorem optionShift (o : Option Nat) (i : Nat) :
    Option.map (fun x => i + x) (Option.map (fun x => x + 1) o) =
      Option.map (fun x => i + 1 + x) o := by
  cases o with
  | none => rfl
  | some j =>
    show some (i + (j + 1)) = some (i + 1 + j)
    exact congrArg some (by omega)

/-- One step of the Go loop inside a string on an ordinary character. -/
theorem extractLoopStepInQuotes {c : Char} (rest : Str) (i : Nat) (d : Int)
    (hb : ¬ c = '\\') (hq : ¬ c = '"') :
    extractLoop (c :: rest) i d true false = extractLoop rest (i + 1) d true false := by
  simp [extractLoop, hb, hq]

/-- One step of the Go loop outside a string on an ordinary character. -/
theorem extractLoopStepOutside {c : Char} (rest : Str) (i : Nat) (d : Int)
    (hq : ¬ c = '"') (ho : ¬ c = '{') (hc : ¬ c = '}') :
    extractLoop (c :: rest) i d false false = extractLoop rest (i + 1) d false false := by
  simp [extractLoop, hq, ho, hc]

/-- One step of the specification scanner inside a string on an ordinary
character. -/
theorem specScanStepInQuotes {c : Char} (rest : Str) (n : Nat)
    (hb : ¬ c = '\\') (hq : ¬ c = '"') :
    specScan (c :: rest) n .inQuotes =
      Option.map (fun x => x + 1) (specScan rest n ScanMode.inQuotes) := by
  simp [specScan, hb, hq]

/-- One step of the specification scanner outside a string on an ordinary
character. -/
theorem specScanStepOutside {c : Char} (rest : Str) (n : Nat)
    (hq : ¬ c = '"') (ho : ¬ c = '{') (hc : ¬ c = '}') :
    specScan (c :: rest) n .outside =
      Option.map (fun x => x + 1) (specScan rest n ScanMode.outside) := by
  simp [specScan, hq, ho, hc]

/-- The Go loop agrees with the specification scanner on every reachable state
(depth at least one, `escaped` only inside a string). -/
theorem extractLoop_eq_specScan (l : Str) :
    ∀ (n : Nat) (m : ScanMode) (i : Nat), 1 ≤ n →
      extractLoop l i (n : Int) (modeInString m) (modeEscaped m) =
        Option.map (fun x => i + x) (specScan l n m) := by
  induction l with
  | nil => intro n m i _; cases m <;> simp [extractLoop, specScan]
  | cons c rest ih =>
    intro n m i hn
    cases m with
    | afterBackslash =>
      show extractLoop rest (i + 1) (n : Int) true false =
        Option.map (fun x => i + x)
          (Option.map (fun x => x + 1) (specScan rest n ScanMode.inQuotes))
      rw [optionShift]
      have h := ih n .inQuotes (i + 1) hn
      simp only [modeInString, modeEscaped] at h
      exact h
    | inQuotes =>
      by_cases hb : c = '\\'
      · subst hb
        show extractLoop rest (i + 1) (n : Int) true true =
          Option.map (fun x => i + x)
            (Option.map (fun x => x + 1) (specScan rest n ScanMode.afterBackslash))
        rw [optionShift]
        have h := ih n .afterBackslash (i + 1) hn
        simp only [modeInString, modeEscaped] at h
        exact h
      · by_cases hq : c = '"'
        · subst hq
          show extractLoop rest (i + 1) (n : Int) false false =
            Option.map (fun x => i + x)
              (Option.map (fun x => x + 1) (specScan rest n ScanMode.outside))
          rw [optionShift]
          have h := ih n .outside (i + 1) hn
          simp only [modeInString, modeEscaped] at h
          exact h
        · simp only [modeInString, modeEscaped]
          rw [extractLoopStepInQuotes rest i (n : Int) hb hq,
            specScanStepInQuotes rest n hb hq, optionShift]
          have h := ih n .inQuotes (i + 1) hn
          simp only [modeInString, modeEscaped] at h
          exact h
    | outside =>
      by_cases hq : c = '"'
      · subst hq
        show extractLoop rest (i + 1) (n : Int) true false =
          Option.map (fun x => i + x)
            (Option.map (fun x => x + 1) (specScan rest n ScanMode.inQuotes))
        rw [optionShift]
        have h := ih n .inQuotes (i + 1) hn
        simp only [modeInString, modeEscaped] at h
        exact h
      · by_cases ho : c = '{'
        · subst ho
          show extractLoop rest (i + 1) (((n + 1 : Nat) : Int)) false false =
            Option.map (fun x => i + x)
              (Option.map (fun x => x + 1) (specScan rest (n + 1) ScanMode.outside))
          rw [optionShift]
          have h := ih (n + 1) .outside (i + 1) (by omega)
          simp only [modeInString, modeEscaped] at h
          exact h
        · by_cases hc : c = '}'
          · subst hc
            by_cases h1 : n = 1
            · subst h1; rfl
            · show (if (n : Int) - 1 = 0 then some i
                    else extractLoop rest (i + 1) ((n : Int) - 1) false false) =
                Option.map (fun x => i + x)
                  (if n = 1 then some 0
                   else Option.map (fun x => x + 1) (specScan rest (n - 1) ScanMode.outside))
              rw [if_neg (show ¬ ((n : Int) - 1 = 0) by omega), if_neg h1, optionShift,
                show ((n : Int) - 1) = (((n - 1 : Nat)) : Int) by omega]
              have h := ih (n - 1) .outside (i + 1) (by omega)
              simp only [modeInString, modeEscaped] at h
              exact h
          · simp only [modeInString, modeEscaped]
            rw [extractLoopStepOutside rest i (n : Int) hq ho hc,
              specScanStepOutside rest n hq ho hc, optionShift]
            have h := ih n .outside (i + 1) hn
            simp only [modeInString, modeEscaped] at h
            exact h

/-- First step of the Go loop from the opening brace. -/
theorem extractLoopTop (rest : Str) (i : Nat) :
    extractLoop ('{' :: rest) i 0 false false =
      Option.map (fun x => i + x) (specMatch ('{' :: rest)) := by
  show extractLoop rest (i + 1) ((1 : Nat) : Int) false false =
    Option.map (fun x => i + x)
      (Option.map (fun x => x + 1) (specScan rest 1 ScanMode.outside))
  rw [optionShift]
  have h := extractLoop_eq_specScan rest 1 .outside (i + 1) (le_refl 1)
  simp only [modeInString, modeEscaped] at h
  exact h

/-- Claim C1: `extractJSON` is correct.  If `i` is in range and points at
an opening brace that has a matching closing brace in the sense of the
specification automaton (`specMatch`: nesting depth counted only outside
double-quoted sections, backslash inside a string escaping the next
character), the function returns the substring from `i` through that brace
together with the index just past it; in every other case (index out of
range, not pointing at a brace, or the string ending before the structure
closes) it returns the not-found signal `("", -1)`. -/
theorem extractJSON_correct (s : Str) (i : Nat) :
    extractJSON s i =
      if i < s.length ∧ s.getD i ' ' = '{' then
        match specMatch (s.drop i) with
        | some j => ((s.drop i).take (j + 1), ((i + j + 1 : Nat) : Int))
        | none => ([], -1)
      else ([], -1) := by
  by_cases h : i < s.length ∧ s.getD i ' ' = '{'
  · rw [if_pos h]
    obtain ⟨hi, hc⟩ := h
    have hdrop : s.drop i = '{' :: s.drop (i + 1) := by
      rw [List.drop_eq_getElem_cons hi]
      congr 1
      rw [← hc, List.getD_eq_getElem s ' ' hi]
    unfold extractJSON
    rw [if_neg (by omega), if_neg (by simpa using hc), hdrop, extractLoopTop, ← hdrop]
    cases hm : specMatch (s.drop i) with
    | none => rfl
    | some j =>
      show ((s.drop i).take (i + j + 1 - i), ((i + j + 1 : Nat) : Int)) =
        ((s.drop i).take (j + 1), ((i + j + 1 : Nat) : Int))
      congr 2
      omega
  · rw [if_neg h]
    unfold extractJSON
    by_cases hi : i < s.length
    · have hc : s.getD i ' ' ≠ '{' := fun hcc => h ⟨hi, hcc⟩
      rw [if_neg (by omega), if_pos hc]
    · rw [if_pos (by omega)]

/-! ## The streaming response reader (`handleStreamResponse`, client.go:470-538)

A parsed stream chunk is modelled after Go's `ChatResponse` as used by the
streaming path: the reader looks only at `chunk.Choices[0]`, reading the
delta content, the delta tool-call fragments, and the finish reason.  The
byte-level `data: ` framing, the `[DONE]` sentinel and malformed-chunk
skipping select which chunks reach this logic; the claims quantify over the
sequence of chunks that do. -/

/-- A streaming tool-call fragment (`tools.ToolCall` as it appears in a
`delta`): stream index, optional id, function name and an arguments
fragment. -/
structure StreamToolCall where
  id : Str
  callType : Str
  name : Str
  arguments : Str
  index : Nat
deriving DecidableEq, Repr

/-- One element of `chunk.Choices`. -/
structure StreamChoice where
  deltaContent : Str
  deltaToolCalls : List StreamToolCall
  finishReason : Str
deriving DecidableEq, Repr

/-- One decoded stream chunk. -/
structure StreamChunk where
  choices : List StreamChoice
deriving DecidableEq, Repr

/-- State built up by the reader: the content accumulator and the
`toolCallsMap` (Go `map[int]*tools.ToolCall`), modelled as an association
list with unique keys, plus the last finish reason. -/
structure StreamState where
  content : Str
  toolCallsMap : List (Nat × StreamToolCall)
  finishReason : Str
deriving DecidableEq, Repr

/-- Result of a chat request (`ChatResult`). -/
structure ChatResultM where
  content : Str
  toolCalls : List StreamToolCall
  finishReason : Str
deriving DecidableEq, Repr

/-- Go `fmt.Sprintf "%d"` for a natural number. -/
def natToStr (n : Nat) : Str := Nat.toDigits 10 n

/-- The id synthesized for a tool call whose first fragment has no id
(`fmt.Sprintf("call_%d", idx)`). -/
def synthCallId (idx : Nat) : Str := "call_".toList ++ natToStr idx

/-- Association-map lookup (Go `toolCallsMap[idx]`). -/
def mapFind (m : List (Nat × StreamToolCall)) (k : Nat) : Option StreamToolCall :=
  match m with
  | [] => none
  | (k', v) :: rest => if k' = k then some v else mapFind rest k

/-- Association-map in-place update of the entry with key `k`. -/
def mapUpdate (m : List (Nat × StreamToolCall)) (k : Nat)
    (f : StreamToolCall → StreamToolCall) : List (Nat × StreamToolCall) :=
  match m with
  | [] => []
  | (k', v) :: rest =>
    if k' = k then (k', f v) :: rest else (k', v) :: mapUpdate rest k f

/-- Processing of one delta tool-call fragment (client.go:508-526): append
the arguments to the entry at the fragment's stream index, adopting a
non-empty id that arrives late; or create the entry from a copy of the
fragment, synthesizing an id if the fragment carries none. -/
def processDeltaTC (m : List (Nat × StreamToolCall)) (tc : StreamToolCall) :
    List (Nat × StreamToolCall) :=
  match mapFind m tc.index with
  | some _ =>
    mapUpdate m tc.index fun e =>
      { e with
        arguments := e.arguments ++ tc.arguments,
        id := if tc.id ≠ [] then tc.id else e.id }
  | none =>
    m ++ [(tc.index, if tc.id = [] then { tc with id := synthCallId tc.index } else tc)]

/-- Processing of one chunk: only `Choices[0]` is read; content is appended
when non-empty, every delta tool-call fragment is folded into the map, and
the finish reason is overwritten. -/
def processChunk (st : StreamState) (ch : StreamChunk) : StreamState :=
  match ch.choices with
  | [] => st
  | choice :: _ =>
    { content := st.content ++ (if choice.deltaContent ≠ [] then choice.deltaContent else []),
      toolCallsMap := choice.deltaToolCalls.foldl processDeltaTC st.toolCallsMap,
      finishReason := choice.finishReason }

/-- The accumulation loop of `handleStreamResponse` over the decoded
chunks. -/
def runStream (chunks : List StreamChunk) : StreamState :=
  chunks.foldl processChunk ⟨[], [], []⟩

/-- Keys of the accumulated tool-call map. -/
def mapKeys (m : List (Nat × StreamToolCall)) : List Nat := m.map Prod.fst

/-- Enumeration of the map by a key order: the model of Go's `for _, tc :=
range toolCallsMap`, whose visiting order the language leaves unspecified.
An order is admissible iff it is a permutation of the map's keys. -/
def enumToolCalls (m : List (Nat × StreamToolCall)) (order : List Nat) :
    List StreamToolCall :=
  order.filterMap (mapFind m)

/-- `handleStreamResponse` (client.go:470-538) restricted to its decoded
chunk sequence, parameterized by the map iteration order the Go runtime
happens to use. -/
def handleStreamResponse (chunks : List StreamChunk) (order : List Nat) : ChatResultM :=
  let st := runStream chunks
  { content := st.content,
    toolCalls := enumToolCalls st.toolCallsMap order,
    finishReason := st.finishReason }

/-- Arguments stored in an optional map entry (empty when absent). -/
def argsOf (o : Option StreamToolCall) : Str :=
  match o with
  | some e => e.arguments
  | none => []

/-- Arguments accumulated for stream index `i` after processing `chunks`. -/
def argsAt (chunks : List StreamChunk) (i : Nat) : Str :=
  argsOf (mapFind (runStream chunks).toolCallsMap i)

/-- The argument fragments a single chunk carries for stream index `i`. -/
def chunkFragmentsAt (i : Nat) (ch : StreamChunk) : List Str :=
  match ch.choices with
  | [] => []
  | choice :: _ => (choice.deltaToolCalls.filter fun tc => tc.index = i).map
      fun tc => tc.arguments

/-- All argument fragments carried for stream index `i` by a chunk
sequence, in delivery order. -/
def fragmentsAt (i : Nat) (chunks : List StreamChunk) : List Str :=
  (chunks.map (chunkFragmentsAt i)).flatten

/-- Concatenation of a list of strings. -/
def strJoin (l : List Str) : Str := l.flatten

/-- Looking up the key just updated. -/
theorem mapFind_update_self (m : List (Nat × StreamToolCall)) (k : Nat)
    (f : StreamToolCall → StreamToolCall) (e : StreamToolCall)
    (h : mapFind m k = some e) : mapFind (mapUpdate m k f) k = some (f e) := by
  induction m with
  | nil => simp [mapFind] at h
  | cons kv rest ih =>
    obtain ⟨k', v⟩ := kv
    by_cases hk : k' = k
    · simp [mapFind, mapUpdate, hk] at h ⊢
      rw [h]
    · simp [mapFind, mapUpdate, hk] at h ⊢
      exact ih h

/-- Updating one key leaves the others unchanged. -/
theorem mapFind_update_ne (m : List (Nat × StreamToolCall)) (k k' : Nat)
    (f : StreamToolCall → StreamToolCall) (h : k ≠ k') :
    mapFind (mapUpdate m k f) k' = mapFind m k' := by
  induction m with
  | nil => rfl
  | cons kv rest ih =>
    obtain ⟨k'', v⟩ := kv
    by_cases hk : k'' = k
    · subst hk
      simp [mapFind, mapUpdate, h]
    · simp [mapFind, mapUpdate, hk]
      by_cases hk' : k'' = k'
      · simp [hk']
      · simp [hk', ih]

/-- Lookup distributes over append. -/
theorem mapFind_append (m l : List (Nat × StreamToolCall)) (k : Nat) :
    mapFind (m ++ l) k =
      match mapFind m k with
      | some v => some v
      | none => mapFind l k := by
  induction m with
  | nil => rfl
  | cons kv rest ih =>
    obtain ⟨k', v⟩ := kv
    by_cases hk : k' = k
    · simp [mapFind, hk]
    · simp [mapFind, hk, ih]

/-- Effect of one delta fragment on the accumulated arguments at index `i`. -/
theorem argsOf_processDeltaTC (m : List (Nat × StreamToolCall))
    (tc : StreamToolCall) (i : Nat) :
    argsOf (mapFind (processDeltaTC m tc) i) =
      argsOf (mapFind m i) ++ (if tc.index = i then tc.arguments else []) := by
  by_cases hidx : tc.index = i
  · rw [if_pos hidx]
    cases hf : mapFind m tc.index with
    | some e =>
      rw [processDeltaTC, hf, ← hidx]
      rw [mapFind_update_self m tc.index _ e hf, hf]
      rfl
    | none =>
      rw [processDeltaTC, hf, ← hidx]
      rw [mapFind_append, hf]
      have : mapFind [(tc.index,
          if tc.id = [] then { tc with id := synthCallId tc.index } else tc)] tc.index =
          some (if tc.id = [] then { tc with id := synthCallId tc.index } else tc) := by
        simp [mapFind]
      rw [this]
      by_cases hid : tc.id = [] <;> simp [hid, argsOf]
  · rw [if_neg hidx]
    cases hf : mapFind m tc.index with
    | some e =>
      rw [processDeltaTC, hf, mapFind_update_ne m tc.index i _ hidx, List.append_nil]
    | none =>
      rw [processDeltaTC, hf, mapFind_append, List.append_nil]
      cases hfi : mapFind m i with
      | some v => rfl
      | none => simp [mapFind, hidx]

/-- Effect of folding a list of delta fragments. -/
theorem argsOf_foldDeltaTCs (tcs : List StreamToolCall) :
    ∀ (m : List (Nat × StreamToolCall)) (i : Nat),
      argsOf (mapFind (tcs.foldl processDeltaTC m) i) =
        argsOf (mapFind m i) ++
          strJoin (((tcs.filter fun tc => tc.index = i).map fun tc => tc.arguments)) := by
  induction tcs with
  | nil => intro m i; simp [strJoin]
  | cons tc rest ih =>
    intro m i
    rw [List.foldl_cons, ih (processDeltaTC m tc) i, argsOf_processDeltaTC]
    by_cases hidx : tc.index = i
    · simp [hidx, strJoin, List.append_assoc]
    · simp [hidx]

/-- Effect of one chunk on the accumulated arguments at index `i`. -/
theorem argsOf_processChunk (st : StreamState) (ch : StreamChunk) (i : Nat) :
    argsOf (mapFind (processChunk st ch).toolCallsMap i) =
      argsOf (mapFind st.toolCallsMap i) ++ strJoin (chunkFragmentsAt i ch) := by
  cases hch : ch.choices with
  | nil => simp [processChunk, chunkFragmentsAt, hch, strJoin]
  | cons choice restChoices =>
    simp only [processChunk, chunkFragmentsAt, hch]
    exact argsOf_foldDeltaTCs choice.deltaToolCalls st.toolCallsMap i

/-- Effect of a whole chunk sequence on the accumulated arguments. -/
theorem argsOf_foldChunks (chunks : List StreamChunk) :
    ∀ (st : StreamState) (i : Nat),
      argsOf (mapFind ((chunks.foldl processChunk st).toolCallsMap) i) =
        argsOf (mapFind st.toolCallsMap i) ++ strJoin (fragmentsAt i chunks) := by
  induction chunks with
  | nil => intro st i; simp [fragmentsAt, strJoin]
  | cons ch rest ih =>
    intro st i
    rw [List.foldl_cons, ih (processChunk st ch) i, argsOf_processChunk]
    simp [fragmentsAt, strJoin, List.append_assoc]

/-- Claim C2: streaming reconstruction of tool-call arguments.  For every
chunk sequence, the arguments reassembled for a stream index are exactly
the concatenation, in delivery order, of the argument fragments carried at
that index; hence any two deliveries with the same per-index fragment
concatenation — in particular one tool call's arguments split over N
chunks versus sent as a single chunk, with content deltas interleaved
arbitrarily — reassemble to the same arguments string. -/
theorem handleStream_args_reassembly :
    (∀ (chunks : List StreamChunk) (i : Nat),
      argsAt chunks i = strJoin (fragmentsAt i chunks)) ∧
    (∀ (chunks₁ chunks₂ : List StreamChunk) (i : Nat),
      strJoin (fragmentsAt i chunks₁) = strJoin (fragmentsAt i chunks₂) →
        argsAt chunks₁ i = argsAt chunks₂ i) := by
  have base : ∀ (chunks : List StreamChunk) (i : Nat),
      argsAt chunks i = strJoin (fragmentsAt i chunks) := by
    intro chunks i
    have h := argsOf_foldChunks chunks ⟨[], [], []⟩ i
    simp [mapFind, argsOf] at h
    exact h
  refine ⟨base, fun c₁ c₂ i h => ?_⟩
  rw [base c₁ i, base c₂ i, h]

/-- Delivery of one tool call's arguments split across two chunks with
interleaved content deltas (first fragment carries the name, no id). -/
def c2split : List StreamChunk :=
  [⟨[⟨"hello".toList, [⟨[], "function".toList, "write_file".toList, "ab".toList, 0⟩], []⟩]⟩,
   ⟨[⟨" world".toList, [⟨[], [], [], "cd".toList, 0⟩], "stop".toList⟩]⟩]

/-- The same arguments delivered in a single chunk. -/
def c2single : List StreamChunk :=
  [⟨[⟨[], [⟨[], "function".toList, "write_file".toList, "abcd".toList, 0⟩], "stop".toList⟩]⟩]

/-- Witness for claim C2 at a concrete split: two fragments `"ab"`/`"cd"`
with interleaved content reassemble exactly as the single chunk `"abcd"`. -/
theorem handleStream_args_reassembly_witness :
    strJoin (fragmentsAt 0 c2split) = strJoin (fragmentsAt 0 c2single) ∧
    argsAt c2split 0 = argsAt c2single 0 :=
  ⟨by decide, handleStream_args_reassembly.2 c2split c2single 0 (by decide)⟩

/-! ## Claim C9: order of the returned tool-call list

The final list is produced by `for _, tc := range toolCallsMap` over a Go
map, whose iteration order the language specification leaves undefined (and
which the Go runtime deliberately randomizes).  The model therefore
quantifies over all admissible iteration orders: every permutation of the
map's keys. -/

/-- A chunk sequence accumulating two tool calls, at stream indices 0 and 1. -/
def c9chunks : List StreamChunk :=
  [⟨[⟨[], [⟨"id0".toList, "function".toList, "write_file".toList, "a".toList, 0⟩,
           ⟨"id1".toList, "function".toList, "run_command".toList, "b".toList, 1⟩], []⟩]⟩]

/-- The admissible map iteration order visiting index 1 before index 0. -/
def c9order : List Nat := [1, 0]

/-- Counterexample to claim C9 as stated: for the chunk sequence `c9chunks`
there is an admissible map iteration order (`[1, 0]`, a permutation of the
accumulated keys) under which the returned tool calls are NOT in
stream-position order. -/
theorem handleStream_order_counterexample :
    c9order.Perm (mapKeys (runStream c9chunks).toolCallsMap) ∧
    ¬ List.Pairwise (· < ·)
        ((handleStreamResponse c9chunks c9order).toolCalls.map fun tc => tc.index) := by
  constructor
  · decide
  · decide

/-- Keys are unchanged by an in-place update. -/
theorem mapKeys_update (m : List (Nat × StreamToolCall)) (k : Nat)
    (f : StreamToolCall → StreamToolCall) : mapKeys (mapUpdate m k f) = mapKeys m := by
  induction m with
  | nil => rfl
  | cons kv rest ih =>
    obtain ⟨k', v⟩ := kv
    by_cases hk : k' = k
    · simp [mapUpdate, mapKeys, hk]
    · simp [mapUpdate, mapKeys, hk]
      simpa [mapKeys] using ih

/-- A key that lookup misses is not among the keys. -/
theorem mapFind_eq_none_iff (m : List (Nat × StreamToolCall)) (k : Nat) :
    mapFind m k = none ↔ k ∉ mapKeys m := by
  induction m with
  | nil => simp [mapFind, mapKeys]
  | cons kv rest ih =>
    obtain ⟨k', v⟩ := kv
    by_cases hk : k' = k
    · subst hk
      simp [mapFind, mapKeys]
    · have hk2 : ¬ k = k' := fun hh => hk hh.symm
      simp [mapFind, mapKeys, hk, hk2, ih]

/-- Processing a fragment preserves distinctness of the map's keys. -/
theorem keysNodup_processDeltaTC (m : List (Nat × StreamToolCall))
    (tc : StreamToolCall) (h : (mapKeys m).Nodup) :
    (mapKeys (processDeltaTC m tc)).Nodup := by
  cases hf : mapFind m tc.index with
  | some e =>
    rw [processDeltaTC, hf, mapKeys_update]
    exact h
  | none =>
    rw [processDeltaTC, hf]
    have hk : tc.index ∉ mapKeys m := (mapFind_eq_none_iff m tc.index).mp hf
    have : mapKeys (m ++ [(tc.index,
        if tc.id = [] then { tc with id := synthCallId tc.index } else tc)]) =
        mapKeys m ++ [tc.index] := by
      simp [mapKeys]
    rw [this, List.nodup_append]
    refine ⟨h, List.nodup_singleton _, ?_⟩
    intro a ha hb
    simp at hb
    subst hb
    exact hk ha

/-- Folding fragments preserves distinctness of the map's keys. -/
theorem keysNodup_foldDeltaTCs (tcs : List StreamToolCall) :
    ∀ m, (mapKeys m).Nodup → (mapKeys (tcs.foldl processDeltaTC m)).Nodup := by
  induction tcs with
  | nil => intro m h; exact h
  | cons tc rest ih =>
    intro m h
    exact ih (processDeltaTC m tc) (keysNodup_processDeltaTC m tc h)

/-- The reader's accumulated map always has distinct keys. -/
theorem keysNodup_runStream (chunks : List StreamChunk) :
    (mapKeys (runStream chunks).toolCallsMap).Nodup := by
  suffices h : ∀ (st : StreamState), (mapKeys st.toolCallsMap).Nodup →
      (mapKeys ((chunks.foldl processChunk st).toolCallsMap)).Nodup by
    exact h ⟨[], [], []⟩ (by simp [mapKeys])
  induction chunks with
  | nil => intro st h; exact h
  | cons ch rest ih =>
    intro st h
    refine ih (processChunk st ch) ?_
    cases hch : ch.choices with
    | nil => simpa [processChunk, hch] using h
    | cons choice restChoices =>
      simp only [processChunk, hch]
      exact keysNodup_foldDeltaTCs choice.deltaToolCalls st.toolCallsMap h

/-- Lookup in a map extended at the front by a different key. -/
theorem filterMap_mapFind_cons (rest : List (Nat × StreamToolCall))
    (k : Nat) (v : StreamToolCall) (ks : List Nat) (h : ∀ q ∈ ks, k ≠ q) :
    ks.filterMap (mapFind ((k, v) :: rest)) = ks.filterMap (mapFind rest) := by
  induction ks with
  | nil => rfl
  | cons q qs ih =>
    have hq : k ≠ q := h q (by simp)
    simp only [List.filterMap_cons]
    rw [show mapFind ((k, v) :: rest) q = mapFind rest q by simp [mapFind, hq]]
    rw [ih fun q' hq' => h q' (by simp [hq'])]

/-- Enumerating a distinct-keyed map by its own key list yields exactly its
values. -/
theorem filterMap_mapFind_keys (m : List (Nat × StreamToolCall))
    (h : (mapKeys m).Nodup) :
    (mapKeys m).filterMap (mapFind m) = m.map Prod.snd := by
  induction m with
  | nil => rfl
  | cons kv rest ih =>
    obtain ⟨k, v⟩ := kv
    simp only [mapKeys, List.map_cons] at h ⊢
    have hk : k ∉ List.map Prod.fst rest := (List.nodup_cons.mp h).1
    have hrest : (List.map Prod.fst rest).Nodup := (List.nodup_cons.mp h).2
    rw [List.filterMap_cons_some (show mapFind ((k, v) :: rest) k = some v by
      simp [mapFind])]
    rw [filterMap_mapFind_cons rest k v _ (fun q hq hkq => hk (hkq ▸ hq))]
    have ih2 := ih hrest
    simp only [mapKeys] at ih2
    rw [ih2]

/-- Claim C9 amended: for every chunk sequence and every admissible map
iteration order (any permutation of the accumulated stream indices), the
tool-call list returned by `handleStreamResponse` is a permutation of the
reassembled tool calls — one per accumulated stream index — but in an
unspecified order, not necessarily stream-position order. -/
theorem handleStream_toolCalls_perm (chunks : List StreamChunk) (order : List Nat)
    (h : order.Perm (mapKeys (runStream chunks).toolCallsMap)) :
    (handleStreamResponse chunks order).toolCalls.Perm
      ((runStream chunks).toolCallsMap.map Prod.snd) := by
  have h1 : (handleStreamResponse chunks order).toolCalls =
      order.filterMap (mapFind (runStream chunks).toolCallsMap) := rfl
  rw [h1]
  have h2 := h.filterMap (mapFind (runStream chunks).toolCallsMap)
  rw [filterMap_mapFind_keys _ (keysNodup_runStream chunks)] at h2
  exact h2

/-- Witness for the amended claim C9 at the concrete input: under the
iteration order `[1, 0]` the returned list is still a permutation of the
two reassembled calls. -/
theorem handleStream_toolCalls_perm_witness :
    c9order.Perm (mapKeys (runStream c9chunks).toolCallsMap) ∧
    (handleStreamResponse c9chunks c9order).toolCalls.Perm
      ((runStream c9chunks).toolCallsMap.map Prod.snd) :=
  ⟨by decide, handleStream_toolCalls_perm c9chunks c9order (by decide)⟩

/-! ## The pending-action (todo) store (session TodoFile) -/

/-- Status of a todo item. -/
inductive TodoStatus | pending | inProgress | completed
deriving DecidableEq, Repr

/-- A todo item (`TodoItem`; the creation timestamp is not modelled). -/
structure TodoItem where
  content : Str
  status : TodoStatus
deriving DecidableEq, Repr

/-- `TodoFile.AddTodo`: prepend a new pending item unless an equal
non-completed item exists. -/
def addTodo (items : List TodoItem) (content : Str) : List TodoItem :=
  if items.any fun item =>
      decide (item.content = content ∧ item.status ≠ TodoStatus.completed) then items
  else ⟨content, .pending⟩ :: items

/-- `TodoFile.GetPending`: all pending and in-progress items, in order. -/
def getPending (items : List TodoItem) : List TodoItem :=
  items.filter fun item =>
    decide (item.status = TodoStatus.pending ∨ item.status = TodoStatus.inProgress)

/-- `TodoFile.PopFirst`: mark the first pending/in-progress item completed. -/
def popFirstTodo : List TodoItem → List TodoItem
  | [] => []
  | item :: rest =>
    if item.status = TodoStatus.pending ∨ item.status = TodoStatus.inProgress then
      { item with status := .completed } :: rest
    else item :: popFirstTodo rest

/-! ## The error-recovery controller (chat.go:2080-2199) -/

/-- Go `fmt.Sprintf "%d"` for an integer. -/
def intToStr (i : Int) : Str :=
  if i < 0 then '-' :: natToStr i.natAbs else natToStr i.natAbs

/-- Go `strings.Split s "\n"`. -/
def splitLines : Str → List Str
  | [] => [[]]
  | c :: rest =>
    if c = '\n' then [] :: splitLines rest
    else match splitLines rest with
      | [] => [[c]]
      | l :: ls => (c :: l) :: ls

/-- The stderr substrings that make a zero-exit command count as failed
(chat.go:1650-1655). -/
def stderrHasError (stderr : Str) : Bool :=
  decide (stderr ≠ []) &&
    (containsStr stderr "error".toList || containsStr stderr "Error".toList ||
     containsStr stderr "failed".toList || containsStr stderr "not found".toList ||
     containsStr stderr "cannot find".toList || containsStr stderr "undefined".toList)

/-- `getFixCommand` (chat.go:2152-2177): map known substrings to a fix
command and whether it is concrete (immediately runnable). -/
def getFixCommand (output : Str) : Str × Bool :=
  if containsStr output "go.mod file not found".toList then ("go mod init myproject".toList, true)
  else if containsStr output "missing go.sum entry".toList then ("go mod tidy".toList, true)
  else if containsStr output "no required module provides".toList then ("go mod tidy".toList, true)
  else if containsStr output "ModuleNotFoundError".toList ||
      containsStr output "No module named".toList then
    ("pip install <missing-module>".toList, false)
  else if containsStr output "Cannot find module".toList then ("npm install".toList, true)
  else ([], false)

/-- The unfixable-by-rerun patterns (chat.go:2181-2192). -/
def unfixablePatterns : List Str :=
  ["no matching versions".toList, "404 Not Found".toList,
   "could not read Username".toList, "invalid version".toList,
   "unknown revision".toList, "malformed module path".toList,
   "unrecognized import path".toList, "already exists".toList,
   "file exists".toList]

/-- `isUnfixableByRerun` (chat.go:2181-2199). -/
def isUnfixableByRerun (output : Str) : Bool :=
  unfixablePatterns.any fun p => containsStr output p

/-- The per-line error signatures of `extractErrorSummary`
(chat.go:2085-2125), checked on each trimmed non-empty line. -/
def errorLinePatterns : List Str :=
  ["undefined:".toList, "cannot find".toList, "no required module".toList,
   "missing go.sum entry".toList, "error:".toList, "Error:".toList,
   "FAILED".toList, "fatal:".toList, "ModuleNotFoundError".toList,
   "ImportError".toList, "SyntaxError".toList, "Cannot find module".toList,
   "ERR!".toList, "command not found".toList, "not found".toList]

/-- First trimmed non-empty line containing a known error signature. -/
def findErrorLine : List Str → Option Str
  | [] => none
  | line :: rest =>
    let l := trimSpace line
    if decide (l ≠ []) && errorLinePatterns.any (fun p => containsStr l p) then some l
    else findErrorLine rest

/-- First trimmed non-empty line shorter than 200 characters. -/
def findShortLine : List Str → Option Str
  | [] => none
  | line :: rest =>
    let l := trimSpace line
    if decide (l ≠ []) && decide (l.length < 200) then some l
    else findShortLine rest

/-- `extractErrorSummary` (chat.go:2081-2150). -/
def extractErrorSummary (output command : Str) : Str :=
  let lines := splitLines output
  match findErrorLine lines with
  | some l => l
  | none =>
    if containsStr command "go build".toList then
      "Go build failed - check for compilation errors above".toList
    else if containsStr command "npm".toList || containsStr command "yarn".toList then
      "Node package operation failed".toList
    else if containsStr command "pip".toList then
      "Python package operation failed".toList
    else if containsStr command "cargo".toList then
      "Rust build failed".toList
    else match findShortLine lines with
      | some l => l
      | none => "Command exited with non-zero status".toList

/-! ## The run_command tool execution (`executeTool`, chat.go:1634-1741) -/

/-- Fields of `executor.Result` used by the run_command branch. -/
structure ExecResult where
  output : Str
  error : Str
  exitCode : Int
deriving DecidableEq, Repr

/-- `Result.String()`: stdout, then `stderr: ` plus stderr on a new line. -/
def resultString (output stderr : Str) : Str :=
  output ++ (if stderr ≠ [] then
    (if output ≠ [] then "\n".toList else []) ++ "stderr: ".toList ++ stderr
  else [])

/-- An ASCII apostrophe. -/
def apos : Char := Char.ofNat 39

/-- The generic investigate instruction queued when no fix is known but the
failure is unfixable by rerun (chat.go:1717). -/
def checkCommandMsg : Str :=
  "Check the command - the package/version may not exist. Use ".toList ++
    [apos] ++ "go list -m -versions <module>@latest".toList ++ [apos] ++
    " to find valid versions".toList

/-- The fix actually used: derived from stderr, falling back to the combined
output (chat.go:1693-1696). -/
def effectiveFix (stderr output : Str) : Str × Bool :=
  let fx := getFixCommand stderr
  if fx.1 = [] then getFixCommand output else fx

/-- The todo list built from scratch after a command failure
(chat.go:1698-1718): clear everything, then — because the store prepends —
push the re-run entry first (unless unfixable) and the fix entry second. -/
def rebuildTodosOnFailure (command stderr output : Str) : List TodoItem :=
  let fx := effectiveFix stderr output
  let unfixable := isUnfixableByRerun stderr || isUnfixableByRerun output
  let t0 : List TodoItem := []
  if fx.1 ≠ [] then
    let ta := if unfixable = false then addTodo t0 ("Then re-run: ".toList ++ command) else t0
    if fx.2 then addTodo ta ("Run: ".toList ++ fx.1)
    else addTodo ta ("Fix: ".toList ++ fx.1)
  else if unfixable = true then addTodo t0 checkCommandMsg
  else t0

/-- Strip the todo-entry prefixes when comparing against a just-run command
(chat.go:1663-1668). -/
def stripTodoPrefixes (s : Str) : Str :=
  if startsWith s "Run: ".toList then s.drop 5
  else if startsWith s "Then re-run: ".toList then s.drop 13
  else s

/-- Numbered rendering of the pending list (chat.go:1722-1726). -/
def renderTodoLines : List TodoItem → Nat → Str
  | [], _ => []
  | item :: rest, i =>
    natToStr i ++ ". ".toList ++ item.content ++ "\n".toList ++ renderTodoLines rest (i + 1)

/-- Success-path update of the pending list (chat.go:1657-1673): complete
the first pending todo when its command matches the one just run. -/
def runCommandSuccessTodos (command : Str) (todos : List TodoItem) : List TodoItem :=
  match getPending todos with
  | [] => todos
  | first :: _ =>
    let todoCmd := stripTodoPrefixes first.content
    if containsStr command todoCmd || containsStr todoCmd command then
      popFirstTodo todos
    else todos

/-- Success path of the run_command branch (chat.go:1657-1684): possibly
complete a matching pending todo, then report success. -/
def runCommandSuccess (command : Str) (r : ExecResult) (todos : List TodoItem) :
    Str × List TodoItem :=
  ("Command succeeded:\n".toList ++ resultString r.output r.error,
    runCommandSuccessTodos command todos)

/-- Tail of the failure report after the exit status: stderr section,
required todo stack and error summary (chat.go:1720-1741). -/
def runCommandFailureTail (command : Str) (r : ExecResult) : Str :=
  let output := resultString r.output r.error
  let stderr := r.error
  let errorSummary :=
    let e := extractErrorSummary stderr command
    if e = [] then extractErrorSummary output command else e
  let todoItems := getPending (rebuildTodosOnFailure command stderr output)
  let todoList :=
    if todoItems ≠ [] then
      "\n\nREQUIRED TODO STACK (do these in order):\n".toList ++
        renderTodoLines todoItems 1
    else []
  let stderrSection :=
    if stderr ≠ [] then "\n\nSTDERR OUTPUT:\n".toList ++ stderr ++ "\n".toList
    else []
  stderrSection ++ "\n=== STOP - YOU MUST FIX THIS ===\n".toList ++ todoList ++
    "\nError Summary: ".toList ++ errorSummary ++
    "\n\nDO NOT run other commands. Execute the first TODO item NOW.".toList

/-- Failure path of the run_command branch (chat.go:1687-1741): error
summary, fix lookup, todo rebuild and the `COMMAND FAILED` report. -/
def runCommandFailure (command : Str) (r : ExecResult) : Str × List TodoItem :=
  ("COMMAND FAILED (exit ".toList ++ intToStr r.exitCode ++ ")\n".toList ++
      runCommandFailureTail command r,
    rebuildTodosOnFailure command r.error (resultString r.output r.error))

/-- The run_command branch of `executeTool` (chat.go:1635-1741): permission
check, then the success path when the exit code is zero and stderr carries
no error signature, and the failure path otherwise.  Returns the
tool-result string and the new todo list. -/
def executeRunCommand (confirmed : Bool) (command : Str) (r : ExecResult)
    (todos : List TodoItem) : Str × List TodoItem :=
  if confirmed = false then
    ("OPERATION FAILED: User declined to execute command. The command was NOT run.".toList,
      todos)
  else if r.exitCode = 0 ∧ stderrHasError r.error = false then
    runCommandSuccess command r todos
  else
    runCommandFailure command r

/-! ## The fail-fast batch loop (`sendMessage`, chat.go:1560-1595) -/

/-- The failure sentinel the orchestrator pattern-matches. -/
def failSentinel : Str := "COMMAND FAILED".toList

/-- The per-batch tool-call loop: execute and record each call in order,
abandoning the rest of the batch as soon as a result contains the failure
sentinel (chat.go:1563-1576).  The tool executor is abstract, per the
specification's collaborator interface. -/
def runBatch {α : Type} (execF : α → Str) : List α → List (α × Str)
  | [] => []
  | c :: rest =>
    let r := execF c
    if containsStr r failSentinel then [(c, r)]
    else (c, r) :: runBatch execF rest

/-! ## The permission gate (`confirmTool`, chat.go:1943-2004; config.go:357-366) -/

/-- The interactive prompt's outcome, after lowercasing and trimming
(chat.go:1980-2003); `other` covers unrecognised input and read errors. -/
inductive PermAnswer | yes | no | always | never | other
deriving DecidableEq, Repr

/-- What a permission decision did: the verdict, whether the saved table was
consulted, whether the user was prompted, and any permission remembered. -/
structure ConfirmOutcome where
  approved : Bool
  consultedTable : Bool
  prompted : Bool
  savedPerm : Option Str
deriving DecidableEq, Repr

/-- `Config.GetToolPermission` (config.go:357-366): the saved permission for
a tool name, defaulting to `ask` when the table is nil or has no entry. -/
def getToolPermission (perms : Option (List (Str × Str))) (tool : Str) : Str :=
  match perms with
  | none => "ask".toList
  | some m =>
    match m.lookup tool with
    | some p => p
    | none => "ask".toList

/-- `confirmTool` (chat.go:1943-2004): auto-exec overrides everything;
otherwise `always`/`never` decide from the table without prompting; any
other saved value falls through to the interactive prompt, and with no
prompt available (`rl = none`, non-interactive) the call is declined. -/
def confirmTool (autoExec : Bool) (perms : Option (List (Str × Str))) (tool : Str)
    (rl : Option PermAnswer) : ConfirmOutcome :=
  if autoExec then ⟨true, false, false, none⟩
  else
    let perm := getToolPermission perms tool
    if perm = "always".toList then ⟨true, true, false, none⟩
    else if perm = "never".toList then ⟨false, true, false, none⟩
    else
      match rl with
      | none => ⟨false, true, false, none⟩
      | some ans =>
        match ans with
        | .yes => ⟨true, true, true, none⟩
        | .always => ⟨true, true, true, some "always".toList⟩
        | .never => ⟨false, true, true, some "never".toList⟩
        | .no => ⟨false, true, true, none⟩
        | .other => ⟨false, true, true, none⟩

/-! ## The conversation client's history discipline (`Chat`/`sendRequest`,
client.go:360-468) -/

/-- A conversation message. -/
structure CMessage where
  role : Str
  content : Str
  toolCalls : List StreamToolCall
  toolCallID : Str
deriving DecidableEq, Repr

/-- `AddSystemPrompt` (client.go:342-358): insert the system prompt, plus
language-specific rules when a working directory is set, only when the
configured prompt is non-empty and the history is empty. -/
def addSystemPrompt (sysPrompt rules : Str) (haveWorkDir : Bool)
    (hist : List CMessage) : List CMessage :=
  if sysPrompt ≠ [] ∧ hist = [] then
    hist ++ [⟨"system".toList,
      sysPrompt ++ (if haveWorkDir then "\n\n".toList ++ rules else []), [], []⟩]
  else hist

/-- What came back over the wire: a transport-level failure, or an HTTP
response with its status code, decoded result and whether the streaming
body was read without error. -/
inductive WireOutcome
  | transportError
  | response (status : Nat) (result : ChatResultM) (streamOk : Bool)
deriving DecidableEq, Repr

/-- `sendRequest` (client.go:383-468): the request carries the full history;
a transport error, a non-200 status, or a stream read error returns an
error without touching the history; on success the assistant message is
appended.  Returns (request messages, result, new history). -/
def sendRequest (hist : List CMessage) (o : WireOutcome) :
    List CMessage × Option ChatResultM × List CMessage :=
  match o with
  | .transportError => (hist, none, hist)
  | .response status result streamOk =>
    if status ≠ 200 then (hist, none, hist)
    else if streamOk = false then (hist, none, hist)
    else
      (hist, some result,
        hist ++ [⟨"assistant".toList, result.content,
          (if result.toolCalls.length > 0 then result.toolCalls else []), []⟩])

/-- `Chat` (client.go:360-369): lazily insert the system prompt, append the
user message, and issue the request. -/
def chatStep (sysPrompt rules : Str) (haveWorkDir : Bool) (hist : List CMessage)
    (userMessage : Str) (o : WireOutcome) :
    List CMessage × Option ChatResultM × List CMessage :=
  let h1 := addSystemPrompt sysPrompt rules haveWorkDir hist
  let h2 := h1 ++ [⟨"user".toList, userMessage, [], []⟩]
  sendRequest h2 o

/-- The failure condition of claim C8: transport failure or non-2xx status. -/
def wireFailed (o : WireOutcome) : Prop :=
  match o with
  | .transportError => True
  | .response status _ _ => status < 200 ∨ 300 ≤ status

/-! ## Theorems for claims C5, C6, C7, C8, C10 -/

/-- Dispatch to the failure branch. -/
theorem executeRunCommand_failed (command : Str) (r : ExecResult)
    (todos : List TodoItem)
    (h : ¬ (r.exitCode = 0 ∧ stderrHasError r.error = false)) :
    executeRunCommand true command r todos = runCommandFailure command r := by
  simp only [executeRunCommand]
  rw [if_neg (by decide), if_neg h]

/-- Dispatch to the success branch. -/
theorem executeRunCommand_succeeded (command : Str) (r : ExecResult)
    (todos : List TodoItem)
    (h : r.exitCode = 0 ∧ stderrHasError r.error = false) :
    executeRunCommand true command r todos = runCommandSuccess command r todos := by
  simp only [executeRunCommand]
  rw [if_neg (by decide), if_pos h]

/-- A `Run: `-prefixed entry never equals a `Then re-run: `-prefixed one. -/
theorem runNeRerun (a b : Str) :
    ¬ ("Run: ".toList ++ a = "Then re-run: ".toList ++ b) := by
  intro h
  have h2 := congrArg List.head? h
  rw [show ("Run: ".toList ++ a).head? = some 'R' from rfl,
      show ("Then re-run: ".toList ++ b).head? = some 'T' from rfl] at h2
  exact absurd h2 (by decide)

/-- A `Fix: `-prefixed entry never equals a `Then re-run: `-prefixed one. -/
theorem fixNeRerun (a b : Str) :
    ¬ ("Fix: ".toList ++ a = "Then re-run: ".toList ++ b) := by
  intro h
  have h2 := congrArg List.head? h
  rw [show ("Fix: ".toList ++ a).head? = some 'F' from rfl,
      show ("Then re-run: ".toList ++ b).head? = some 'T' from rfl] at h2
  exact absurd h2 (by decide)

/-- Claim C5: whenever a run_command result is classified as failed, the
pending list is rebuilt from scratch: the previous list is discarded
entirely (the new todos do not depend on it), and the rebuilt pending list
is — when a fix was derived — the fix entry first, followed by a re-run of
the original command unless the output matches an unfixable-by-rerun
pattern (the re-run entry having been enqueued before the fix entry because
the store prepends); with no fix but an unfixable failure, the single
generic investigate entry; otherwise empty. -/
theorem run_command_failure_todo_rebuild (command : Str) (r : ExecResult)
    (todos : List TodoItem)
    (h : ¬ (r.exitCode = 0 ∧ stderrHasError r.error = false)) :
    (executeRunCommand true command r todos).2 =
      rebuildTodosOnFailure command r.error (resultString r.output r.error) ∧
    ∀ (c stderr out : Str),
      getPending (rebuildTodosOnFailure c stderr out) =
        (let fx := effectiveFix stderr out
         let unfixable := isUnfixableByRerun stderr || isUnfixableByRerun out
         if fx.1 ≠ [] then
           ⟨(if fx.2 then "Run: ".toList ++ fx.1 else "Fix: ".toList ++ fx.1),
             TodoStatus.pending⟩ ::
             (if unfixable = false then
               [⟨"Then re-run: ".toList ++ c, TodoStatus.pending⟩]
             else [])
         else if unfixable = true then [⟨checkCommandMsg, TodoStatus.pending⟩]
         else []) := by
  constructor
  · rw [executeRunCommand_failed command r todos h]
    rfl
  · intro c stderr out
    simp only [rebuildTodosOnFailure]
    by_cases hfx : (effectiveFix stderr out).1 = []
    · rw [if_neg (by simp [hfx])]
      by_cases hu : (isUnfixableByRerun stderr || isUnfixableByRerun out) = true
      · rw [if_pos hu, if_pos hu, hfx]
        rfl
      · rw [if_neg hu, if_neg hu, hfx]
        rfl
    · rw [if_pos hfx, if_pos hfx]
      by_cases hu : (isUnfixableByRerun stderr || isUnfixableByRerun out) = false
      · rw [if_pos hu, if_pos hu]
        by_cases hcon : (effectiveFix stderr out).2 = true
        · rw [if_pos hcon, if_pos hcon]
          rw [show addTodo [] ("Then re-run: ".toList ++ c) =
            [⟨"Then re-run: ".toList ++ c, TodoStatus.pending⟩] from rfl]
          rw [show addTodo [⟨"Then re-run: ".toList ++ c, TodoStatus.pending⟩]
              ("Run: ".toList ++ (effectiveFix stderr out).1) =
            ⟨"Run: ".toList ++ (effectiveFix stderr out).1, TodoStatus.pending⟩ ::
              [⟨"Then re-run: ".toList ++ c, TodoStatus.pending⟩] by
            simp only [addTodo, List.any_cons, List.any_nil, Bool.or_false]
            rw [show decide (("Then re-run: ".toList ++ c) =
                ("Run: ".toList ++ (effectiveFix stderr out).1) ∧
                TodoStatus.pending ≠ TodoStatus.completed) = false from
              decide_eq_false fun hand =>
                runNeRerun (effectiveFix stderr out).1 c hand.1.symm]
            rfl]
          rfl
        · rw [if_neg hcon, if_neg hcon]
          rw [show addTodo [] ("Then re-run: ".toList ++ c) =
            [⟨"Then re-run: ".toList ++ c, TodoStatus.pending⟩] from rfl]
          rw [show addTodo [⟨"Then re-run: ".toList ++ c, TodoStatus.pending⟩]
              ("Fix: ".toList ++ (effectiveFix stderr out).1) =
            ⟨"Fix: ".toList ++ (effectiveFix stderr out).1, TodoStatus.pending⟩ ::
              [⟨"Then re-run: ".toList ++ c, TodoStatus.pending⟩] by
            simp only [addTodo, List.any_cons, List.any_nil, Bool.or_false]
            rw [show decide (("Then re-run: ".toList ++ c) =
                ("Fix: ".toList ++ (effectiveFix stderr out).1) ∧
                TodoStatus.pending ≠ TodoStatus.completed) = false from
              decide_eq_false fun hand =>
                fixNeRerun (effectiveFix stderr out).1 c hand.1.symm]
            rfl]
          rfl
      · have hu2 : (isUnfixableByRerun stderr || isUnfixableByRerun out) = true := by
          revert hu; cases (isUnfixableByRerun stderr || isUnfixableByRerun out) <;> simp
        rw [hu2]
        by_cases hcon : (effectiveFix stderr out).2 = true
        · rw [if_pos hcon, if_pos hcon]
          rfl
        · rw [if_neg hcon, if_neg hcon]
          rfl

/-- Witness for claim C5: a failed `go build ./...` whose stderr contains
`missing go.sum entry` rebuilds the pending list (discarding an old entry)
as the concrete fix `go mod tidy` followed by a re-run; with stderr also
matching the unfixable pattern `no matching versions`, no re-run entry is
queued. -/
theorem run_command_failure_todo_rebuild_witness :
    ¬ ((⟨"".toList, "missing go.sum entry for x".toList, 1⟩ : ExecResult).exitCode = 0 ∧
        stderrHasError (⟨"".toList, "missing go.sum entry for x".toList, 1⟩ : ExecResult).error
          = false) ∧
    getPending
        (executeRunCommand true "go build ./...".toList
          ⟨"".toList, "missing go.sum entry for x".toList, 1⟩
          [⟨"stale entry".toList, TodoStatus.pending⟩]).2 =
      [⟨"Run: go mod tidy".toList, TodoStatus.pending⟩,
       ⟨"Then re-run: go build ./...".toList, TodoStatus.pending⟩] ∧
    getPending
        (executeRunCommand true "go get foo".toList
          ⟨"".toList, "missing go.sum entry; no matching versions".toList, 1⟩ []).2 =
      [⟨"Run: go mod tidy".toList, TodoStatus.pending⟩] := by
  refine ⟨by decide, ?_, ?_⟩
  · rw [(run_command_failure_todo_rebuild "go build ./...".toList
      ⟨"".toList, "missing go.sum entry for x".toList, 1⟩
      [⟨"stale entry".toList, TodoStatus.pending⟩] (by decide)).1]
    decide
  · rw [(run_command_failure_todo_rebuild "go get foo".toList
      ⟨"".toList, "missing go.sum entry; no matching versions".toList, 1⟩ [] (by decide)).1]
    decide

/-- The empty pattern is a prefix of everything. -/
theorem startsWith_nil (s : Str) : startsWith s [] = true := by
  cases s <;> rfl

/-- A prefix check survives appending on the right. -/
theorem startsWith_append_of (q p t : Str) (h : startsWith p q = true) :
    startsWith (p ++ t) q = true := by
  induction q generalizing p with
  | nil => exact startsWith_nil _
  | cons d q ih =>
    cases p with
    | nil => exact absurd h (by simp [startsWith])
    | cons c p =>
      simp only [startsWith, Bool.and_eq_true] at h
      simp only [List.cons_append, startsWith, Bool.and_eq_true]
      exact ⟨h.1, ih p h.2⟩

/-- A string that starts with a pattern contains it. -/
theorem containsStr_of_startsWith (s p : Str) (h : startsWith s p = true) :
    containsStr s p = true := by
  unfold containsStr firstIndexOf
  rw [if_pos h]
  rfl

/-- Shape of the failure report: the sentinel and exit status lead. -/
theorem runCommandFailure_fst (command : Str) (r : ExecResult) :
    ∃ x, (runCommandFailure command r).1 =
      "COMMAND FAILED (exit ".toList ++ (intToStr r.exitCode ++ (")\n".toList ++ x)) := by
  unfold runCommandFailure
  exact ⟨runCommandFailureTail command r, by simp [List.append_assoc]⟩

/-- Shape of the success report. -/
theorem runCommandSuccess_fst (command : Str) (r : ExecResult) (todos : List TodoItem) :
    ∃ x, (runCommandSuccess command r todos).1 = "Command succeeded:\n".toList ++ x := by
  unfold runCommandSuccess
  exact ⟨resultString r.output r.error, rfl⟩

/-- Claim C10: a run_command call that exits 0 but whose stderr matches one
of the error signatures is reported with the `COMMAND FAILED (exit 0)`
sentinel, contains the failure sentinel that triggers the fail-fast and
error-recovery path, and rebuilds the todo list exactly as a non-zero exit
with the same outputs would; only a zero exit with clean stderr yields
`Command succeeded`. -/
theorem run_command_zero_exit_stderr (command o e : Str) (todos : List TodoItem) :
    (stderrHasError e = true →
      startsWith (executeRunCommand true command ⟨o, e, 0⟩ todos).1
          "COMMAND FAILED (exit 0)".toList = true ∧
      containsStr (executeRunCommand true command ⟨o, e, 0⟩ todos).1 failSentinel = true ∧
      (executeRunCommand true command ⟨o, e, 0⟩ todos).2 =
        rebuildTodosOnFailure command e (resultString o e) ∧
      (executeRunCommand true command ⟨o, e, 0⟩ todos).2 =
        (executeRunCommand true command ⟨o, e, 1⟩ todos).2) ∧
    (stderrHasError e = false →
      startsWith (executeRunCommand true command ⟨o, e, 0⟩ todos).1
          "Command succeeded:".toList = true) := by
  constructor
  · intro h1
    have hfail : ¬ ((⟨o, e, 0⟩ : ExecResult).exitCode = 0 ∧
        stderrHasError (⟨o, e, 0⟩ : ExecResult).error = false) := by
      intro hand
      have he : stderrHasError e = false := hand.2
      rw [h1] at he
      exact absurd he (by decide)
    rw [executeRunCommand_failed command ⟨o, e, 0⟩ todos hfail]
    have hfail1 : ¬ ((⟨o, e, 1⟩ : ExecResult).exitCode = 0 ∧
        stderrHasError (⟨o, e, 1⟩ : ExecResult).error = false) := by
      intro hand
      have h0 : (1 : Int) = 0 := hand.1
      exact absurd h0 (by decide)
    rw [executeRunCommand_failed command ⟨o, e, 1⟩ todos hfail1]
    obtain ⟨x, hx⟩ := runCommandFailure_fst command ⟨o, e, 0⟩
    have hx0 : (runCommandFailure command ⟨o, e, 0⟩).1 =
        "COMMAND FAILED (exit ".toList ++ (intToStr 0 ++ (")\n".toList ++ x)) := hx
    have hcat : "COMMAND FAILED (exit ".toList ++ (intToStr 0 ++ (")\n".toList ++ x)) =
        "COMMAND FAILED (exit 0)\n".toList ++ x := by
      rw [← List.append_assoc, ← List.append_assoc]
      exact congrArg (fun l => l ++ x) (by decide)
    refine ⟨?_, ?_, rfl, rfl⟩
    · rw [hx0, hcat]
      exact startsWith_append_of _ _ _ (by decide)
    · rw [hx0, hcat]
      exact containsStr_of_startsWith _ _ (startsWith_append_of _ _ _ (by decide))
  · intro h2
    have hsucc : (⟨o, e, 0⟩ : ExecResult).exitCode = 0 ∧
        stderrHasError (⟨o, e, 0⟩ : ExecResult).error = false := ⟨rfl, h2⟩
    rw [executeRunCommand_succeeded command ⟨o, e, 0⟩ todos hsucc]
    obtain ⟨x, hx⟩ := runCommandSuccess_fst command ⟨o, e, 0⟩ todos
    rw [hx]
    exact startsWith_append_of _ _ _ (by decide)

/-- Witness for claim C10: `exit 0` with stderr `build failed: boom` is
reported as a failure; with empty stderr it is reported as a success. -/
theorem run_command_zero_exit_stderr_witness :
    (stderrHasError "build failed: boom".toList = true ∧
      startsWith
        (executeRunCommand true "go test".toList
          ⟨"ok".toList, "build failed: boom".toList, 0⟩ []).1
        "COMMAND FAILED (exit 0)".toList = true) ∧
    (stderrHasError "".toList = false ∧
      startsWith
        (executeRunCommand true "go test".toList ⟨"ok".toList, "".toList, 0⟩ []).1
        "Command succeeded:".toList = true) :=
  ⟨⟨by decide,
    ((run_command_zero_exit_stderr "go test".toList "ok".toList
      "build failed: boom".toList []).1 (by decide)).1⟩,
   ⟨by decide,
    (run_command_zero_exit_stderr "go test".toList "ok".toList "".toList []).2
      (by decide)⟩⟩

/-- Claim C6: the batch loop is fail-fast.  If the result of the tool call
at position `i` contains the `COMMAND FAILED` sentinel, the loop executes
and records only the batch prefix up to the first such failure (some
position `m ≤ i`): every tool call after it is neither executed nor
recorded in that turn. -/
theorem runBatch_fail_fast {α : Type} (execF : α → Str) (calls : List α) (i : Nat)
    (hi : i < calls.length)
    (hfail : containsStr (execF (calls.get ⟨i, hi⟩)) failSentinel = true) :
    ∃ m, m ≤ i ∧
      runBatch execF calls = (calls.take (m + 1)).map fun c => (c, execF c) := by
  induction calls generalizing i with
  | nil => simp at hi
  | cons c rest ih =>
    by_cases hc : containsStr (execF c) failSentinel = true
    · exact ⟨0, Nat.zero_le i, by simp [runBatch, hc]⟩
    · cases i with
      | zero => exact absurd hfail hc
      | succ j =>
        have hj : j < rest.length := by simpa using hi
        have hf2 : containsStr (execF (rest.get ⟨j, hj⟩)) failSentinel = true := hfail
        obtain ⟨m, hm, heq⟩ := ih j hj hf2
        refine ⟨m + 1, by omega, ?_⟩
        show (if containsStr (execF c) failSentinel = true then [(c, execF c)]
              else (c, execF c) :: runBatch execF rest) =
          ((c :: rest).take (m + 1 + 1)).map fun d => (d, execF d)
        rw [if_neg hc, List.take_succ_cons, List.map_cons, heq]

/-- The batch used by the C6 witness: three commands, the second failing. -/
def c6exec (n : Nat) : Str :=
  if n = 1 then "xx COMMAND FAILED (exit 1) yy".toList else "ok".toList

/-- Witness for claim C6: with the second of three calls failing, only the
first two are executed and recorded. -/
theorem runBatch_fail_fast_witness :
    (1 : Nat) < ([0, 1, 2] : List Nat).length ∧
    containsStr (c6exec (([0, 1, 2] : List Nat).get ⟨1, by decide⟩)) failSentinel = true ∧
    ∃ m, m ≤ 1 ∧
      runBatch c6exec [0, 1, 2] = (([0, 1, 2] : List Nat).take (m + 1)).map
        fun c => (c, c6exec c) :=
  ⟨by decide, by decide, runBatch_fail_fast c6exec [0, 1, 2] 1 (by decide) (by decide)⟩

/-- Claim C7: the permission gate.  Auto-exec approves unconditionally,
consulting neither the saved table nor the prompt; a saved `always`
approves and a saved `never` denies, neither prompting; the default `ask`
with no interactive prompt available resolves to deny; and an unapproved
run_command is not executed — the executor result is ignored and the
declined sentinel string is returned with the todos untouched. -/
theorem confirmTool_policy :
    (∀ (perms : Option (List (Str × Str))) (tool : Str) (rl : Option PermAnswer),
      confirmTool true perms tool rl = ⟨true, false, false, none⟩) ∧
    (∀ (perms : Option (List (Str × Str))) (tool : Str) (rl : Option PermAnswer),
      getToolPermission perms tool = "always".toList →
        confirmTool false perms tool rl = ⟨true, true, false, none⟩) ∧
    (∀ (perms : Option (List (Str × Str))) (tool : Str) (rl : Option PermAnswer),
      getToolPermission perms tool = "never".toList →
        confirmTool false perms tool rl = ⟨false, true, false, none⟩) ∧
    (∀ (perms : Option (List (Str × Str))) (tool : Str),
      getToolPermission perms tool = "ask".toList →
        confirmTool false perms tool none = ⟨false, true, false, none⟩) ∧
    (∀ (command : Str) (r : ExecResult) (todos : List TodoItem),
      executeRunCommand false command r todos =
        ("OPERATION FAILED: User declined to execute command. The command was NOT run.".toList,
          todos)) := by
  refine ⟨fun perms tool rl => rfl, ?_, ?_, ?_, fun command r todos => rfl⟩
  · intro perms tool rl h
    simp only [confirmTool, h]
    rfl
  · intro perms tool rl h
    simp only [confirmTool, h]
    rfl
  · intro perms tool h
    simp only [confirmTool, h]
    rfl

/-- Witness for claim C7 on a concrete saved table. -/
theorem confirmTool_policy_witness :
    confirmTool true (some [("run_command".toList, "never".toList)])
        "run_command".toList none = ⟨true, false, false, none⟩ ∧
    (getToolPermission (some [("git_commit".toList, "always".toList)])
        "git_commit".toList = "always".toList ∧
      confirmTool false (some [("git_commit".toList, "always".toList)])
        "git_commit".toList none = ⟨true, true, false, none⟩) ∧
    (getToolPermission (some [("run_command".toList, "never".toList)])
        "run_command".toList = "never".toList ∧
      confirmTool false (some [("run_command".toList, "never".toList)])
        "run_command".toList (some PermAnswer.yes) = ⟨false, true, false, none⟩) ∧
    (getToolPermission none "write_file".toList = "ask".toList ∧
      confirmTool false none "write_file".toList none = ⟨false, true, false, none⟩) :=
  ⟨confirmTool_policy.1 _ _ _,
   ⟨by decide, confirmTool_policy.2.1 _ _ _ (by decide)⟩,
   ⟨by decide, confirmTool_policy.2.2.1 _ _ _ (by decide)⟩,
   ⟨by decide, confirmTool_policy.2.2.2.1 _ _ (by decide)⟩⟩

/-- The request always carries exactly the current history. -/
theorem sendRequest_req (hist : List CMessage) (o : WireOutcome) :
    (sendRequest hist o).1 = hist := by
  cases o with
  | transportError => rfl
  | response st r sOk =>
    by_cases h1 : st ≠ 200
    · simp [sendRequest, h1]
    · simp only [sendRequest, if_neg h1]
      by_cases h2 : sOk = false
      · simp [h2]
      · simp [h2]

/-- Claim C8: on a transport failure or a non-2xx response, `Chat` returns
an error and the history is exactly the prior history extended by the
lazily inserted system prompt (when the history was empty and a prompt is
configured) and the triggering user message — no assistant message is
appended and nothing is removed or altered; a retried request (the
continuation path re-issues with the same history) re-sends exactly that
pending turn, without duplicating the user message. -/
theorem chat_failure_preserves_history (sysPrompt rules : Str) (hw : Bool)
    (hist : List CMessage) (u : Str) (o : WireOutcome) (h : wireFailed o) :
    (chatStep sysPrompt rules hw hist u o).2.1 = none ∧
    (chatStep sysPrompt rules hw hist u o).2.2 =
      addSystemPrompt sysPrompt rules hw hist ++ [⟨"user".toList, u, [], []⟩] ∧
    (chatStep sysPrompt rules hw hist u o).1 =
      addSystemPrompt sysPrompt rules hw hist ++ [⟨"user".toList, u, [], []⟩] ∧
    ∀ (o₂ : WireOutcome),
      (sendRequest ((chatStep sysPrompt rules hw hist u o).2.2) o₂).1 =
        (chatStep sysPrompt rules hw hist u o).2.2 := by
  cases o with
  | transportError =>
    exact ⟨rfl, rfl, rfl, fun o₂ => sendRequest_req _ o₂⟩
  | response st r sOk =>
    have hst : st ≠ 200 := by
      simp only [wireFailed] at h
      omega
    refine ⟨?_, ?_, ?_, fun o₂ => sendRequest_req _ o₂⟩ <;>
      simp [chatStep, sendRequest, hst]

/-- Witness for claim C8: a 500 response on a one-message history leaves
exactly the history plus the new user message, with no assistant entry. -/
theorem chat_failure_preserves_history_witness :
    wireFailed (WireOutcome.response 500 ⟨[], [], []⟩ true) ∧
    (chatStep "be helpful".toList [] false
        [⟨"system".toList, "be helpful".toList, [], []⟩] "hi".toList
        (WireOutcome.response 500 ⟨[], [], []⟩ true)).2.2 =
      [⟨"system".toList, "be helpful".toList, [], []⟩,
       ⟨"user".toList, "hi".toList, [], []⟩] :=
  ⟨by simp [wireFailed],
   by rw [(chat_failure_preserves_history "be helpful".toList [] false
      [⟨"system".toList, "be helpful".toList, [], []⟩] "hi".toList
      (WireOutcome.response 500 ⟨[], [], []⟩ true) (by simp [wireFailed])).2.1]
      rfl⟩

/-! ## A model of `encoding/json` decoding (used by the text tool-call
parser)

The parser validates and decodes the brace-balanced spans it extracts with
`encoding/json.Unmarshal`.  The decoder below models the accepted JSON
grammar: RFC 8259 values with Go's whitespace set, string escapes including
`\uXXXX` with surrogate-pair combination (a lone surrogate decoding to
U+FFFD, as in Go), raw control characters rejected inside strings, and
numbers kept syntactic.  (Go additionally range-checks numbers when
decoding into `float64`; that rejection of out-of-range literals is not
modelled.) -/

/-- A decoded JSON value; numbers are kept as their source text. -/
inductive JValue where
  | jnull
  | jbool (b : Bool)
  | jnum (raw : Str)
  | jstr (s : Str)
  | jarr (elems : List JValue)
  | jobj (members : List (Str × JValue))
deriving Repr

/-- Skip JSON inter-token whitespace. -/
def skipJsonWS (s : Str) : Str := s.dropWhile fun c => isJsonWS c

/-- Value of a hexadecimal digit. -/
def hexDigit (c : Char) : Option Nat :=
  if '0' ≤ c ∧ c ≤ '9' then some (c.toNat - '0'.toNat)
  else if 'a' ≤ c ∧ c ≤ 'f' then some (c.toNat - 'a'.toNat + 10)
  else if 'A' ≤ c ∧ c ≤ 'F' then some (c.toNat - 'A'.toNat + 10)
  else none

/-- Decode a `\uXXXX` escape (input positioned after the `u`); returns the
decoded character and how many characters were consumed: 4, or 10 when a
high surrogate is combined with a following `\uXXXX` low surrogate.  A
lone surrogate decodes to U+FFFD, as in Go. -/
def parseUnicodeEscape (s : Str) : Option (Char × Nat) :=
  match s with
  | h1 :: h2 :: h3 :: h4 :: rest3 =>
    match hexDigit h1, hexDigit h2, hexDigit h3, hexDigit h4 with
    | some d1, some d2, some d3, some d4 =>
      let n := ((d1 * 16 + d2) * 16 + d3) * 16 + d4
      if 0xD800 ≤ n ∧ n ≤ 0xDBFF then
        match rest3 with
        | b :: u :: g1 :: g2 :: g3 :: g4 :: _ =>
          if b = '\\' ∧ u = 'u' then
            match hexDigit g1, hexDigit g2, hexDigit g3, hexDigit g4 with
            | some x1, some x2, some x3, some x4 =>
              let m := ((x1 * 16 + x2) * 16 + x3) * 16 + x4
              if 0xDC00 ≤ m ∧ m ≤ 0xDFFF then
                some (Char.ofNat (0x10000 + (n - 0xD800) * 0x400 + (m - 0xDC00)), 10)
              else some ('\uFFFD', 4)
            | _, _, _, _ => some ('\uFFFD', 4)
          else some ('\uFFFD', 4)
        | _ => some ('\uFFFD', 4)
      else if 0xDC00 ≤ n ∧ n ≤ 0xDFFF then some ('\uFFFD', 4)
      else some (Char.ofNat n, 4)
    | _, _, _, _ => none
  | _ => none

/-- Decode the body of a JSON string (input positioned after the opening
quote); returns the decoded characters and the input after the closing
quote. -/
def parseStringBody : Str → Option (Str × Str)
  | [] => none
  | c :: rest =>
    if c = '"' then some ([], rest)
    else if c = '\\' then
      match rest with
      | [] => none
      | e :: rest2 =>
        if e = '"' then (parseStringBody rest2).map fun p => ('"' :: p.1, p.2)
        else if e = '\\' then (parseStringBody rest2).map fun p => ('\\' :: p.1, p.2)
        else if e = '/' then (parseStringBody rest2).map fun p => ('/' :: p.1, p.2)
        else if e = 'b' then (parseStringBody rest2).map fun p => ('\x08' :: p.1, p.2)
        else if e = 'f' then (parseStringBody rest2).map fun p => ('\x0c' :: p.1, p.2)
        else if e = 'n' then (parseStringBody rest2).map fun p => ('\n' :: p.1, p.2)
        else if e = 'r' then (parseStringBody rest2).map fun p => ('\r' :: p.1, p.2)
        else if e = 't' then (parseStringBody rest2).map fun p => ('\t' :: p.1, p.2)
        else if e = 'u' then
          match parseUnicodeEscape rest2 with
          | none => none
          | some (ch, n) =>
            (parseStringBody (rest2.drop n)).map fun p => (ch :: p.1, p.2)
        else none
    else if c.toNat < 0x20 then none
    else (parseStringBody rest).map fun p => (c :: p.1, p.2)
termination_by s => s.length
decreasing_by
  all_goals simp only [List.length_cons, List.length_drop]
  all_goals omega

/-- Parse a JSON number (RFC 8259 grammar), returning its source text and
the rest of the input. -/
def parseNumberBody (s : Str) : Option (Str × Str) :=
  let (neg, s1) := match s with
    | '-' :: t => ((['-'] : Str), t)
    | _ => (([] : Str), s)
  match s1 with
  | [] => none
  | c :: t =>
    if c = '0' ∨ (c.isDigit = true) then
      let intPart := if c = '0' then ['0'] else c :: t.takeWhile fun d => d.isDigit
      let s2 := if c = '0' then t else t.dropWhile fun d => d.isDigit
      let fracRes : Option (Str × Str) :=
        match s2 with
        | '.' :: u =>
          let ds := u.takeWhile fun d => d.isDigit
          if ds = [] then none else some ('.' :: ds, u.dropWhile fun d => d.isDigit)
        | _ => some ([], s2)
      match fracRes with
      | none => none
      | some (frac, s3) =>
        let expRes : Option (Str × Str) :=
          match s3 with
          | e :: u =>
            if e = 'e' ∨ e = 'E' then
              let (sgn, u2) := match u with
                | '+' :: v => ((['+'] : Str), v)
                | '-' :: v => ((['-'] : Str), v)
                | _ => (([] : Str), u)
              let ds := u2.takeWhile fun d => d.isDigit
              if ds = [] then none
              else some (e :: sgn ++ ds, u2.dropWhile fun d => d.isDigit)
            else some ([], s3)
          | [] => some ([], s3)
        match expRes with
        | none => none
        | some (ex, s4) => some (neg ++ intPart ++ frac ++ ex, s4)
    else none

mutual

/-- Parse one JSON value (fuel-indexed; the fuel only bounds recursion
depth and every recursive call consumes input). -/
def parseJsonValue : Nat → Str → Option (JValue × Str)
  | 0, _ => none
  | fuel + 1, s =>
    match skipJsonWS s with
    | [] => none
    | c :: rest =>
      if c = '{' then
        match skipJsonWS rest with
        | '}' :: r2 => some (.jobj [], r2)
        | r1 => (parseJsonMembers fuel r1).map fun p =>
            (.jobj (p.1.map fun m => (m.1, m.2.1)), p.2)
      else if c = '[' then
        match skipJsonWS rest with
        | ']' :: r2 => some (.jarr [], r2)
        | r1 => (parseJsonElems fuel r1).map fun p => (.jarr p.1, p.2)
      else if c = '"' then
        (parseStringBody rest).map fun p => (.jstr p.1, p.2)
      else if c = 't' then
        match rest with
        | 'r' :: 'u' :: 'e' :: r => some (.jbool true, r)
        | _ => none
      else if c = 'f' then
        match rest with
        | 'a' :: 'l' :: 's' :: 'e' :: r => some (.jbool false, r)
        | _ => none
      else if c = 'n' then
        match rest with
        | 'u' :: 'l' :: 'l' :: r => some (.jnull, r)
        | _ => none
      else
        (parseNumberBody (c :: rest)).map fun p => (.jnum p.1, p.2)

/-- Parse the members of a JSON object (input positioned after `{` or after
a `,`), recording each member's key, value and the raw source text of the
value (Go keeps it verbatim for `json.RawMessage` fields). -/
def parseJsonMembers : Nat → Str → Option (List (Str × JValue × Str) × Str)
  | 0, _ => none
  | fuel + 1, s =>
    match skipJsonWS s with
    | '"' :: rest =>
      match parseStringBody rest with
      | none => none
      | some (key, r1) =>
        match skipJsonWS r1 with
        | ':' :: r2 =>
          let r2w := skipJsonWS r2
          match parseJsonValue fuel r2w with
          | none => none
          | some (v, r3) =>
            let raw := r2w.take (r2w.length - r3.length)
            match skipJsonWS r3 with
            | ',' :: r4 =>
              (parseJsonMembers fuel r4).map fun p => ((key, v, raw) :: p.1, p.2)
            | '}' :: r4 => some ([(key, v, raw)], r4)
            | _ => none
        | _ => none
    | _ => none

/-- Parse the elements of a JSON array (input positioned after `[` or after
a `,`). -/
def parseJsonElems : Nat → Str → Option (List JValue × Str)
  | 0, _ => none
  | fuel + 1, s =>
    match parseJsonValue fuel s with
    | none => none
    | some (v, r1) =>
      match skipJsonWS r1 with
      | ',' :: r2 => (parseJsonElems fuel r2).map fun p => (v :: p.1, p.2)
      | ']' :: r2 => some ([v], r2)
      | _ => none

end

/-- Parse a top-level JSON object, returning its members (with raw value
spans) and the remaining input. -/
def parseTopLevelObject (s : Str) : Option (List (Str × JValue × Str) × Str) :=
  match skipJsonWS s with
  | '{' :: rest =>
    match skipJsonWS rest with
    | '}' :: r2 => some ([], r2)
    | r1 => parseJsonMembers (s.length + 1) r1
  | _ => none

/-- ASCII lowering, modelling Go's case-insensitive JSON field matching. -/
def asciiLower (c : Char) : Char :=
  if 'A' ≤ c ∧ c ≤ 'Z' then Char.ofNat (c.toNat + 32) else c

/-- Does a JSON object key select the struct field with (lower-case)
canonical name `t`? -/
def keyMatches (k t : Str) : Bool := k.map asciiLower = t

/-- The decoded `TextToolCall` struct: `Name string` and
`Arguments json.RawMessage`. -/
structure TextToolCallM where
  name : Str
  argumentsRaw : Option Str
deriving DecidableEq, Repr

/-- Fold the object members into the struct fields, later duplicates
overwriting, unknown keys ignored; a non-string, non-null `name` is a type
error. -/
def foldTextToolCallFields : List (Str × JValue × Str) → TextToolCallM →
    Option TextToolCallM
  | [], acc => some acc
  | (k, v, raw) :: rest, acc =>
    if keyMatches k "name".toList then
      match v with
      | .jstr s => foldTextToolCallFields rest { acc with name := s }
      | .jnull => foldTextToolCallFields rest acc
      | _ => none
    else if keyMatches k "arguments".toList then
      foldTextToolCallFields rest { acc with argumentsRaw := some raw }
    else
      foldTextToolCallFields rest acc

/-- `json.Unmarshal` of a span into `TextToolCall` (client.go:113-117):
a full top-level object with well-typed fields, nothing but whitespace
after it. -/
def decodeTextToolCall (s : Str) : Option TextToolCallM :=
  match parseTopLevelObject s with
  | none => none
  | some (members, rest) =>
    if skipJsonWS rest = [] then foldTextToolCallFields members ⟨[], none⟩
    else none

/-- `json.Unmarshal` of a span into `map[string]interface{}`
(client.go:153-157): validation that the span is one well-formed JSON
object. -/
def validJsonObject (s : Str) : Bool :=
  match parseTopLevelObject s with
  | none => false
  | some (_, rest) => decide (skipJsonWS rest = [])

/-! ## The text tool-call parser (`ParseToolCallsFromText`, client.go:85-176) -/

/-- A recovered tool call (`tools.ToolCall` as synthesized by the text
parser). -/
structure ToolCallM where
  id : Str
  callType : Str
  name : Str
  arguments : Str
deriving DecidableEq, Repr

/-- The opening marker of the tagged format. -/
def tagOpen : Str := "<tool_call>".toList

/-- The closing marker of the tagged format. -/
def tagClose : Str := "</tool_call>".toList

/-- `takeWhile` never lengthens a list. -/
theorem takeWhileLenLe (p : Char → Bool) (l : Str) :
    (l.takeWhile p).length ≤ l.length := by
  induction l with
  | nil => simp
  | cons c t ih =>
    rw [List.takeWhile]
    cases p c
    · simp
    · simp
      omega

/-- A successful prefix match is no longer than the string. -/
theorem startsWith_length (s p : Str) (h : startsWith s p = true) :
    p.length ≤ s.length := by
  induction p generalizing s with
  | nil => simp
  | cons d q ih =>
    cases s with
    | nil => exact absurd h (by simp [startsWith])
    | cons c s =>
      simp only [startsWith, Bool.and_eq_true] at h
      simpa using ih s h.2

/-- A found occurrence lies within the string. -/
theorem firstIndexOf_bound (s p : Str) (i : Nat) (h : firstIndexOf s p = some i) :
    i + p.length ≤ s.length := by
  induction s generalizing i with
  | nil =>
    rw [firstIndexOf] at h
    by_cases hs : startsWith [] p = true
    · rw [if_pos hs] at h
      injection h with h
      subst h
      simpa using startsWith_length [] p hs
    · rw [if_neg hs] at h
      simp at h
  | cons c t ih =>
    rw [firstIndexOf] at h
    by_cases hs : startsWith (c :: t) p = true
    · rw [if_pos hs] at h
      injection h with h
      subst h
      simpa using startsWith_length (c :: t) p hs
    · rw [if_neg hs] at h
      rw [Option.map_eq_some'] at h
      obtain ⟨j, hj, hji⟩ := h
      subst hji
      have := ih j hj
      simp only [List.length_cons]
      omega

/-- The scan loop only returns positions inside its input window. -/
theorem extractLoop_bounds (l : Str) :
    ∀ (i : Nat) (d : Int) (b1 b2 : Bool) (j : Nat),
      extractLoop l i d b1 b2 = some j → i ≤ j ∧ j < i + l.length := by
  induction l with
  | nil => intro i d b1 b2 j h; simp [extractLoop] at h
  | cons c rest ih =>
    intro i d b1 b2 j h
    simp only [extractLoop] at h
    simp only [List.length_cons]
    split_ifs at h with h1 h2 h3 h4 h5 h6 h7
    all_goals first
      | (injection h with h; omega)
      | (have hb := ih (i + 1) _ _ _ j h; omega)

/-- `findTagOpen`: the Go regexp search for `<tool_call>\s*` — leftmost
occurrence of the marker, then the maximal run of `\s` whitespace. -/
def findTagOpen (s : Str) : Option (Nat × Nat) :=
  match firstIndexOf s tagOpen with
  | none => none
  | some l0 =>
    some (l0, l0 + tagOpen.length +
      ((s.drop (l0 + tagOpen.length)).takeWhile fun c => isRegexWS c).length)

/-- Bounds of a tag-open match. -/
theorem findTagOpen_bound (s : Str) (l0 l1 : Nat)
    (h : findTagOpen s = some (l0, l1)) :
    l0 + tagOpen.length ≤ l1 ∧ l1 ≤ s.length := by
  unfold findTagOpen at h
  cases hf : firstIndexOf s tagOpen with
  | none => rw [hf] at h; simp at h
  | some j =>
    rw [hf] at h
    simp only [Option.some.injEq, Prod.mk.injEq] at h
    obtain ⟨h1, h2⟩ := h
    have hb := firstIndexOf_bound s tagOpen j hf
    have hw := takeWhileLenLe (fun c => isRegexWS c) (s.drop (j + tagOpen.length))
    rw [List.length_drop] at hw
    omega

/-- A successful extraction ends after its starting brace and within the
string. -/
theorem extractJSON_bounds (s : Str) (start : Nat)
    (h : (extractJSON s start).1 ≠ []) :
    ∃ e : Nat, (extractJSON s start).2 = (e : Int) ∧ start < e ∧ e ≤ s.length := by
  unfold extractJSON at h ⊢
  by_cases h1 : start ≥ s.length
  · rw [if_pos h1] at h; simp at h
  · rw [if_neg h1] at h ⊢
    by_cases h2 : s.getD start ' ' ≠ '{'
    · rw [if_pos h2] at h; simp at h
    · rw [if_neg h2] at h ⊢
      cases hl : extractLoop (s.drop start) start 0 false false with
      | none => rw [hl] at h; simp at h
      | some j =>
        have hb := extractLoop_bounds (s.drop start) start 0 false false j hl
        rw [List.length_drop] at hb
        exact ⟨j + 1, rfl, by omega, by omega⟩

/-- The tagged-format loop of `ParseToolCallsFromText` (client.go:94-129):
find `<tool_call>\s*`, find the closing marker, extract and decode the
balanced object between them; on success append a synthesized tool call,
in every case (decodable or not) remove the whole tagged span and rescan
from the start; stop when no opening or no closing marker is found. -/
def taggedLoop (cleanedText : Str) (toolCalls : List ToolCallM) (callIndex : Nat) :
    List ToolCallM × Str × Nat :=
  match h1 : findTagOpen cleanedText with
  | none => (toolCalls, cleanedText, callIndex)
  | some (loc0, jsonStart) =>
    match h2 : firstIndexOf (cleanedText.drop jsonStart) tagClose with
    | none => (toolCalls, cleanedText, callIndex)
    | some closeIdx =>
      let content := trimSpace ((cleanedText.drop jsonStart).take closeIdx)
      let jsonStr := (extractJSON content 0).1
      let newText := cleanedText.take loc0 ++
        cleanedText.drop (jsonStart + closeIdx + tagClose.length)
      if jsonStr = [] then
        taggedLoop newText toolCalls callIndex
      else
        match decodeTextToolCall jsonStr with
        | none => taggedLoop newText toolCalls callIndex
        | some tc =>
          taggedLoop newText
            (toolCalls ++ [⟨"text_call_".toList ++ natToStr callIndex,
              "function".toList, tc.name, tc.argumentsRaw.getD []⟩])
            (callIndex + 1)
termination_by cleanedText.length
decreasing_by
  all_goals
    (have hb1 := findTagOpen_bound cleanedText loc0 jsonStart h1
     have hb2 := firstIndexOf_bound (cleanedText.drop jsonStart) tagClose closeIdx h2
     rw [List.length_drop] at hb2
     have h11 : tagOpen.length = 11 := rfl
     have h12 : tagClose.length = 12 := rfl
     rw [h11] at hb1
     rw [h12] at hb2
     simp only [List.length_append, List.length_take, List.length_drop, h12]
     omega)

/-- Is there a raw-format match at this exact position: the tool name,
a maximal run of `\s` whitespace, then `{`?  Returns the match length. -/
def rawMatchAt (name t : Str) : Option Nat :=
  if startsWith t name then
    let after := t.drop name.length
    let k := (after.takeWhile fun c => isRegexWS c).length
    match after.drop k with
    | '{' :: _ => some (name.length + k + 1)
    | _ => none
  else none

/-- Leftmost raw-format match of `name\s*\{` (Go regexp semantics),
scanning from position `pos`. -/
def findRawMatchAux (name : Str) : Str → Nat → Option (Nat × Nat)
  | [], pos =>
    match rawMatchAt name [] with
    | some mlen => some (pos, pos + mlen)
    | none => none
  | s@(_ :: t), pos =>
    match rawMatchAt name s with
    | some mlen => some (pos, pos + mlen)
    | none => findRawMatchAux name t (pos + 1)

/-- Leftmost match of the raw pattern in the whole string. -/
def findRawMatch (name s : Str) : Option (Nat × Nat) := findRawMatchAux name s 0

/-- Bounds of a raw match: the match covers the name, the whitespace and
the opening brace, inside the string. -/
theorem rawMatchAt_bound (name t : Str) (mlen : Nat)
    (h : rawMatchAt name t = some mlen) : 1 ≤ mlen ∧ mlen ≤ t.length := by
  unfold rawMatchAt at h
  by_cases hs : startsWith t name = true
  · rw [if_pos hs] at h
    have hn := startsWith_length t name hs
    have hw := takeWhileLenLe (fun c => isRegexWS c) (t.drop name.length)
    rw [List.length_drop] at hw
    dsimp only at h
    split at h
    · injection h with h
      rename_i tail heq
      have hlen := congrArg List.length heq
      simp only [List.length_drop, List.length_cons] at hlen
      omega
    · simp at h
  · rw [if_neg hs] at h
    simp at h

/-- A raw match lies strictly inside the scanned string, at or after the
scan position. -/
theorem findRawMatchAux_bound (name : Str) :
    ∀ (s : Str) (pos m0 m1 : Nat), findRawMatchAux name s pos = some (m0, m1) →
      pos ≤ m0 ∧ m0 < m1 ∧ m1 ≤ pos + s.length := by
  intro s
  induction s with
  | nil =>
    intro pos m0 m1 h
    rw [findRawMatchAux] at h
    cases hr : rawMatchAt name [] with
    | some mlen =>
      have hb := rawMatchAt_bound name [] mlen hr
      simp at hb
      omega
    | none => rw [hr] at h; simp at h
  | cons c t ih =>
    intro pos m0 m1 h
    rw [findRawMatchAux] at h
    cases hr : rawMatchAt name (c :: t) with
    | some mlen =>
      rw [hr] at h
      simp only [Option.some.injEq, Prod.mk.injEq] at h
      obtain ⟨h1, h2⟩ := h
      have hb := rawMatchAt_bound name (c :: t) mlen hr
      simp only [List.length_cons] at hb ⊢
      omega
    | none =>
      rw [hr] at h
      have := ih (pos + 1) m0 m1 h
      simp only [List.length_cons] at *
      omega

/-- Bounds of the leftmost raw match. -/
theorem findRawMatch_bound (name s : Str) (m0 m1 : Nat)
    (h : findRawMatch name s = some (m0, m1)) : m0 < m1 ∧ m1 ≤ s.length := by
  have := findRawMatchAux_bound name s 0 m0 m1 h
  omega

/-- The raw-format inner loop for one tool name (client.go:136-171): find
the leftmost `name\s*\{`, extract the balanced object at its brace,
validate it as JSON; on success synthesize a tool call and remove the
matched span (name through end of object), rescanning from the start; on
an unbalanced or undecodable object stop scanning for this name, leaving
the text unchanged. -/
def rawLoop (name : Str) (cleanedText : Str) (toolCalls : List ToolCallM)
    (callIndex : Nat) : List ToolCallM × Str × Nat :=
  match h1 : findRawMatch name cleanedText with
  | none => (toolCalls, cleanedText, callIndex)
  | some (m0, m1) =>
    let jsonStr := (extractJSON cleanedText (m1 - 1)).1
    let jsonEnd := (extractJSON cleanedText (m1 - 1)).2
    if h2 : jsonStr = [] then (toolCalls, cleanedText, callIndex)
    else if validJsonObject jsonStr = false then (toolCalls, cleanedText, callIndex)
    else
      rawLoop name (cleanedText.take m0 ++ cleanedText.drop jsonEnd.toNat)
        (toolCalls ++ [⟨"text_call_".toList ++ natToStr callIndex,
          "function".toList, name, jsonStr⟩])
        (callIndex + 1)
termination_by cleanedText.length
decreasing_by
  have hb1 := findRawMatch_bound name cleanedText m0 m1 h1
  obtain ⟨e, he, he1, he2⟩ := extractJSON_bounds cleanedText (m1 - 1) h2
  simp only [List.length_append, List.length_take, List.length_drop, he,
    Int.toNat_natCast]
  omega

/-- The raw phase: each known tool name in order, sharing the call-index
counter (client.go:132-172). -/
def rawPhase : List Str → Str → List ToolCallM → Nat → List ToolCallM × Str × Nat
  | [], text, calls, idx => (calls, text, idx)
  | name :: names, text, calls, idx =>
    match rawLoop name text calls idx with
    | (calls2, text2, idx2) => rawPhase names text2 calls2 idx2

/-- The known tool names scanned by the raw format (client.go:74-79). -/
def knownToolNames : List Str :=
  ["run_command".toList, "write_file".toList, "write_doc".toList,
   "read_file".toList, "web_search".toList, "fetch_url".toList,
   "screenshot".toList, "git_status".toList, "git_diff".toList,
   "git_add".toList, "git_commit".toList, "git_log".toList,
   "list_files".toList, "get_version".toList, "set_version".toList]

/-- `ParseToolCallsFromText` (client.go:85-176): the tagged phase, then the
raw phase over all known tool names, then a final trim of the cleaned
text. -/
def parseToolCallsFromText (text : Str) : List ToolCallM × Str :=
  match taggedLoop text [] 0 with
  | (calls1, text1, idx1) =>
    match rawPhase knownToolNames text1 calls1 idx1 with
    | (calls2, text2, _) => (calls2, trimSpace text2)

/-! ## String lemmas supporting the parser theorems -/

/-- Every string starts with itself. -/
theorem startsWith_refl (p : Str) : startsWith p p = true := by
  induction p with
  | nil => rfl
  | cons c t ih => simp [startsWith, ih]

/-- A string starts with any of its prefixes. -/
theorem startsWith_append (p t : Str) : startsWith (p ++ t) p = true :=
  startsWith_append_of p p t (startsWith_refl p)

/-- Unfolding `containsStr` over a cons cell. -/
theorem containsStr_cons (c : Char) (t p : Str) :
    containsStr (c :: t) p = (startsWith (c :: t) p || containsStr t p) := by
  unfold containsStr
  rw [firstIndexOf]
  by_cases h : startsWith (c :: t) p = true
  · rw [if_pos h, h, Bool.true_or]
    rfl
  · rw [if_neg h,
      show startsWith (c :: t) p = false by revert h; cases startsWith (c :: t) p <;> simp,
      Bool.false_or]
    change (Option.map (fun x => x + 1) (firstIndexOf t p)).isSome = (firstIndexOf t p).isSome
    cases firstIndexOf t p <;> rfl

/-- A string contains a pattern iff the pattern starts at some position. -/
theorem containsStr_iff (s p : Str) :
    containsStr s p = true ↔ ∃ i, startsWith (s.drop i) p = true := by
  induction s with
  | nil =>
    unfold containsStr
    rw [show firstIndexOf [] p = if startsWith [] p then some 0 else none from rfl]
    by_cases h : startsWith [] p = true
    · rw [if_pos h]
      constructor
      · intro _
        exact ⟨0, h⟩
      · intro _
        rfl
    · rw [if_neg h]
      constructor
      · intro hx
        simp at hx
      · intro ⟨i, hi⟩
        rw [List.drop_nil] at hi
        exact absurd hi h
  | cons c t ih =>
    rw [containsStr_cons]
    constructor
    · intro h
      rw [Bool.or_eq_true] at h
      cases h with
      | inl h => exact ⟨0, h⟩
      | inr h =>
        obtain ⟨i, hi⟩ := ih.mp h
        exact ⟨i + 1, hi⟩
    · intro ⟨i, hi⟩
      rw [Bool.or_eq_true]
      cases i with
      | zero => exact Or.inl hi
      | succ j => exact Or.inr (ih.mpr ⟨j, hi⟩)

/-- A prefix match is a take. -/
theorem startsWith_iff_take (s p : Str) :
    startsWith s p = true ↔ s.take p.length = p := by
  induction p generalizing s with
  | nil => simp [startsWith_nil]
  | cons d q ih =>
    cases s with
    | nil =>
      constructor
      · intro h; exact absurd h (by simp [startsWith])
      · intro h; simp at h
    | cons c s =>
      simp only [startsWith, Bool.and_eq_true, List.length_cons, List.take_succ_cons,
        List.cons.injEq, decide_eq_true_eq]
      rw [ih]

/-- Leftmost occurrence of a pattern placed right after a stretch free of
its first character. -/
theorem firstIndexOf_append (a t : Str) (ph : Char) (pt : Str)
    (ha : ph ∉ a) :
    firstIndexOf (a ++ ((ph :: pt) ++ t)) (ph :: pt) = some a.length := by
  induction a with
  | nil =>
    rw [List.nil_append]
    unfold firstIndexOf
    rw [if_pos (startsWith_append (ph :: pt) t)]
    rfl
  | cons c a2 ih =>
    have hc : ¬ c = ph := fun h => ha (by simp [h])
    rw [List.cons_append]
    change (if startsWith (c :: (a2 ++ (ph :: pt ++ t))) (ph :: pt) = true then some 0
      else Option.map (fun x => x + 1)
        (firstIndexOf (a2 ++ (ph :: pt ++ t)) (ph :: pt))) = some (c :: a2).length
    rw [if_neg (by simp [startsWith, hc])]
    rw [ih (fun h => ha (by simp [h]))]
    rfl

/-- `takeWhile` stops at the first failing character even across an
append. -/
theorem takeWhile_append_stop (q : Char → Bool) (a : Str) (c : Char) (d : Str)
    (hc : q c = false) :
    (a ++ c :: d).takeWhile q = a.takeWhile q := by
  induction a with
  | nil => simp [List.takeWhile, hc]
  | cons x a2 ih =>
    rw [List.cons_append, List.takeWhile, List.takeWhile]
    cases q x
    · rfl
    · simp only
      rw [ih]

/-- `takeWhile` passes over an all-satisfying prefix. -/
theorem takeWhile_append_all (q : Char → Bool) (a b : Str)
    (ha : ∀ x ∈ a, q x = true) :
    (a ++ b).takeWhile q = a ++ b.takeWhile q := by
  induction a with
  | nil => rfl
  | cons x a2 ih =>
    rw [List.cons_append, List.takeWhile]
    rw [ha x (by simp)]
    simp only
    rw [ih fun x hx => ha x (by simp [hx])]
    rfl

/-- Dropping the `takeWhile` prefix is `dropWhile`. -/
theorem drop_takeWhile_length (q : Char → Bool) (l : Str) :
    l.drop (l.takeWhile q).length = l.dropWhile q := by
  induction l with
  | nil => rfl
  | cons c t ih =>
    rw [List.takeWhile, List.dropWhile]
    cases q c
    · simp
    · simp only [List.length_cons, List.drop_succ_cons]
      exact ih

/-- Regexp whitespace is trim whitespace. -/
theorem regexWS_trimWS (c : Char) (h : isRegexWS c = true) : isTrimWS c = true := by
  unfold isRegexWS at h
  unfold isTrimWS
  rcases Bool.or_eq_true _ _ |>.mp h with h | h
  · rcases Bool.or_eq_true _ _ |>.mp h with h | h
    · rcases Bool.or_eq_true _ _ |>.mp h with h | h
      · rcases Bool.or_eq_true _ _ |>.mp h with h | h <;> simp [h]
      · simp [h]
    · simp [h]
  · simp [h]

/-- Pre-dropping regexp whitespace does not change a trim-whitespace
drop. -/
theorem dropWhile_trim_regex (l : Str) :
    (l.dropWhile fun c => isRegexWS c).dropWhile (fun c => isTrimWS c) =
      l.dropWhile fun c => isTrimWS c := by
  induction l with
  | nil => rfl
  | cons c t ih =>
    rw [List.dropWhile]
    cases hr : isRegexWS c
    · rfl
    · have ht := regexWS_trimWS c hr
      simp only
      rw [ih, List.dropWhile, ht]

/-- Pre-dropping regexp whitespace does not change `trimSpace`. -/
theorem trimSpace_dropWhile_regex (l : Str) :
    trimSpace (l.dropWhile fun c => isRegexWS c) = trimSpace l := by
  unfold trimSpace
  rw [dropWhile_trim_regex]

/-- The scan loop ignores anything after the closing position it finds. -/
theorem extractLoop_append (l : Str) :
    ∀ (t : Str) (i : Nat) (d : Int) (b1 b2 : Bool) (j : Nat),
      extractLoop l i d b1 b2 = some j →
        extractLoop (l ++ t) i d b1 b2 = some j := by
  induction l with
  | nil => intro t i d b1 b2 j h; simp [extractLoop] at h
  | cons c rest ih =>
    intro t i d b1 b2 j h
    rw [List.cons_append]
    rw [extractLoop] at h ⊢
    split_ifs at h ⊢ with h1 h2 h3 h4 h5 h6 h7
    all_goals first
      | exact ih t _ _ _ _ j h
      | exact h

/-- The scan loop is invariant under shifting the base position. -/
theorem extractLoop_shift (l : Str) :
    ∀ (i k : Nat) (d : Int) (b1 b2 : Bool),
      extractLoop l (i + k) d b1 b2 =
        (extractLoop l k d b1 b2).map fun x => i + x := by
  induction l with
  | nil => intro i k d b1 b2; simp [extractLoop]
  | cons c rest ih =>
    intro i k d b1 b2
    rw [extractLoop]
    conv_rhs => rw [extractLoop]
    split_ifs with h1 h2 h3 h4 h5 h6 h7
    all_goals try (rw [Nat.add_assoc i k 1, ih])
    all_goals rfl

/-- The characters tool names are made of: lowercase ASCII letters and the
underscore. -/
def alphaChar (c : Char) : Bool := ('a' ≤ c && c ≤ 'z') || c = '_'

/-- Last character of a string, with a default. -/
def lastCharD : Str → Char → Char
  | [], d => d
  | c :: t, _ => lastCharD t c

/-- The last character does not depend on the default when the string is
non-empty. -/
theorem lastCharD_ne_nil (t : Str) (h : t ≠ []) (c d : Char) :
    lastCharD t c = lastCharD t d := by
  cases t with
  | nil => exact absurd rfl h
  | cons x t2 => rfl

/-- The last character of a non-empty string is one of its characters. -/
theorem lastCharD_mem (t : Str) (h : t ≠ []) (c : Char) : lastCharD t c ∈ t := by
  induction t generalizing c with
  | nil => exact absurd rfl h
  | cons x t2 ih =>
    rw [lastCharD]
    cases ht : t2 with
    | nil => subst ht; simp [lastCharD]
    | cons y t3 =>
      have h2 := ih (by rw [ht]; simp) x
      rw [ht] at h2
      exact List.mem_cons_of_mem x h2

/-- The last character survives any front drop. -/
theorem lastCharD_mem_drop (a : Str) :
    ∀ (i : Nat), i < a.length → ∀ d, lastCharD a d ∈ a.drop i := by
  induction a with
  | nil => intro i hi; simp at hi
  | cons c t ih =>
    intro i hi d
    cases i with
    | zero =>
      rw [List.drop_zero]
      exact lastCharD_mem (c :: t) (by simp) d
    | succ j =>
      rw [List.drop_succ_cons]
      have hj : j < t.length := by simpa using hi
      have ht : t ≠ [] := by
        intro hx
        rw [hx] at hj
        simp at hj
      rw [lastCharD, lastCharD_ne_nil t ht c d]
      exact ih j hj d

/-- Characters of a prefix match come from the pattern. -/
theorem startsWith_mem (s p : Str) (h : startsWith s p = true) :
    ∀ c ∈ p, c ∈ s := by
  induction p generalizing s with
  | nil => simp
  | cons d q ih =>
    cases s with
    | nil => exact absurd h (by simp [startsWith])
    | cons c s2 =>
      simp only [startsWith, Bool.and_eq_true, decide_eq_true_eq] at h
      intro x hx
      rcases List.mem_cons.mp hx with hx | hx
      · simp [hx, h.1]
      · simp [ih s2 h.2 x hx]

/-- No occurrence can begin inside a stretch of characters foreign to the
pattern's first character. -/
theorem contains_append_inert (a b n : Str) (nh : Char) (nt : Str)
    (hn : n = nh :: nt) (hh : alphaChar nh = true)
    (ha : ∀ c ∈ a, alphaChar c = false) (hb : containsStr b n = false) :
    containsStr (a ++ b) n = false := by
  induction a with
  | nil => simpa using hb
  | cons c a2 ih =>
    have hc : alphaChar c = false := ha c (by simp)
    rw [List.cons_append, containsStr_cons]
    have h1 : startsWith (c :: (a2 ++ b)) n = false := by
      subst hn
      simp only [startsWith]
      rw [show decide (c = nh) = false from decide_eq_false fun hx => by
        rw [hx] at hc; rw [hc] at hh; exact Bool.false_ne_true hh]
      rfl
    rw [h1, Bool.false_or]
    exact ih fun x hx => ha x (by simp [hx])

/-- No occurrence can cross out of a block whose last character is foreign
to the pattern, so containment splits over such an append. -/
theorem contains_append_blocked (a b n : Str)
    (ha : containsStr a n = false)
    (hn : ∀ c ∈ n, alphaChar c = true)
    (hlast : a = [] ∨ alphaChar (lastCharD a ' ') = false)
    (hb : containsStr b n = false) :
    containsStr (a ++ b) n = false := by
  cases hae : a with
  | nil => simpa using hb
  | cons a0 a2 =>
    rw [← hae]
    by_cases hcon : containsStr (a ++ b) n = true
    · exfalso
      obtain ⟨i, hi⟩ := (containsStr_iff (a ++ b) n).mp hcon
      by_cases hia : a.length ≤ i
      · have hdrop : (a ++ b).drop i = b.drop (i - a.length) := by
          rw [List.drop_append_eq_append_drop]
          rw [List.drop_eq_nil_of_le hia, List.nil_append]
        rw [hdrop] at hi
        have : containsStr b n = true := (containsStr_iff b n).mpr ⟨i - a.length, hi⟩
        rw [this] at hb
        exact absurd hb (by decide)
      · push_neg at hia
        have hdrop : (a ++ b).drop i = a.drop i ++ b := by
          rw [List.drop_append_eq_append_drop]
          rw [show i - a.length = 0 by omega, List.drop_zero]
        rw [hdrop] at hi
        by_cases hlen : n.length ≤ a.length - i
        · have htake : (a.drop i ++ b).take n.length = (a.drop i).take n.length := by
            rw [List.take_append_eq_append_take]
            rw [show n.length - (a.drop i).length = 0 by
              rw [List.length_drop]; omega, List.take_zero, List.append_nil]
          have hsw : startsWith (a.drop i) n = true := by
            rw [startsWith_iff_take] at hi ⊢
            rw [htake] at hi
            exact hi
          have : containsStr a n = true := (containsStr_iff a n).mpr ⟨i, hsw⟩
          rw [this] at ha
          exact absurd ha (by decide)
        · push_neg at hlen
          have hmem : lastCharD a ' ' ∈ a.drop i := lastCharD_mem_drop a i hia ' '
          have hmem2 : lastCharD a ' ' ∈ n := by
            have hsub := startsWith_mem _ _ hi
            rw [startsWith_iff_take] at hi
            have : a.drop i ⊆ (a.drop i ++ b).take n.length := by
              rw [hi]
              intro x hx
              rw [← hi]
              rw [List.take_append_eq_append_take]
              have : x ∈ (a.drop i).take n.length := by
                rw [List.take_of_length_le (by rw [List.length_drop]; omega)]
                exact hx
              exact List.mem_append.mpr (Or.inl this)
            have hx := this hmem
            rw [hi] at hx
            exact hx
          have := hn _ hmem2
          rcases hlast with hl | hl
          · rw [hl] at hae; simp at hae
          · rw [hl] at this; exact absurd this (by decide)
    · revert hcon
      cases containsStr (a ++ b) n <;> simp

/-- A pattern whose first character is absent never occurs. -/
theorem notContains_head (s : Str) (ph : Char) (pt : Str) (h : ph ∉ s) :
    containsStr s (ph :: pt) = false := by
  induction s with
  | nil => rfl
  | cons c t ih =>
    rw [containsStr_cons]
    have hc : ¬ c = ph := fun hx => h (by simp [hx])
    rw [show startsWith (c :: t) (ph :: pt) = false by simp [startsWith, hc]]
    rw [Bool.false_or]
    exact ih fun hx => h (by simp [hx])

/-- Not containing means no first index. -/
theorem firstIndexOf_eq_none (s p : Str) (h : containsStr s p = false) :
    firstIndexOf s p = none := by
  unfold containsStr at h
  cases hf : firstIndexOf s p with
  | none => rfl
  | some i => rw [hf] at h; simp at h

/-- No tagged match in text without `<`. -/
theorem findTagOpen_none (s : Str) (h : Char.ofNat 60 ∉ s) : findTagOpen s = none := by
  unfold findTagOpen
  rw [firstIndexOf_eq_none s tagOpen
    (notContains_head s (Char.ofNat 60) "tool_call>".toList (by simpa using h))]

/-- One non-advancing step of the tagged loop. -/
theorem taggedLoop_none (s : Str) (calls : List ToolCallM) (idx : Nat)
    (h : findTagOpen s = none) : taggedLoop s calls idx = (calls, s, idx) := by
  rw [taggedLoop, h]

/-- One advancing step of the tagged loop. -/
theorem taggedLoop_step (s : Str) (calls : List ToolCallM) (idx : Nat) (l0 js ci : Nat)
    (h1 : findTagOpen s = some (l0, js))
    (h2 : firstIndexOf (s.drop js) tagClose = some ci) :
    taggedLoop s calls idx =
      (let jsonStr := (extractJSON (trimSpace ((s.drop js).take ci)) 0).1
       let newText := s.take l0 ++ s.drop (js + ci + tagClose.length)
       if jsonStr = [] then taggedLoop newText calls idx
       else match decodeTextToolCall jsonStr with
         | none => taggedLoop newText calls idx
         | some tc =>
           taggedLoop newText
             (calls ++ [⟨"text_call_".toList ++ natToStr idx,
               "function".toList, tc.name, tc.argumentsRaw.getD []⟩])
             (idx + 1)) := by
  rw [taggedLoop, h1]
  dsimp only
  rw [h2]

/-! ## Claim C3: scenarios for the tagged format -/

/-- A piece of assistant text: inert prose, or one tagged block whose body
is `inner` (rendered `<tool_call>` ++ inner ++ `</tool_call>`). -/
inductive TagSeg where
  | plain (s : Str)
  | block (inner : Str)

/-- Rendering of one segment. -/
def TagSeg.render : TagSeg → Str
  | .plain s => s
  | .block inner => tagOpen ++ (inner ++ tagClose)

/-- Rendering of a segment list. -/
def renderTagSegs : List TagSeg → Str
  | [] => []
  | seg :: rest => seg.render ++ renderTagSegs rest

/-- Inert prose for the tagged scenario: no markers can occur or arise
(no `<`), and the raw phase cannot fire either (no `{`). -/
def plainOkTag (s : Str) : Prop := Char.ofNat 60 ∉ s ∧ Char.ofNat 123 ∉ s

/-- Well-formedness of a segment: block bodies carry no `<`. -/
def TagSeg.ok : TagSeg → Prop
  | .plain s => plainOkTag s
  | .block inner => Char.ofNat 60 ∉ inner

/-- What the parser does with one block body: the decoded call, if the
trimmed body starts with a balanced, decodable object. -/
def tagBlockOutcome (inner : Str) : Option (Str × Str) :=
  let jsonStr := (extractJSON (trimSpace inner) 0).1
  if jsonStr = [] then none
  else match decodeTextToolCall jsonStr with
    | none => none
    | some tc => some (tc.name, tc.argumentsRaw.getD [])

/-- The tool calls produced from the segments, numbered from `idx`. -/
def tagProduced : List TagSeg → Nat → List ToolCallM
  | [], _ => []
  | .plain _ :: rest, idx => tagProduced rest idx
  | .block inner :: rest, idx =>
    match tagBlockOutcome inner with
    | none => tagProduced rest idx
    | some nv =>
      ⟨"text_call_".toList ++ natToStr idx, "function".toList, nv.1, nv.2⟩ ::
        tagProduced rest (idx + 1)

/-- The text left after removing every block. -/
def tagPlains : List TagSeg → Str
  | [] => []
  | .plain s :: rest => s ++ tagPlains rest
  | .block _ :: rest => tagPlains rest

/-- How many blocks decode successfully. -/
def tagCount : List TagSeg → Nat
  | [] => 0
  | .plain _ :: rest => tagCount rest
  | .block inner :: rest =>
    (if (tagBlockOutcome inner).isSome then 1 else 0) + tagCount rest

/-- The first marker of a block placed after inert prose. -/
theorem findTagOpen_block (P inner R : Str) (hP : Char.ofNat 60 ∉ P) :
    findTagOpen (P ++ (tagOpen ++ (inner ++ (tagClose ++ R)))) =
      some (P.length, P.length + tagOpen.length +
        ((inner.takeWhile fun c => isRegexWS c).length)) := by
  unfold findTagOpen
  rw [show tagOpen = Char.ofNat 60 :: "tool_call>".toList from rfl] at *
  rw [firstIndexOf_append P (inner ++ (tagClose ++ R)) (Char.ofNat 60)
    "tool_call>".toList hP]
  dsimp only
  have hdrop : (P ++ (Char.ofNat 60 :: "tool_call>".toList ++ (inner ++ (tagClose ++ R)))).drop
      (P.length + (Char.ofNat 60 :: "tool_call>".toList).length) =
      inner ++ (tagClose ++ R) := by
    rw [show P ++ (Char.ofNat 60 :: "tool_call>".toList ++ (inner ++ (tagClose ++ R))) =
      (P ++ Char.ofNat 60 :: "tool_call>".toList) ++ (inner ++ (tagClose ++ R)) by
      rw [List.append_assoc]]
    rw [show P.length + (Char.ofNat 60 :: "tool_call>".toList).length =
      (P ++ Char.ofNat 60 :: "tool_call>".toList).length by rw [List.length_append]]
    exact List.drop_left _ _
  rw [hdrop]
  have hws : (inner ++ (tagClose ++ R)).takeWhile (fun c => isRegexWS c) =
      inner.takeWhile fun c => isRegexWS c := by
    rw [show tagClose ++ R = Char.ofNat 60 :: ("/tool_call>".toList ++ R) from rfl]
    exact takeWhile_append_stop _ inner (Char.ofNat 60) _ (by decide)
  rw [hws]

/-- The closing marker right after the block body. -/
theorem firstIndexOf_close (inner R : Str) (hinner : Char.ofNat 60 ∉ inner) :
    firstIndexOf (inner ++ (tagClose ++ R)) tagClose = some inner.length := by
  rw [show tagClose = Char.ofNat 60 :: "/tool_call>".toList from rfl]
  exact firstIndexOf_append inner R (Char.ofNat 60) "/tool_call>".toList hinner

/-- The tagged-format pass on a segment scenario: every well-formed block is
consumed, decoded blocks append numbered calls, and the plain text survives. -/
theorem taggedLoop_segs (segs : List TagSeg) :
    ∀ (P : Str), plainOkTag P → (∀ seg ∈ segs, TagSeg.ok seg) →
    ∀ (calls : List ToolCallM) (idx : Nat),
    taggedLoop (P ++ renderTagSegs segs) calls idx =
      (calls ++ tagProduced segs idx, P ++ tagPlains segs, idx + tagCount segs) := by
  induction segs with
  | nil =>
    intro P hP _ calls idx
    rw [show renderTagSegs [] = [] from rfl, List.append_nil]
    rw [taggedLoop_none _ _ _ (findTagOpen_none P hP.1)]
    simp [tagProduced, tagPlains, tagCount]
  | cons seg rest ih =>
    intro P hP hsegs calls idx
    have hrest : ∀ sg ∈ rest, TagSeg.ok sg := fun sg hm => hsegs _ (by simp [hm])
    cases seg with
    | plain s =>
      have hs : plainOkTag s := hsegs (TagSeg.plain s) (List.mem_cons_self _ _)
      have hPs : plainOkTag (P ++ s) := by
        refine ⟨fun hmem => ?_, fun hmem => ?_⟩
        · rcases List.mem_append.mp hmem with h | h
          · exact hP.1 h
          · exact hs.1 h
        · rcases List.mem_append.mp hmem with h | h
          · exact hP.2 h
          · exact hs.2 h
      rw [show P ++ renderTagSegs (TagSeg.plain s :: rest) =
        (P ++ s) ++ renderTagSegs rest by
        simp [renderTagSegs, TagSeg.render, List.append_assoc]]
      rw [ih (P ++ s) hPs hrest calls idx]
      simp [tagProduced, tagPlains, tagCount, List.append_assoc]
    | block inner =>
      have hin : Char.ofNat 60 ∉ inner := hsegs (TagSeg.block inner) (List.mem_cons_self _ _)
      have hw := takeWhileLenLe (fun c => isRegexWS c) inner
      rw [show P ++ renderTagSegs (TagSeg.block inner :: rest) =
        P ++ (tagOpen ++ (inner ++ (tagClose ++ renderTagSegs rest))) by
        simp [renderTagSegs, TagSeg.render, List.append_assoc]]
      have h1 := findTagOpen_block P inner (renderTagSegs rest) hP.1
      have hdrop : (P ++ (tagOpen ++ (inner ++ (tagClose ++ renderTagSegs rest)))).drop
          (P.length + tagOpen.length +
            ((inner.takeWhile fun c => isRegexWS c).length)) =
          (inner.drop ((inner.takeWhile fun c => isRegexWS c).length)) ++
            (tagClose ++ renderTagSegs rest) := by
        rw [show P ++ (tagOpen ++ (inner ++ (tagClose ++ renderTagSegs rest))) =
          (P ++ tagOpen) ++ (inner ++ (tagClose ++ renderTagSegs rest)) by
          rw [List.append_assoc]]
        rw [show P.length + tagOpen.length +
            ((inner.takeWhile fun c => isRegexWS c).length) =
          (P ++ tagOpen).length +
            ((inner.takeWhile fun c => isRegexWS c).length) by
          rw [List.length_append]]
        rw [List.drop_append, List.drop_append_eq_append_drop]
        rw [Nat.sub_eq_zero_of_le hw, List.drop_zero]
      have hltin : Char.ofNat 60 ∉
          inner.drop ((inner.takeWhile fun c => isRegexWS c).length) :=
        fun hm => hin (List.drop_subset _ inner hm)
      have h2 : firstIndexOf
          ((P ++ (tagOpen ++ (inner ++ (tagClose ++ renderTagSegs rest)))).drop
            (P.length + tagOpen.length +
              ((inner.takeWhile fun c => isRegexWS c).length))) tagClose =
          some (inner.drop ((inner.takeWhile fun c => isRegexWS c).length)).length := by
        rw [hdrop]
        exact firstIndexOf_close _ _ hltin
      rw [taggedLoop_step _ calls idx P.length _ _ h1 h2]
      dsimp only
      have hcontent : ((P ++ (tagOpen ++ (inner ++ (tagClose ++ renderTagSegs rest)))).drop
          (P.length + tagOpen.length +
            ((inner.takeWhile fun c => isRegexWS c).length))).take
          (inner.drop ((inner.takeWhile fun c => isRegexWS c).length)).length =
          inner.drop ((inner.takeWhile fun c => isRegexWS c).length) := by
        rw [hdrop]
        exact List.take_left _ _
      have htrim : trimSpace
          (inner.drop ((inner.takeWhile fun c => isRegexWS c).length)) =
          trimSpace inner := by
        rw [drop_takeWhile_length]
        exact trimSpace_dropWhile_regex inner
      have hnewdrop : (P ++ (tagOpen ++ (inner ++ (tagClose ++ renderTagSegs rest)))).drop
          (P.length + tagOpen.length +
            ((inner.takeWhile fun c => isRegexWS c).length) +
            (inner.drop ((inner.takeWhile fun c => isRegexWS c).length)).length +
            tagClose.length) = renderTagSegs rest := by
        rw [show P ++ (tagOpen ++ (inner ++ (tagClose ++ renderTagSegs rest))) =
          (P ++ (tagOpen ++ (inner ++ tagClose))) ++ renderTagSegs rest by
          simp [List.append_assoc]]
        rw [show P.length + tagOpen.length +
            ((inner.takeWhile fun c => isRegexWS c).length) +
            (inner.drop ((inner.takeWhile fun c => isRegexWS c).length)).length +
            tagClose.length =
          (P ++ (tagOpen ++ (inner ++ tagClose))).length by
          simp only [List.length_append, List.length_drop]
          omega]
        exact List.drop_left _ _
      rw [hcontent, htrim, hnewdrop, List.take_left]
      by_cases hj : (extractJSON (trimSpace inner) 0).1 = []
      · rw [if_pos hj, ih P hP hrest calls idx]
        have hout : tagBlockOutcome inner = none := by
          unfold tagBlockOutcome
          rw [if_pos hj]
        simp [tagProduced, tagPlains, tagCount, hout]
      · rw [if_neg hj]
        cases hd : decodeTextToolCall (extractJSON (trimSpace inner) 0).1 with
        | none =>
          dsimp only
          rw [ih P hP hrest calls idx]
          have hout : tagBlockOutcome inner = none := by
            unfold tagBlockOutcome
            rw [if_neg hj, hd]
          simp [tagProduced, tagPlains, tagCount, hout]
        | some tc =>
          dsimp only
          rw [ih P hP hrest _ (idx + 1)]
          have hout : tagBlockOutcome inner = some (tc.name, tc.argumentsRaw.getD []) := by
            unfold tagBlockOutcome
            rw [if_neg hj, hd]
          simp [tagProduced, tagPlains, tagCount, hout, List.append_assoc]
          omega

/-! ## Occurrence-position machinery for the raw phase and the round trip -/

/-- No occurrence of `p` starts inside `a` when `a` is followed by `Y`. -/
def NoStart (a Y p : Str) : Prop :=
  ∀ i, i < a.length → startsWith (a.drop i ++ Y) p = false

/-- A block without the pattern head char admits no occurrence start. -/
theorem noStart_no_head (a Y : Str) (nh : Char) (nt : Str) (ha : nh ∉ a) :
    NoStart a Y (nh :: nt) := by
  intro i hi
  rw [List.drop_eq_getElem_cons hi, List.cons_append]
  have hx : ¬ a[i] = nh := fun h => ha (h ▸ List.getElem_mem hi)
  simp [startsWith, hx]

/-- Occurrence starts split over an append. -/
theorem noStart_append (a b Y p : Str) (h1 : NoStart a (b ++ Y) p)
    (h2 : NoStart b Y p) : NoStart (a ++ b) Y p := by
  intro i hi
  rw [List.length_append] at hi
  by_cases hia : i < a.length
  · have hd : (a ++ b).drop i = a.drop i ++ b := by
      rw [List.drop_append_eq_append_drop, show i - a.length = 0 by omega,
        List.drop_zero]
    rw [hd, List.append_assoc]
    exact h1 i hia
  · have hd : (a ++ b).drop i = b.drop (i - a.length) := by
      rw [List.drop_append_eq_append_drop, List.drop_eq_nil_of_le (by omega),
        List.nil_append]
    rw [hd]
    exact h2 (i - a.length) (by omega)

/-- An occurrence starting in `a` either lies inside `a` or crosses into
the next character; both are excluded. -/
theorem noStart_cross (a : Str) (c : Char) (T p : Str)
    (ha : containsStr a p = false) (hc : c ∉ p) : NoStart a (c :: T) p := by
  intro i hi
  cases hb : startsWith (a.drop i ++ c :: T) p with
  | false => rfl
  | true =>
    exfalso
    by_cases hlen : p.length ≤ a.length - i
    · have hsw : startsWith (a.drop i) p = true := by
        rw [startsWith_iff_take] at hb ⊢
        rw [List.take_append_eq_append_take,
          show p.length - (a.drop i).length = 0 by rw [List.length_drop]; omega,
          List.take_zero, List.append_nil] at hb
        exact hb
      have hcon : containsStr a p = true := (containsStr_iff a p).mpr ⟨i, hsw⟩
      rw [hcon] at ha
      exact absurd ha (by decide)
    · push_neg at hlen
      rw [startsWith_iff_take, List.take_append_eq_append_take] at hb
      have hlen2 : 1 ≤ p.length - (a.drop i).length := by
        rw [List.length_drop]; omega
      obtain ⟨k, hk⟩ := Nat.exists_eq_add_of_le hlen2
      apply hc
      rw [← hb, hk, show 1 + k = k + 1 from Nat.add_comm 1 k, List.take_succ_cons]
      exact List.mem_append.mpr (Or.inr (List.mem_cons_self c _))

/-- Containment refuted from a pattern-head-free prefix. -/
theorem contains_append_no_head (a b : Str) (nh : Char) (nt : Str)
    (ha : nh ∉ a) (hb : containsStr b (nh :: nt) = false) :
    containsStr (a ++ b) (nh :: nt) = false := by
  induction a with
  | nil => simpa using hb
  | cons c t ih =>
    rw [List.cons_append, containsStr_cons]
    have hc : ¬ c = nh := fun h => ha (by simp [h])
    rw [show startsWith (c :: (t ++ b)) (nh :: nt) = false by simp [startsWith, hc],
      Bool.false_or]
    exact ih fun h => ha (by simp [h])

/-- Containment refuted across an append whose right side starts with a
character foreign to the pattern. -/
theorem contains_append_cross (a : Str) (c : Char) (T p : Str)
    (ha : containsStr a p = false) (hc : c ∉ p)
    (hb : containsStr (c :: T) p = false) :
    containsStr (a ++ c :: T) p = false := by
  cases hr : containsStr (a ++ c :: T) p with
  | false => rfl
  | true =>
    exfalso
    obtain ⟨i, hi⟩ := (containsStr_iff _ p).mp hr
    by_cases hia : i < a.length
    · have hd : (a ++ c :: T).drop i = a.drop i ++ c :: T := by
        rw [List.drop_append_eq_append_drop, show i - a.length = 0 by omega,
          List.drop_zero]
      rw [hd] at hi
      have hns := noStart_cross a c T p ha hc i hia
      rw [hi] at hns
      exact absurd hns (by decide)
    · have hd : (a ++ c :: T).drop i = (c :: T).drop (i - a.length) := by
        rw [List.drop_append_eq_append_drop, List.drop_eq_nil_of_le (by omega),
          List.nil_append]
      rw [hd] at hi
      have hcon : containsStr (c :: T) p = true :=
        (containsStr_iff _ p).mpr ⟨i - a.length, hi⟩
      rw [hcon] at hb
      exact absurd hb (by decide)

/-- Leftmost occurrence located exactly after a start-free prefix. -/
theorem firstIndexOf_exact (a t p : Str) (hns : NoStart a (p ++ t) p) :
    firstIndexOf (a ++ (p ++ t)) p = some a.length := by
  induction a with
  | nil =>
    rw [List.nil_append]
    unfold firstIndexOf
    rw [if_pos (startsWith_append p t)]
    rfl
  | cons c a2 ih =>
    rw [List.cons_append]
    change (if startsWith (c :: (a2 ++ (p ++ t))) p = true then some 0
      else Option.map (fun x => x + 1)
        (firstIndexOf (a2 ++ (p ++ t)) p)) = some (c :: a2).length
    have h0 := hns 0 (by simp)
    rw [List.drop_zero, List.cons_append] at h0
    rw [if_neg (by rw [h0]; exact fun h => absurd h (by decide))]
    rw [ih fun i hi => by
      have := hns (i + 1) (by simpa using Nat.succ_lt_succ hi)
      rwa [List.drop_succ_cons] at this]
    rfl

/-- Regexp whitespace is neither a name character nor a marker or brace
character. -/
theorem regexWS_props (c : Char) (h : isRegexWS c = true) :
    alphaChar c = false ∧ c ≠ Char.ofNat 60 ∧ c ≠ Char.ofNat 123 := by
  unfold isRegexWS at h
  simp only [Bool.or_eq_true, decide_eq_true_eq] at h
  rcases h with (((h | h) | h) | h) | h <;> subst h <;>
    exact ⟨by decide, by decide, by decide⟩

/-- Name characters are neither markers, braces nor whitespace. -/
theorem alpha_props (c : Char) (h : alphaChar c = true) :
    c ≠ Char.ofNat 60 ∧ c ≠ Char.ofNat 123 ∧ isRegexWS c = false := by
  have hws : isRegexWS c = false := by
    cases hr : isRegexWS c with
    | false => rfl
    | true => rw [(regexWS_props c hr).1] at h; exact absurd h (by decide)
  have h2 := h
  unfold alphaChar at h2
  simp only [Bool.or_eq_true, Bool.and_eq_true, decide_eq_true_eq] at h2
  rcases h2 with ⟨ha, hb⟩ | hu
  · exact ⟨fun he => by subst he; exact absurd ha (by decide),
      fun he => by subst he; exact absurd hb (by decide), hws⟩
  · subst hu
    exact ⟨by decide, by decide, hws⟩

/-- A balanced-at-zero object starts with `{` and is non-empty. -/
theorem extractJSON_self_facts (obj : Str)
    (h : extractJSON obj 0 = (obj, (obj.length : Int))) :
    obj ≠ [] ∧ ∃ t, obj = Char.ofNat 123 :: t := by
  by_cases hne : obj = []
  · subst hne
    unfold extractJSON at h
    rw [if_pos (by simp)] at h
    exact absurd (congrArg Prod.snd h) (by decide)
  · refine ⟨hne, ?_⟩
    unfold extractJSON at h
    have hlt : ¬ 0 ≥ obj.length := by
      cases obj with
      | nil => exact absurd rfl hne
      | cons c t => simp
    rw [if_neg hlt] at h
    by_cases hg : obj.getD 0 ' ' ≠ Char.ofNat 123
    · rw [if_pos (by simpa using hg)] at h
      have h2 := congrArg Prod.snd h
      simp only at h2
      have h3 : (0 : Int) ≤ obj.length := Int.ofNat_nonneg _
      omega
    · push_neg at hg
      cases obj with
      | nil => exact absurd rfl hne
      | cons c t =>
        have hc : c = Char.ofNat 123 := by simpa using hg
        exact ⟨t, by rw [hc]⟩

/-! ## Claim C3: scenarios for the raw format -/

/-- A piece of assistant text for the raw scenario: inert prose, or one
raw occurrence of the scenario tool name: the name, regexp whitespace, and
a balanced object (rendered `name ++ ws ++ obj`). -/
inductive RawSeg where
  | plain (s : Str)
  | occ (ws obj : Str)

/-- Rendering of one raw segment. -/
def RawSeg.renderR (tn : Str) : RawSeg → Str
  | .plain s => s
  | .occ ws obj => tn ++ (ws ++ obj)

/-- Rendering of a raw segment list. -/
def renderRawSegs (tn : Str) : List RawSeg → Str
  | [] => []
  | seg :: rest => seg.renderR tn ++ renderRawSegs tn rest

/-- Inert prose for the raw scenario: no name characters (so no tool name
can occur or arise), no `\x7b` (so no raw match can end here), no `<` (so
the tagged phase is inert). -/
def plainOkRaw (s : Str) : Prop :=
  (∀ c ∈ s, alphaChar c = false) ∧ Char.ofNat 123 ∉ s ∧ Char.ofNat 60 ∉ s

/-- Well-formedness of a raw segment: whitespace is regexp whitespace, and
the object is balanced at zero, free of name characters and markers. -/
def RawSeg.okR : RawSeg → Prop
  | .plain s => plainOkRaw s
  | .occ ws obj =>
      (∀ c ∈ ws, isRegexWS c = true) ∧
      (∀ c ∈ obj, alphaChar c = false ∧ c ≠ Char.ofNat 60) ∧
      extractJSON obj 0 = (obj, (obj.length : Int))

/-- The tool calls produced from the raw segments: one per balanced,
JSON-valid occurrence, stopping at the first occurrence whose object is
not valid JSON. -/
def rawProduced (tn : Str) : List RawSeg → Nat → List ToolCallM
  | [], _ => []
  | .plain _ :: rest, idx => rawProduced tn rest idx
  | .occ _ obj :: rest, idx =>
    if validJsonObject obj = true then
      ⟨"text_call_".toList ++ natToStr idx, "function".toList, tn, obj⟩ ::
        rawProduced tn rest (idx + 1)
    else []

/-- The prose kept from the raw segments, up to the stopping occurrence. -/
def rawPlains : List RawSeg → Str
  | [] => []
  | .plain s :: rest => s ++ rawPlains rest
  | .occ _ obj :: rest => if validJsonObject obj = true then rawPlains rest else []

/-- The raw segments from the first invalid occurrence on: the parser
leaves them in the text untouched. -/
def rawTail : List RawSeg → List RawSeg
  | [] => []
  | .plain _ :: rest => rawTail rest
  | .occ ws obj :: rest =>
    if validJsonObject obj = true then rawTail rest else .occ ws obj :: rest

/-- How many raw occurrences produce a call. -/
def rawCount : List RawSeg → Nat
  | [] => 0
  | .plain _ :: rest => rawCount rest
  | .occ _ obj :: rest => if validJsonObject obj = true then 1 + rawCount rest else 0

/-- A raw-format match right at the name of an occurrence. -/
theorem rawMatchAt_hit (name ws : Str) (objt R : Str)
    (hws : ∀ c ∈ ws, isRegexWS c = true) :
    rawMatchAt name (name ++ (ws ++ (Char.ofNat 123 :: (objt ++ R)))) =
      some (name.length + ws.length + 1) := by
  unfold rawMatchAt
  rw [if_pos (startsWith_append name (ws ++ (Char.ofNat 123 :: (objt ++ R))))]
  dsimp only
  rw [List.drop_left]
  rw [takeWhile_append_all _ ws _ hws]
  rw [show (Char.ofNat 123 :: (objt ++ R)).takeWhile (fun c => isRegexWS c) = []
    from rfl]
  rw [List.append_nil, List.drop_left]
  rfl

/-- No raw match at a position whose character differs from the name head. -/
theorem rawMatchAt_no_head (name : Str) (nh : Char) (nt : Str) (hn : name = nh :: nt)
    (c : Char) (t : Str) (hc : c ≠ nh) : rawMatchAt name (c :: t) = none := by
  unfold rawMatchAt
  rw [if_neg]
  subst hn
  simp [startsWith, hc]

/-- No raw match in the empty string for a non-empty name. -/
theorem rawMatchAt_nil_none (name : Str) (nh : Char) (nt : Str)
    (hn : name = nh :: nt) : rawMatchAt name [] = none := by
  unfold rawMatchAt
  rw [if_neg]
  subst hn
  simp [startsWith]

/-- The raw scan steps over a stretch of non-name characters. -/
theorem findRawMatchAux_skip (name : Str) (nh : Char) (nt : Str)
    (hn : name = nh :: nt) (hh : alphaChar nh = true) :
    ∀ (a : Str), (∀ c ∈ a, alphaChar c = false) →
    ∀ (b : Str) (pos : Nat),
      findRawMatchAux name (a ++ b) pos = findRawMatchAux name b (pos + a.length) := by
  intro a
  induction a with
  | nil => intro _ b pos; simp
  | cons c a2 ih =>
    intro ha b pos
    rw [List.cons_append, findRawMatchAux]
    rw [rawMatchAt_no_head name nh nt hn c _ (fun he => by
      have h2 := ha c (by simp)
      rw [he, hh] at h2
      exact absurd h2 (by decide))]
    rw [show (match (none : Option Nat) with
      | some mlen => some (pos, pos + mlen)
      | none => findRawMatchAux name (a2 ++ b) (pos + 1)) =
      findRawMatchAux name (a2 ++ b) (pos + 1) from rfl]
    rw [ih (fun x hx => ha x (by simp [hx])) b (pos + 1)]
    rw [show pos + 1 + a2.length = pos + (c :: a2).length by
      simp only [List.length_cons]; omega]

/-- No raw match anywhere in a stretch of non-name characters. -/
theorem findRawMatchAux_foreign (name : Str) (nh : Char) (nt : Str)
    (hn : name = nh :: nt) (hh : alphaChar nh = true) :
    ∀ (s : Str), (∀ c ∈ s, alphaChar c = false) →
    ∀ pos, findRawMatchAux name s pos = none := by
  intro s
  induction s with
  | nil =>
    intro _ pos
    rw [findRawMatchAux, rawMatchAt_nil_none name nh nt hn]
  | cons c t ih =>
    intro hs pos
    rw [findRawMatchAux, rawMatchAt_no_head name nh nt hn c t (fun he => by
      have h2 := hs c (by simp)
      rw [he, hh] at h2
      exact absurd h2 (by decide))]
    exact ih (fun x hx => hs x (by simp [hx])) (pos + 1)

/-- No raw match in a string that does not contain the name. -/
theorem findRawMatchAux_not_contains (name : Str) (nh : Char) (nt : Str)
    (hn : name = nh :: nt) :
    ∀ (s : Str), containsStr s name = false →
    ∀ pos, findRawMatchAux name s pos = none := by
  intro s
  induction s with
  | nil =>
    intro _ pos
    rw [findRawMatchAux, rawMatchAt_nil_none name nh nt hn]
  | cons c t ih =>
    intro hs pos
    rw [containsStr_cons] at hs
    have hs1 : startsWith (c :: t) name = false := by
      cases hx : startsWith (c :: t) name with
      | false => rfl
      | true => rw [hx, Bool.true_or] at hs; exact absurd hs (by decide)
    have hs2 : containsStr t name = false := by
      cases hx : containsStr t name with
      | false => rfl
      | true => rw [hx, Bool.or_true] at hs; exact absurd hs (by decide)
    rw [findRawMatchAux]
    have hno : rawMatchAt name (c :: t) = none := by
      unfold rawMatchAt
      rw [if_neg (by rw [hs1]; exact fun h => absurd h (by decide))]
    rw [hno]
    exact ih hs2 (pos + 1)

/-- `findRawMatch` for a name the text does not contain. -/
theorem findRawMatch_not_contains (name : Str) (nh : Char) (nt : Str)
    (hn : name = nh :: nt) (s : Str) (hs : containsStr s name = false) :
    findRawMatch name s = none :=
  findRawMatchAux_not_contains name nh nt hn s hs 0

/-- One non-advancing step of the raw loop. -/
theorem rawLoop_nomatch (name s : Str) (calls : List ToolCallM) (idx : Nat)
    (h : findRawMatch name s = none) : rawLoop name s calls idx = (calls, s, idx) := by
  rw [rawLoop, h]

/-- One advancing step of the raw loop. -/
theorem rawLoop_step (name s : Str) (calls : List ToolCallM) (idx : Nat) (m0 m1 : Nat)
    (h1 : findRawMatch name s = some (m0, m1)) :
    rawLoop name s calls idx =
      (let jsonStr := (extractJSON s (m1 - 1)).1
       let jsonEnd := (extractJSON s (m1 - 1)).2
       if h2 : jsonStr = [] then (calls, s, idx)
       else if validJsonObject jsonStr = false then (calls, s, idx)
       else rawLoop name (s.take m0 ++ s.drop jsonEnd.toNat)
         (calls ++ [⟨"text_call_".toList ++ natToStr idx, "function".toList, name,
           jsonStr⟩]) (idx + 1)) := by
  rw [rawLoop, h1]

/-- `getD` just past an append prefix. -/
theorem getD_append_len (A l : Str) (d : Char) :
    (A ++ l).getD A.length d = l.getD 0 d := by
  induction A with
  | nil => rfl
  | cons c t ih => simpa using ih

/-- A balanced object is extracted verbatim from any position where it is
embedded. -/
theorem extractJSON_at_append (A obj R : Str)
    (h : extractJSON obj 0 = (obj, (obj.length : Int))) :
    extractJSON (A ++ (obj ++ R)) A.length =
      (obj, ((A.length + obj.length : Nat) : Int)) := by
  obtain ⟨hne, t, hobj⟩ := extractJSON_self_facts obj h
  have hlen : 1 ≤ obj.length := by
    cases obj with
    | nil => exact absurd rfl hne
    | cons c u => simp
  have hbase : ∃ j, extractLoop obj 0 0 false false = some j ∧ j + 1 = obj.length ∧
      obj.take (j + 1) = obj := by
    unfold extractJSON at h
    rw [if_neg (by omega)] at h
    rw [if_neg (by rw [hobj]; simp)] at h
    cases he : extractLoop (obj.drop 0) 0 0 false false with
    | none =>
      rw [he] at h
      exact absurd (congrArg Prod.snd h) (by
        simp only
        intro hx
        omega)
    | some j =>
      rw [he] at h
      rw [List.drop_zero] at he
      refine ⟨j, he, ?_, ?_⟩
      · have h2 := congrArg Prod.snd h
        simp only at h2
        omega
      · have h1 := congrArg Prod.fst h
        simp only [List.drop_zero, Nat.sub_zero] at h1
        exact h1
  obtain ⟨j, hj, hj1, hj2⟩ := hbase
  unfold extractJSON
  rw [if_neg (by simp only [List.length_append]; omega)]
  rw [if_neg (by
    rw [getD_append_len, hobj]
    simp)]
  rw [List.drop_left]
  have hfull : extractLoop (obj ++ R) A.length 0 false false =
      some (A.length + j) := by
    have hsh := extractLoop_shift (obj ++ R) A.length 0 0 false false
    rw [Nat.add_zero] at hsh
    rw [hsh, extractLoop_append obj R 0 0 false false j hj]
    rfl
  rw [hfull]
  dsimp only
  have htake : (obj ++ R).take (A.length + j + 1 - A.length) = obj := by
    rw [show A.length + j + 1 - A.length = j + 1 by omega]
    rw [show j + 1 = obj.length by omega]
    exact List.take_left obj R
  rw [htake]
  rw [show A.length + j + 1 = A.length + obj.length by omega]

/-- The raw-format loop for the scenario tool name: occurrences with valid
objects produce numbered calls and are removed; the first occurrence with
an invalid object stops the loop, leaving it and everything after it in
the text. -/
theorem rawLoop_segs (tn : Str) (nh : Char) (nt : Str) (hn : tn = nh :: nt)
    (hh : ∀ c ∈ tn, alphaChar c = true) (segs : List RawSeg) :
    ∀ (P : Str), (∀ c ∈ P, alphaChar c = false) →
    (∀ sg ∈ segs, RawSeg.okR sg) →
    ∀ (calls : List ToolCallM) (idx : Nat),
    rawLoop tn (P ++ renderRawSegs tn segs) calls idx =
      (calls ++ rawProduced tn segs idx,
       P ++ (rawPlains segs ++ renderRawSegs tn (rawTail segs)),
       idx + rawCount segs) := by
  have hhn : alphaChar nh = true := hh nh (by rw [hn]; simp)
  induction segs with
  | nil =>
    intro P hP _ calls idx
    rw [show renderRawSegs tn [] = [] from rfl, List.append_nil]
    rw [rawLoop_nomatch tn P calls idx
      (findRawMatchAux_foreign tn nh nt hn hhn P hP 0)]
    simp [rawProduced, rawPlains, rawTail, rawCount, renderRawSegs]
  | cons seg rest ih =>
    intro P hP hsegs calls idx
    have hrest : ∀ sg ∈ rest, RawSeg.okR sg := fun sg hm => hsegs _ (by simp [hm])
    cases seg with
    | plain s =>
      have hs : plainOkRaw s := hsegs (RawSeg.plain s) (List.mem_cons_self _ _)
      rw [show P ++ renderRawSegs tn (RawSeg.plain s :: rest) =
        (P ++ s) ++ renderRawSegs tn rest by
        simp [renderRawSegs, RawSeg.renderR, List.append_assoc]]
      rw [ih (P ++ s) (fun c hc => by
        rcases List.mem_append.mp hc with hx | hx
        · exact hP c hx
        · exact hs.1 c hx) hrest calls idx]
      simp [rawProduced, rawPlains, rawTail, rawCount, List.append_assoc]
    | occ ws obj =>
      obtain ⟨hws, hobjc, hext⟩ := hsegs (RawSeg.occ ws obj) (List.mem_cons_self _ _)
      obtain ⟨hne, objt, hobj⟩ := extractJSON_self_facts obj hext
      subst hobj
      rw [show P ++ renderRawSegs tn (RawSeg.occ ws (Char.ofNat 123 :: objt) :: rest) =
        P ++ (tn ++ (ws ++ (Char.ofNat 123 :: (objt ++ renderRawSegs tn rest)))) by
        simp [renderRawSegs, RawSeg.renderR, List.append_assoc]]
      have hfind : findRawMatch tn
          (P ++ (tn ++ (ws ++ (Char.ofNat 123 :: (objt ++ renderRawSegs tn rest))))) =
          some (P.length, P.length + (tn.length + ws.length + 1)) := by
        show findRawMatchAux tn _ 0 = _
        rw [findRawMatchAux_skip tn nh nt hn hhn P hP _ 0, Nat.zero_add]
        rw [show tn ++ (ws ++ (Char.ofNat 123 :: (objt ++ renderRawSegs tn rest))) =
          nh :: (nt ++ (ws ++ (Char.ofNat 123 :: (objt ++ renderRawSegs tn rest)))) by
          rw [hn]; rfl]
        rw [findRawMatchAux]
        rw [show nh :: (nt ++ (ws ++ (Char.ofNat 123 :: (objt ++ renderRawSegs tn rest)))) =
          tn ++ (ws ++ (Char.ofNat 123 :: (objt ++ renderRawSegs tn rest))) by
          rw [hn]; rfl]
        rw [rawMatchAt_hit tn ws objt (renderRawSegs tn rest) hws]
      have hm1 : P.length + (tn.length + ws.length + 1) - 1 =
          ((P ++ tn) ++ ws).length := by
        simp only [List.length_append]
        omega
      have hext2 : extractJSON
          (P ++ (tn ++ (ws ++ (Char.ofNat 123 :: (objt ++ renderRawSegs tn rest)))))
          (P.length + (tn.length + ws.length + 1) - 1) =
          (Char.ofNat 123 :: objt,
           ((((P ++ tn) ++ ws).length + (Char.ofNat 123 :: objt).length : Nat) : Int)) := by
        rw [hm1]
        rw [show P ++ (tn ++ (ws ++ (Char.ofNat 123 :: (objt ++ renderRawSegs tn rest)))) =
          ((P ++ tn) ++ ws) ++ ((Char.ofNat 123 :: objt) ++ renderRawSegs tn rest) by
          simp [List.append_assoc]]
        exact extractJSON_at_append ((P ++ tn) ++ ws) (Char.ofNat 123 :: objt)
          (renderRawSegs tn rest) hext
      rw [rawLoop_step tn _ calls idx _ _ hfind]
      dsimp only
      rw [hext2]
      dsimp only
      rw [dif_neg (show ¬ Char.ofNat 123 :: objt = [] by simp)]
      by_cases hv : validJsonObject (Char.ofNat 123 :: objt) = true
      · rw [if_neg (by rw [hv]; exact fun h => absurd h (by decide))]
        rw [Int.toNat_natCast]
        rw [List.take_left]
        have hdrop2 : (P ++ (tn ++ (ws ++
            (Char.ofNat 123 :: (objt ++ renderRawSegs tn rest))))).drop
            (((P ++ tn) ++ ws).length + (Char.ofNat 123 :: objt).length) =
            renderRawSegs tn rest := by
          rw [show P ++ (tn ++ (ws ++ (Char.ofNat 123 :: (objt ++ renderRawSegs tn rest)))) =
            (((P ++ tn) ++ ws) ++ (Char.ofNat 123 :: objt)) ++ renderRawSegs tn rest by
            simp [List.append_assoc]]
          rw [show ((P ++ tn) ++ ws).length + (Char.ofNat 123 :: objt).length =
            (((P ++ tn) ++ ws) ++ (Char.ofNat 123 :: objt)).length by
            simp only [List.length_append]]
          exact List.drop_left _ _
        rw [hdrop2]
        rw [ih P hP hrest _ (idx + 1)]
        simp [rawProduced, rawPlains, rawTail, rawCount, hv, List.append_assoc]
        omega
      · have hv2 : validJsonObject (Char.ofNat 123 :: objt) = false := by
          cases hx : validJsonObject (Char.ofNat 123 :: objt) with
          | false => rfl
          | true => exact absurd hx hv
        rw [if_pos hv2]
        simp [rawProduced, rawPlains, rawTail, rawCount, hv2, renderRawSegs,
          RawSeg.renderR, List.append_assoc]

/-- Every known tool name is a non-empty word of name characters. -/
theorem knownAlpha :
    ∀ n ∈ knownToolNames, n ≠ [] ∧ ∀ c ∈ n, alphaChar c = true := by decide

/-- No known tool name occurs inside a different known tool name. -/
theorem knownNoSub :
    ∀ a ∈ knownToolNames, ∀ b ∈ knownToolNames, a ≠ b →
      containsStr a b = false := by decide

/-- The known tool names are pairwise distinct. -/
theorem knownNodup : knownToolNames.Nodup := by decide

/-- No occurrence of a different known name anywhere in a raw scenario. -/
theorem renderRaw_not_contains (tn b : Str) (bh : Char) (bt : Str)
    (hb : b = bh :: bt) (hba : ∀ c ∈ b, alphaChar c = true)
    (htn : containsStr tn b = false) (segs : List RawSeg)
    (hok : ∀ sg ∈ segs, RawSeg.okR sg) :
    containsStr (renderRawSegs tn segs) b = false := by
  have hbh : alphaChar bh = true := hba bh (by rw [hb]; simp)
  induction segs with
  | nil =>
    rw [show renderRawSegs tn [] = [] from rfl, hb]
    rfl
  | cons seg rest ih =>
    have ihr := ih (fun sg hm => hok _ (by simp [hm]))
    cases seg with
    | plain s =>
      have hs := hok (RawSeg.plain s) (List.mem_cons_self _ _)
      rw [show renderRawSegs tn (RawSeg.plain s :: rest) = s ++ renderRawSegs tn rest
        from rfl, hb]
      exact contains_append_no_head s _ bh bt (fun hm => by
        have h2 := hs.1 bh hm
        rw [hbh] at h2
        exact absurd h2 (by decide)) (hb ▸ ihr)
    | occ ws obj =>
      obtain ⟨hws, hobjc, hext⟩ := hok (RawSeg.occ ws obj) (List.mem_cons_self _ _)
      obtain ⟨hne, objt, hobj⟩ := extractJSON_self_facts obj hext
      subst hobj
      rw [show renderRawSegs tn (RawSeg.occ ws (Char.ofNat 123 :: objt) :: rest) =
        tn ++ (ws ++ (Char.ofNat 123 :: (objt ++ renderRawSegs tn rest))) by
        simp [renderRawSegs, RawSeg.renderR, List.append_assoc]]
      have h1 : containsStr (objt ++ renderRawSegs tn rest) b = false := by
        rw [hb]
        exact contains_append_no_head objt _ bh bt (fun hm => by
          have h2 := (hobjc bh (by simp [hm])).1
          rw [hbh] at h2
          exact absurd h2 (by decide)) (hb ▸ ihr)
      have h2 : containsStr (Char.ofNat 123 :: (objt ++ renderRawSegs tn rest)) b
          = false := by
        rw [show Char.ofNat 123 :: (objt ++ renderRawSegs tn rest) =
          [Char.ofNat 123] ++ (objt ++ renderRawSegs tn rest) from rfl, hb]
        refine contains_append_no_head [Char.ofNat 123] _ bh bt (fun hm => ?_)
          (hb ▸ h1)
        have hx : bh = Char.ofNat 123 := by simpa using hm
        rw [hx] at hbh
        exact absurd hbh (by decide)
      cases ws with
      | nil =>
        rw [List.nil_append]
        exact contains_append_cross tn (Char.ofNat 123) _ b htn (fun hm => by
          have h3 := hba (Char.ofNat 123) hm
          exact absurd h3 (by decide)) h2
      | cons w wt =>
        have h3 : containsStr
            ((w :: wt) ++ (Char.ofNat 123 :: (objt ++ renderRawSegs tn rest)))
            b = false := by
          rw [hb]
          exact contains_append_no_head (w :: wt) _ bh bt (fun hm => by
            have h4 := (regexWS_props bh (hws bh hm)).1
            rw [hbh] at h4
            exact absurd h4 (by decide)) (hb ▸ h2)
        rw [show (w :: wt) ++ (Char.ofNat 123 :: (objt ++ renderRawSegs tn rest)) =
          w :: (wt ++ (Char.ofNat 123 :: (objt ++ renderRawSegs tn rest)))
          from rfl] at h3 ⊢
        exact contains_append_cross tn w _ b htn (fun hm => by
          have h4 := (regexWS_props w (hws w (by simp))).1
          have h5 := hba w hm
          rw [h5] at h4
          exact absurd h4 (by decide)) h3

/-- No occurrence of a different known name in a raw scenario behind an
inert prefix. -/
theorem scenario_not_contains (tn b : Str) (bh : Char) (bt : Str) (hb : b = bh :: bt)
    (hba : ∀ c ∈ b, alphaChar c = true) (htn : containsStr tn b = false)
    (P : Str) (hP : ∀ c ∈ P, alphaChar c = false)
    (segs : List RawSeg) (hok : ∀ sg ∈ segs, RawSeg.okR sg) :
    containsStr (P ++ renderRawSegs tn segs) b = false := by
  have hbh : alphaChar bh = true := hba bh (by rw [hb]; simp)
  rw [hb]
  exact contains_append_no_head P _ bh bt (fun hm => by
    have h2 := hP bh hm
    rw [hbh] at h2
    exact absurd h2 (by decide))
    (hb ▸ renderRaw_not_contains tn b bh bt hb hba htn segs hok)

/-- The kept prose of a raw scenario has no name characters. -/
theorem rawPlains_foreign (segs : List RawSeg) (h : ∀ sg ∈ segs, RawSeg.okR sg) :
    ∀ c ∈ rawPlains segs, alphaChar c = false := by
  induction segs with
  | nil => simp [rawPlains]
  | cons seg rest ih =>
    have hr := ih (fun sg hm => h sg (by simp [hm]))
    cases seg with
    | plain s =>
      intro c hc
      rw [show rawPlains (RawSeg.plain s :: rest) = s ++ rawPlains rest from rfl] at hc
      rcases List.mem_append.mp hc with hx | hx
      · exact (h (RawSeg.plain s) (by simp)).1 c hx
      · exact hr c hx
    | occ ws obj =>
      intro c hc
      by_cases hv : validJsonObject obj = true
      · rw [show rawPlains (RawSeg.occ ws obj :: rest) = rawPlains rest by
          simp [rawPlains, hv]] at hc
        exact hr c hc
      · rw [show rawPlains (RawSeg.occ ws obj :: rest) = [] by
          simp [rawPlains, hv]] at hc
        simp at hc

/-- The stop suffix of a raw scenario is a well-formed scenario. -/
theorem rawTail_ok (segs : List RawSeg) (h : ∀ sg ∈ segs, RawSeg.okR sg) :
    ∀ sg ∈ rawTail segs, RawSeg.okR sg := by
  induction segs with
  | nil => simp [rawTail]
  | cons seg rest ih =>
    have hr := ih (fun sg hm => h sg (by simp [hm]))
    cases seg with
    | plain s => simpa [rawTail] using hr
    | occ ws obj =>
      by_cases hv : validJsonObject obj = true
      · simpa [rawTail, hv] using hr
      · intro sg hm
        rw [show rawTail (RawSeg.occ ws obj :: rest) = RawSeg.occ ws obj :: rest by
          simp [rawTail, hv]] at hm
        exact h sg hm

/-- The raw phase for one name in terms of its loop. -/
theorem rawPhase_cons (name : Str) (names : List Str) (text : Str)
    (calls : List ToolCallM) (idx : Nat) :
    rawPhase (name :: names) text calls idx =
      rawPhase names (rawLoop name text calls idx).2.1
        (rawLoop name text calls idx).1 (rawLoop name text calls idx).2.2 := by
  rw [rawPhase]

/-- The raw phase skips every name that has no match. -/
theorem rawPhase_skip (names : List Str) (text : Str) :
    (∀ b ∈ names, findRawMatch b text = none) →
    ∀ (calls : List ToolCallM) (idx : Nat),
      rawPhase names text calls idx = (calls, text, idx) := by
  induction names with
  | nil => intro _ calls idx; rfl
  | cons n ns ih =>
    intro h calls idx
    rw [rawPhase_cons, rawLoop_nomatch n text calls idx (h n (by simp))]
    dsimp only
    exact ih (fun b hb => h b (by simp [hb])) calls idx

/-- The raw phase splits over an append of name lists. -/
theorem rawPhase_append (ns1 ns2 : List Str) : ∀ (text : Str)
    (calls : List ToolCallM) (idx : Nat),
    rawPhase (ns1 ++ ns2) text calls idx =
      rawPhase ns2 (rawPhase ns1 text calls idx).2.1
        (rawPhase ns1 text calls idx).1 (rawPhase ns1 text calls idx).2.2 := by
  induction ns1 with
  | nil => intro text calls idx; rfl
  | cons n ns ih =>
    intro text calls idx
    rw [List.cons_append, rawPhase_cons, rawPhase_cons, ih]

/-- No raw match at a position in brace-free text. -/
theorem rawMatchAt_no_brace (name t : Str) (h : Char.ofNat 123 ∉ t) :
    rawMatchAt name t = none := by
  unfold rawMatchAt
  by_cases hs : startsWith t name = true
  · rw [if_pos hs]
    dsimp only
    split
    · rename_i tail heq
      exfalso
      apply h
      have hmem : Char.ofNat 123 ∈
          (t.drop name.length).drop
            (((t.drop name.length).takeWhile fun c => isRegexWS c).length) := by
        rw [heq]
        exact List.mem_cons_self _ _
      exact List.drop_subset _ _ (List.drop_subset _ _ hmem)
    · rfl
  · rw [if_neg hs]

/-- No raw match anywhere in brace-free text. -/
theorem findRawMatchAux_no_brace (name : Str) : ∀ (s : Str), Char.ofNat 123 ∉ s →
    ∀ pos, findRawMatchAux name s pos = none := by
  intro s
  induction s with
  | nil =>
    intro _ pos
    rw [findRawMatchAux, rawMatchAt_no_brace name [] (by simp)]
  | cons c t ih =>
    intro hs pos
    rw [findRawMatchAux, rawMatchAt_no_brace name (c :: t) hs]
    exact ih (fun hm => hs (by simp [hm])) (pos + 1)

/-- The prose left by the tagged phase has no opening brace. -/
theorem tagPlains_no_brace (tsegs : List TagSeg) (h : ∀ sg ∈ tsegs, TagSeg.ok sg) :
    Char.ofNat 123 ∉ tagPlains tsegs := by
  induction tsegs with
  | nil => simp [tagPlains]
  | cons seg rest ih =>
    have hr := ih (fun sg hm => h sg (by simp [hm]))
    cases seg with
    | plain s =>
      intro hm
      rw [show tagPlains (TagSeg.plain s :: rest) = s ++ tagPlains rest from rfl] at hm
      rcases List.mem_append.mp hm with hx | hx
      · exact (h (TagSeg.plain s) (by simp)).2 hx
      · exact hr hx
    | block inner =>
      intro hm
      rw [show tagPlains (TagSeg.block inner :: rest) = tagPlains rest from rfl] at hm
      exact hr hm

/-- A raw scenario contains no tagged marker head. -/
theorem renderRaw_no_marker (tn : Str) (hh : ∀ c ∈ tn, alphaChar c = true)
    (segs : List RawSeg) (hok : ∀ sg ∈ segs, RawSeg.okR sg) :
    Char.ofNat 60 ∉ renderRawSegs tn segs := by
  induction segs with
  | nil => simp [renderRawSegs]
  | cons seg rest ih =>
    have hr := ih (fun sg hm => hok sg (by simp [hm]))
    cases seg with
    | plain s =>
      intro hm
      rw [show renderRawSegs tn (RawSeg.plain s :: rest) = s ++ renderRawSegs tn rest
        from rfl] at hm
      rcases List.mem_append.mp hm with hx | hx
      · exact (hok (RawSeg.plain s) (by simp)).2.2 hx
      · exact hr hx
    | occ ws obj =>
      intro hm
      rw [show renderRawSegs tn (RawSeg.occ ws obj :: rest) =
        (tn ++ (ws ++ obj)) ++ renderRawSegs tn rest from rfl] at hm
      obtain ⟨hws, hobjc, _⟩ := hok (RawSeg.occ ws obj) (by simp)
      rcases List.mem_append.mp hm with hx | hx
      · rcases List.mem_append.mp hx with hy | hy
        · exact (alpha_props _ (hh _ hy)).1 rfl
        · rcases List.mem_append.mp hy with hz | hz
          · exact (regexWS_props _ (hws _ hz)).2.1 rfl
          · exact (hobjc _ hz).2 rfl
      · exact hr hx

/-- The raw phase over all known names on a raw scenario: the scenario
name consumes its valid occurrences, every other name finds no match. -/
theorem rawPhase_scenario (tn : Str) (hmem : tn ∈ knownToolNames)
    (segs : List RawSeg) (hok : ∀ sg ∈ segs, RawSeg.okR sg)
    (calls : List ToolCallM) (idx : Nat) :
    rawPhase knownToolNames (renderRawSegs tn segs) calls idx =
      (calls ++ rawProduced tn segs idx,
       rawPlains segs ++ renderRawSegs tn (rawTail segs),
       idx + rawCount segs) := by
  have htn := knownAlpha tn hmem
  obtain ⟨nh, nt, hshape⟩ : ∃ nh nt, tn = nh :: nt := by
    cases tn with
    | nil => exact absurd rfl htn.1
    | cons c t => exact ⟨c, t, rfl⟩
  obtain ⟨pre, post, hsplit⟩ := List.append_of_mem hmem
  have hnd := knownNodup
  rw [hsplit] at hnd
  have hpre : tn ∉ pre := fun hm =>
    (List.disjoint_of_nodup_append hnd) hm (List.mem_cons_self _ _)
  have hpost : tn ∉ post := ((List.nodup_cons).mp (List.Nodup.of_append_right hnd)).1
  have hother : ∀ b, b ∈ knownToolNames → b ≠ tn →
      ∀ (P : Str), (∀ c ∈ P, alphaChar c = false) →
      ∀ (sgs : List RawSeg), (∀ sg ∈ sgs, RawSeg.okR sg) →
      findRawMatch b (P ++ renderRawSegs tn sgs) = none := by
    intro b hbmem hbne P hP sgs hsgs
    have hbfacts := knownAlpha b hbmem
    obtain ⟨bh, bt, hbshape⟩ : ∃ bh bt, b = bh :: bt := by
      cases b with
      | nil => exact absurd rfl hbfacts.1
      | cons c t => exact ⟨c, t, rfl⟩
    exact findRawMatch_not_contains b bh bt hbshape _
      (scenario_not_contains tn b bh bt hbshape hbfacts.2
        (knownNoSub tn hmem b hbmem (fun he => hbne he.symm)) P hP sgs hsgs)
  rw [hsplit, rawPhase_append]
  have hstep1 : rawPhase pre (renderRawSegs tn segs) calls idx =
      (calls, renderRawSegs tn segs, idx) := by
    refine rawPhase_skip pre _ (fun b hb => ?_) calls idx
    have hres := hother b (by rw [hsplit]; exact List.mem_append.mpr (Or.inl hb))
      (fun he => hpre (he ▸ hb)) [] (by simp) segs hok
    rwa [List.nil_append] at hres
  rw [hstep1]
  dsimp only
  rw [rawPhase_cons]
  have hmid := rawLoop_segs tn nh nt hshape htn.2 segs [] (by simp) hok calls idx
  rw [List.nil_append, List.nil_append] at hmid
  rw [hmid]
  dsimp only
  refine rawPhase_skip post _ (fun b hb => ?_) _ _
  exact hother b (by rw [hsplit]; exact List.mem_append.mpr (Or.inr (by simp [hb])))
    (fun he => hpost (he ▸ hb)) (rawPlains segs) (rawPlains_foreign segs hok)
    (rawTail segs) (rawTail_ok segs hok)

instance decPlainOkTag (s : Str) : Decidable (plainOkTag s) :=
  inferInstanceAs (Decidable (_ ∧ _))

instance decTagSegOk : ∀ sg : TagSeg, Decidable (TagSeg.ok sg)
  | .plain s => inferInstanceAs (Decidable (plainOkTag s))
  | .block inner => inferInstanceAs (Decidable (Char.ofNat 60 ∉ inner))

instance decPlainOkRaw (s : Str) : Decidable (plainOkRaw s) :=
  inferInstanceAs (Decidable (_ ∧ _ ∧ _))

instance decRawSegOkR : ∀ sg : RawSeg, Decidable (RawSeg.okR sg)
  | .plain s => inferInstanceAs (Decidable (plainOkRaw s))
  | .occ ws obj => inferInstanceAs (Decidable (_ ∧ _ ∧ _))

/-- C3 (amended): on any text made of inert prose and tagged occurrences,
every well-formed tagged occurrence yields exactly one ToolCall and every
tagged occurrence, decodable or not, is removed from the returned text;
on any text made of inert prose and raw occurrences of a known tool name,
the well-formed (JSON-valid) raw occurrences up to the first invalid one
each yield exactly one ToolCall and are removed, but an invalid raw
occurrence is NOT removed: it stops the raw scan for that name and stays
in the returned text together with everything after it. -/
theorem parse_text_tool_call_occurrences
    (tsegs : List TagSeg) (h1 : ∀ sg ∈ tsegs, TagSeg.ok sg)
    (tn : Str) (hmem : tn ∈ knownToolNames)
    (rsegs : List RawSeg) (h2 : ∀ sg ∈ rsegs, RawSeg.okR sg) :
    parseToolCallsFromText (renderTagSegs tsegs) =
      (tagProduced tsegs 0, trimSpace (tagPlains tsegs)) ∧
    parseToolCallsFromText (renderRawSegs tn rsegs) =
      (rawProduced tn rsegs 0,
       trimSpace (rawPlains rsegs ++ renderRawSegs tn (rawTail rsegs))) := by
  constructor
  · unfold parseToolCallsFromText
    have ht := taggedLoop_segs tsegs []
      (show plainOkTag [] from ⟨by simp, by simp⟩) h1 [] 0
    simp only [List.nil_append] at ht
    rw [ht]
    dsimp only
    rw [rawPhase_skip knownToolNames (tagPlains tsegs)
      (fun b _ => findRawMatchAux_no_brace b _ (tagPlains_no_brace tsegs h1) 0) _ _]
  · unfold parseToolCallsFromText
    have htn := knownAlpha tn hmem
    rw [taggedLoop_none _ _ _
      (findTagOpen_none _ (renderRaw_no_marker tn htn.2 rsegs h2))]
    dsimp only
    rw [rawPhase_scenario tn hmem rsegs h2 [] 0]
    dsimp only
    rw [List.nil_append]

/-- Counterexample to the original C3: the raw occurrence
`run_command` followed by a brace-balanced but JSON-invalid object is
malformed, so it yields zero ToolCalls — but it is NOT removed from the
returned text: the returned text is the input unchanged, malformed
occurrence included. -/
theorem parse_text_tool_call_occurrences_counterexample :
    parseToolCallsFromText "run_command \x7bbad\x7d more".toList =
      ([], "run_command \x7bbad\x7d more".toList) := by
  unfold parseToolCallsFromText
  rw [taggedLoop_none _ _ _ (by decide)]
  dsimp only
  unfold knownToolNames
  rw [rawPhase_cons]
  rw [rawLoop_step _ _ _ _ 0 13 (by decide)]
  dsimp only
  rw [dif_neg (by decide), if_pos (by decide)]
  dsimp only
  rw [rawPhase_skip _ _ (by decide) _ _]
  dsimp only
  rw [show trimSpace "run_command \x7bbad\x7d more".toList =
    "run_command \x7bbad\x7d more".toList from by decide]

/-- Concrete tagged scenario for the C3 witness: prose, one decodable
block, one malformed block. -/
def c3tsegs : List TagSeg :=
  [TagSeg.plain "Answer: ".toList,
   TagSeg.block " \x7b\"name\": \"run_command\", \"arguments\": \x7b\"command\": \"ls\"\x7d\x7d ".toList,
   TagSeg.block "oops".toList]

/-- Concrete raw scenario for the C3 witness: prose, a valid occurrence,
prose, an invalid (balanced but not JSON-decodable) occurrence, prose. -/
def c3rsegs : List RawSeg :=
  [RawSeg.plain " -- ".toList,
   RawSeg.occ " ".toList "\x7b\"0\": 1\x7d".toList,
   RawSeg.plain "; ".toList,
   RawSeg.occ [] "\x7b\"0\"\x7d".toList,
   RawSeg.plain "!".toList]

/-- Witness for C3: the hypotheses hold at the concrete scenarios and the
theorem applies. -/
theorem parse_text_tool_call_occurrences_witness :
    ((∀ sg ∈ c3tsegs, TagSeg.ok sg) ∧ "run_command".toList ∈ knownToolNames ∧
      (∀ sg ∈ c3rsegs, RawSeg.okR sg)) ∧
    (parseToolCallsFromText (renderTagSegs c3tsegs) =
        (tagProduced c3tsegs 0, trimSpace (tagPlains c3tsegs)) ∧
     parseToolCallsFromText (renderRawSegs "run_command".toList c3rsegs) =
        (rawProduced "run_command".toList c3rsegs 0,
         trimSpace (rawPlains c3rsegs ++
           renderRawSegs "run_command".toList (rawTail c3rsegs)))) :=
  ⟨⟨by decide, by decide, by decide⟩,
   parse_text_tool_call_occurrences c3tsegs (by decide) "run_command".toList
     (by decide) c3rsegs (by decide)⟩

/-! ## Claim C4: JSON string-value round trip through the tagged format -/

/-- Lower-case hexadecimal digit character. -/
def hexDigitChar (n : Nat) : Char :=
  if n < 10 then Char.ofNat (48 + n) else Char.ofNat (87 + n)

/-- Minimal JSON string-value encoding of one character (the reference
encoding named by the specification): escape the quote and the backslash,
control characters as an escaped u00XX, everything else verbatim. -/
def encodeJSONChar (c : Char) : Str :=
  if c = '"' then ['\\', '"']
  else if c = '\\' then ['\\', '\\']
  else if c.toNat < 32 then
    ['\\', 'u', '0', '0', hexDigitChar (c.toNat / 16), hexDigitChar (c.toNat % 16)]
  else [c]

/-- JSON string-value encoding of a content string. -/
def encodeJSONString : Str → Str
  | [] => []
  | c :: t => encodeJSONChar c ++ encodeJSONString t

/-- Decoding a hex digit character inverts encoding. -/
theorem hexDigit_hexChar : ∀ n, n < 16 → hexDigit (hexDigitChar n) = some n := by
  decide

/-- The repository JSON decoder inverts the reference string encoding. -/
theorem parseStringBody_encode (c : Str) : ∀ (rest : Str),
    parseStringBody (encodeJSONString c ++ ('"' :: rest)) = some (c, rest) := by
  induction c with
  | nil =>
    intro rest
    rw [show encodeJSONString [] = [] from rfl, List.nil_append]
    rw [parseStringBody.eq_def]
    dsimp only
    rw [if_pos rfl]
  | cons ch t ih =>
    intro rest
    rw [show encodeJSONString (ch :: t) ++ ('"' :: rest) =
      encodeJSONChar ch ++ (encodeJSONString t ++ ('"' :: rest)) by
      simp [encodeJSONString, List.append_assoc]]
    by_cases hq : ch = '"'
    · subst hq
      rw [show encodeJSONChar '"' = ['\\', '"'] by unfold encodeJSONChar; rw [if_pos rfl]]
      rw [List.cons_append, List.cons_append, List.nil_append]
      rw [parseStringBody.eq_def]
      dsimp only
      rw [if_neg (by decide), if_pos rfl]
      rw [if_pos rfl, ih rest]
      rfl
    · by_cases hb : ch = '\\'
      · subst hb
        rw [show encodeJSONChar '\\' = ['\\', '\\'] by
          unfold encodeJSONChar; rw [if_neg (by decide), if_pos rfl]]
        rw [List.cons_append, List.cons_append, List.nil_append]
        rw [parseStringBody.eq_def]
        dsimp only
        rw [if_neg (by decide), if_pos rfl]
        rw [if_neg (by decide), if_pos rfl, ih rest]
        rfl
      · by_cases hc : ch.toNat < 32
        · rw [show encodeJSONChar ch = ['\\', 'u', '0', '0',
            hexDigitChar (ch.toNat / 16), hexDigitChar (ch.toNat % 16)] by
            unfold encodeJSONChar; rw [if_neg hq, if_neg hb, if_pos hc]]
          rw [List.cons_append, List.cons_append, List.cons_append,
            List.cons_append, List.cons_append, List.cons_append, List.nil_append]
          rw [parseStringBody.eq_def]
          dsimp only
          rw [if_neg (by decide), if_pos rfl]
          rw [if_neg (by decide), if_neg (by decide), if_neg (by decide),
            if_neg (by decide), if_neg (by decide), if_neg (by decide),
            if_neg (by decide), if_neg (by decide), if_pos rfl]
          rw [show parseUnicodeEscape ('0' :: '0' :: hexDigitChar (ch.toNat / 16) ::
              hexDigitChar (ch.toNat % 16) ::
              (encodeJSONString t ++ ('"' :: rest))) =
            some (Char.ofNat ch.toNat, 4) by
            unfold parseUnicodeEscape
            dsimp only
            rw [show hexDigit '0' = some 0 from rfl]
            rw [hexDigit_hexChar (ch.toNat / 16) (by omega)]
            rw [hexDigit_hexChar (ch.toNat % 16) (by omega)]
            dsimp only
            rw [show ((0 * 16 + 0) * 16 + ch.toNat / 16) * 16 + ch.toNat % 16 =
              ch.toNat by omega]
            rw [if_neg (by omega), if_neg (by omega)]]
          dsimp only
          rw [show ('0' :: '0' :: hexDigitChar (ch.toNat / 16) ::
              hexDigitChar (ch.toNat % 16) ::
              (encodeJSONString t ++ ('"' :: rest))).drop 4 =
            encodeJSONString t ++ ('"' :: rest) from rfl]
          rw [ih rest]
          rw [show (some ((t : Str), rest)).map
              (fun p => ((Char.ofNat ch.toNat :: p.1 : Str), p.2)) =
            some (Char.ofNat ch.toNat :: t, rest) from rfl]
          rw [Char.ofNat_toNat]
        · rw [show encodeJSONChar ch = [ch] by
            unfold encodeJSONChar; rw [if_neg hq, if_neg hb, if_neg hc]]
          rw [List.cons_append, List.nil_append]
          rw [parseStringBody.eq_def]
          dsimp only
          rw [if_neg hq, if_neg hb, if_neg hc, ih rest]
          rfl

/-- Outcome of scanning one segment with the balanced-structure automaton:
the matching close brace is found at an offset, or scanning continues in a
new state. -/
inductive ScanRes where
  | found (j : Nat)
  | cont (d : Int) (b1 b2 : Bool)
deriving DecidableEq

/-- Shift a scan outcome by one position. -/
def scanShift : ScanRes → ScanRes
  | .found j => .found (j + 1)
  | .cont d b1 b2 => .cont d b1 b2

/-- Shift a scan outcome by `n` positions. -/
def shiftN (n : Nat) : ScanRes → ScanRes
  | .found j => .found (j + n)
  | .cont d b1 b2 => .cont d b1 b2

/-- The balanced-structure automaton over one segment. -/
def scanSeg : Str → Int → Bool → Bool → ScanRes
  | [], d, b1, b2 => .cont d b1 b2
  | c :: rest, d, b1, b2 =>
    if b2 = true then scanShift (scanSeg rest d b1 false)
    else if c = '\\' ∧ b1 = true then scanShift (scanSeg rest d b1 true)
    else if c = '"' then scanShift (scanSeg rest d (!b1) b2)
    else if b1 = true then scanShift (scanSeg rest d b1 b2)
    else if c = '{' then scanShift (scanSeg rest (d + 1) b1 b2)
    else if c = '}' then
      if d - 1 = 0 then .found 0
      else scanShift (scanSeg rest (d - 1) b1 b2)
    else scanShift (scanSeg rest d b1 b2)

/-- The extraction loop over an append, described by the segment scan. -/
theorem extractLoop_scanSeg (A : Str) : ∀ (B : Str) (i : Nat) (d : Int) (b1 b2 : Bool),
    extractLoop (A ++ B) i d b1 b2 =
      match scanSeg A d b1 b2 with
      | .found j => some (i + j)
      | .cont d2 c1 c2 => extractLoop B (i + A.length) d2 c1 c2 := by
  induction A with
  | nil => intro B i d b1 b2; simp [scanSeg]
  | cons c rest ih =>
    intro B i d b1 b2
    rw [List.cons_append, extractLoop, scanSeg]
    split_ifs with h1 h2 h3 h4 h5 h6 h7
    · rw [ih]
      cases hres : scanSeg rest d b1 false with
      | found j =>
        dsimp only [scanShift]
        exact congrArg some (by omega)
      | cont d2 c1 c2 =>
        dsimp only [scanShift]
        rw [show i + 1 + rest.length = i + (c :: rest).length by
          simp only [List.length_cons]; omega]
    · rw [ih]
      cases hres : scanSeg rest d b1 true with
      | found j =>
        dsimp only [scanShift]
        exact congrArg some (by omega)
      | cont d2 c1 c2 =>
        dsimp only [scanShift]
        rw [show i + 1 + rest.length = i + (c :: rest).length by
          simp only [List.length_cons]; omega]
    · rw [ih]
      cases hres : scanSeg rest d (!b1) b2 with
      | found j =>
        dsimp only [scanShift]
        exact congrArg some (by omega)
      | cont d2 c1 c2 =>
        dsimp only [scanShift]
        rw [show i + 1 + rest.length = i + (c :: rest).length by
          simp only [List.length_cons]; omega]
    · rw [ih]
      cases hres : scanSeg rest d b1 b2 with
      | found j =>
        dsimp only [scanShift]
        exact congrArg some (by omega)
      | cont d2 c1 c2 =>
        dsimp only [scanShift]
        rw [show i + 1 + rest.length = i + (c :: rest).length by
          simp only [List.length_cons]; omega]
    · rw [ih]
      cases hres : scanSeg rest (d + 1) b1 b2 with
      | found j =>
        dsimp only [scanShift]
        exact congrArg some (by omega)
      | cont d2 c1 c2 =>
        dsimp only [scanShift]
        rw [show i + 1 + rest.length = i + (c :: rest).length by
          simp only [List.length_cons]; omega]
    · dsimp only
      exact congrArg some (by omega)
    · rw [ih]
      cases hres : scanSeg rest (d - 1) b1 b2 with
      | found j =>
        dsimp only [scanShift]
        exact congrArg some (by omega)
      | cont d2 c1 c2 =>
        dsimp only [scanShift]
        rw [show i + 1 + rest.length = i + (c :: rest).length by
          simp only [List.length_cons]; omega]
    · rw [ih]
      cases hres : scanSeg rest d b1 b2 with
      | found j =>
        dsimp only [scanShift]
        exact congrArg some (by omega)
      | cont d2 c1 c2 =>
        dsimp only [scanShift]
        rw [show i + 1 + rest.length = i + (c :: rest).length by
          simp only [List.length_cons]; omega]

/-- The segment scan splits over an append. -/
theorem scanSeg_append (A : Str) : ∀ (B : Str) (d : Int) (b1 b2 : Bool),
    scanSeg (A ++ B) d b1 b2 =
      match scanSeg A d b1 b2 with
      | .found j => .found j
      | .cont d2 c1 c2 => shiftN A.length (scanSeg B d2 c1 c2) := by
  induction A with
  | nil =>
    intro B d b1 b2
    rw [List.nil_append, scanSeg]
    dsimp only
    cases scanSeg B d b1 b2 with
    | found j =>
      dsimp only [shiftN]
      exact congrArg ScanRes.found (by simp)
    | cont d2 c1 c2 => rfl
  | cons c rest ih =>
    intro B d b1 b2
    rw [List.cons_append, scanSeg, scanSeg]
    split_ifs with h1 h2 h3 h4 h5 h6 h7
    · rw [ih]
      cases hres : scanSeg rest d b1 false with
      | found j => rfl
      | cont d2 c1 c2 =>
        dsimp only [scanShift]
        cases scanSeg B d2 c1 c2 with
        | found j =>
          dsimp only [shiftN, scanShift]
          exact congrArg ScanRes.found (by simp only [List.length_cons]; omega)
        | cont d3 e1 e2 => rfl
    · rw [ih]
      cases hres : scanSeg rest d b1 true with
      | found j => rfl
      | cont d2 c1 c2 =>
        dsimp only [scanShift]
        cases scanSeg B d2 c1 c2 with
        | found j =>
          dsimp only [shiftN, scanShift]
          exact congrArg ScanRes.found (by simp only [List.length_cons]; omega)
        | cont d3 e1 e2 => rfl
    · rw [ih]
      cases hres : scanSeg rest d (!b1) b2 with
      | found j => rfl
      | cont d2 c1 c2 =>
        dsimp only [scanShift]
        cases scanSeg B d2 c1 c2 with
        | found j =>
          dsimp only [shiftN, scanShift]
          exact congrArg ScanRes.found (by simp only [List.length_cons]; omega)
        | cont d3 e1 e2 => rfl
    · rw [ih]
      cases hres : scanSeg rest d b1 b2 with
      | found j => rfl
      | cont d2 c1 c2 =>
        dsimp only [scanShift]
        cases scanSeg B d2 c1 c2 with
        | found j =>
          dsimp only [shiftN, scanShift]
          exact congrArg ScanRes.found (by simp only [List.length_cons]; omega)
        | cont d3 e1 e2 => rfl
    · rw [ih]
      cases hres : scanSeg rest (d + 1) b1 b2 with
      | found j => rfl
      | cont d2 c1 c2 =>
        dsimp only [scanShift]
        cases scanSeg B d2 c1 c2 with
        | found j =>
          dsimp only [shiftN, scanShift]
          exact congrArg ScanRes.found (by simp only [List.length_cons]; omega)
        | cont d3 e1 e2 => rfl
    · rfl
    · rw [ih]
      cases hres : scanSeg rest (d - 1) b1 b2 with
      | found j => rfl
      | cont d2 c1 c2 =>
        dsimp only [scanShift]
        cases scanSeg B d2 c1 c2 with
        | found j =>
          dsimp only [shiftN, scanShift]
          exact congrArg ScanRes.found (by simp only [List.length_cons]; omega)
        | cont d3 e1 e2 => rfl
    · rw [ih]
      cases hres : scanSeg rest d b1 b2 with
      | found j => rfl
      | cont d2 c1 c2 =>
        dsimp only [scanShift]
        cases scanSeg B d2 c1 c2 with
        | found j =>
          dsimp only [shiftN, scanShift]
          exact congrArg ScanRes.found (by simp only [List.length_cons]; omega)
        | cont d3 e1 e2 => rfl

/-- Hex digit characters are not quotes or backslashes. -/
theorem hexChar_props : ∀ n, n < 16 →
    hexDigitChar n ≠ '"' ∧ hexDigitChar n ≠ '\\' := by decide

/-- Scanning one encoded character from inside a string returns to the
same state without finding a close. -/
theorem scanSeg_encChar (ch : Char) (d : Int) :
    scanSeg (encodeJSONChar ch) d true false = .cont d true false := by
  by_cases hq : ch = '"'
  · subst hq
    rw [show encodeJSONChar '"' = ['\\', '"'] by unfold encodeJSONChar; rw [if_pos rfl]]
    simp [scanSeg, scanShift]
  · by_cases hb : ch = '\\'
    · subst hb
      rw [show encodeJSONChar '\\' = ['\\', '\\'] by
        unfold encodeJSONChar; rw [if_neg (by decide), if_pos rfl]]
      simp [scanSeg, scanShift]
    · by_cases hc : ch.toNat < 32
      · rw [show encodeJSONChar ch = ['\\', 'u', '0', '0',
          hexDigitChar (ch.toNat / 16), hexDigitChar (ch.toNat % 16)] by
          unfold encodeJSONChar; rw [if_neg hq, if_neg hb, if_pos hc]]
        simp [scanSeg, scanShift, (hexChar_props (ch.toNat / 16) (by omega)).1,
          (hexChar_props (ch.toNat / 16) (by omega)).2,
          (hexChar_props (ch.toNat % 16) (by omega)).1,
          (hexChar_props (ch.toNat % 16) (by omega)).2]
      · rw [show encodeJSONChar ch = [ch] by
          unfold encodeJSONChar; rw [if_neg hq, if_neg hb, if_neg hc]]
        simp [scanSeg, scanShift, hq, hb]

/-- Scanning an encoded string from inside a string returns to the same
state without finding a close. -/
theorem scanSeg_encString (c : Str) : ∀ (B : Str) (d : Int),
    scanSeg (encodeJSONString c ++ B) d true false =
      shiftN (encodeJSONString c).length (scanSeg B d true false) := by
  induction c with
  | nil =>
    intro B d
    rw [show encodeJSONString [] = [] from rfl, List.nil_append]
    cases scanSeg B d true false with
    | found j => dsimp only [shiftN]; exact congrArg ScanRes.found (by simp)
    | cont d2 c1 c2 => rfl
  | cons ch t ih =>
    intro B d
    rw [show encodeJSONString (ch :: t) ++ B =
      encodeJSONChar ch ++ (encodeJSONString t ++ B) by
      simp [encodeJSONString, List.append_assoc]]
    rw [scanSeg_append (encodeJSONChar ch)]
    rw [scanSeg_encChar ch d]
    dsimp only
    rw [ih B d]
    cases scanSeg B d true false with
    | found j =>
      dsimp only [shiftN]
      exact congrArg ScanRes.found (by
        simp only [encodeJSONString, List.length_append]
        omega)
    | cont d2 c1 c2 => rfl

/-- Fixed part of the round-trip block before the encoded content. -/
def c4pre : Str := "\x7b\"name\": \"write_file\", \"arguments\": \x7b\"content\": \"".toList

/-- Fixed part of the round-trip block after the encoded content. -/
def c4post : Str := "\"\x7d\x7d".toList

/-- The tagged block carrying the encoded content: a tool call naming
`write_file` whose arguments object holds the content as a JSON string
value. -/
def c4block (c : Str) : Str := c4pre ++ (encodeJSONString c ++ c4post)

/-- The arguments object span recovered by the parser. -/
def c4args (c : Str) : Str :=
  "\x7b\"content\": \"".toList ++ (encodeJSONString c ++ "\"\x7d".toList)

/-- The extraction loop finds the closing brace of the block exactly at
its end. -/
theorem extractLoop_c4block (c : Str) :
    extractLoop (c4block c) 0 0 false false =
      some (c4pre.length + (encodeJSONString c).length + 2) := by
  unfold c4block
  rw [extractLoop_scanSeg c4pre]
  rw [show scanSeg c4pre 0 false false = .cont 2 true false from by decide]
  dsimp only
  have h3 := extractLoop_scanSeg (encodeJSONString c ++ c4post) []
    (0 + c4pre.length) 2 true false
  rw [List.append_nil] at h3
  rw [h3]
  rw [scanSeg_encString c c4post 2]
  rw [show scanSeg c4post 2 true false = .found 2 from by decide]
  dsimp only [shiftN]
  exact congrArg some (by omega)

/-- The block is a balanced object extracted verbatim: the claim C1
contract holds of it at position 0 with the whole block as the result. -/
theorem extractJSON_c4block (c : Str) :
    extractJSON (c4block c) 0 = (c4block c, ((c4block c).length : Int)) := by
  have h49 : c4pre.length = 49 := by decide
  have hlen : (c4block c).length =
      c4pre.length + (encodeJSONString c).length + 3 := by
    unfold c4block
    simp only [List.length_append]
    rw [show c4post.length = 3 from by decide]
    omega
  unfold extractJSON
  rw [if_neg (by omega)]
  rw [if_neg (fun h => h (show (c4block c).getD 0 ' ' = '\x7b' from rfl))]
  rw [List.drop_zero, extractLoop_c4block]
  dsimp only
  rw [show c4pre.length + (encodeJSONString c).length + 2 + 1 - 0 =
    (c4block c).length by omega]
  rw [List.take_length]
  rw [show c4pre.length + (encodeJSONString c).length + 2 + 1 =
    (c4block c).length by omega]

/-- Skipping whitespace stops at a non-whitespace head. -/
theorem skipJsonWS_cons_false (c : Char) (t : Str) (h : isJsonWS c = false) :
    skipJsonWS (c :: t) = c :: t := by
  simp [skipJsonWS, List.dropWhile_cons, h]

/-- Skipping whitespace crosses a whitespace head. -/
theorem skipJsonWS_cons_ws (c : Char) (t : Str) (h : isJsonWS c = true) :
    skipJsonWS (c :: t) = skipJsonWS t := by
  simp [skipJsonWS, List.dropWhile_cons, h]

/-- The block written in parser-oriented form. -/
theorem c4block_shape (c : Str) : c4block c =
    ('\x7b' :: ('"' :: (encodeJSONString "name".toList ++ ('"' :: (':' :: (' ' :: ('"' :: (encodeJSONString "write_file".toList ++ ('"' :: (',' :: (' ' :: ('"' :: (encodeJSONString "arguments".toList ++ ('"' :: (':' :: (' ' :: ('\x7b' :: ('"' :: (encodeJSONString "content".toList ++ ('"' :: (':' :: (' ' :: ('"' :: (encodeJSONString c ++ ('"' :: ('\x7d' :: ('\x7d' :: []))))))))))))))))))))))))))) := by
  unfold c4block c4pre c4post
  rw [show encodeJSONString "name".toList = "name".toList from rfl,
    show encodeJSONString "write_file".toList = "write_file".toList from rfl,
    show encodeJSONString "arguments".toList = "arguments".toList from rfl,
    show encodeJSONString "content".toList = "content".toList from rfl]
  rfl

/-- The arguments span written in parser-oriented form. -/
theorem c4args_shape (c : Str) : c4args c =
    ('\x7b' :: ('"' :: (encodeJSONString "content".toList ++ ('"' :: (':' :: (' ' :: ('"' :: (encodeJSONString c ++ ('"' :: ('\x7d' :: [])))))))))) := by
  unfold c4args
  rw [show encodeJSONString "content".toList = "content".toList from rfl]
  rfl

/-- The top-level parse of a shaped object defers to the member parse. -/
theorem topLevel_step (X : Str) :
    parseTopLevelObject ('\x7b' :: ('"' :: X)) =
      parseJsonMembers (('\x7b' :: ('"' :: X)).length + 1) ('"' :: X) := by rfl

/-- One shaped member parse: key, colon, space, then the value. -/
theorem members_step (F : Nat) (X : Str) :
    parseJsonMembers (F + 1) ('"' :: X) =
      match parseStringBody X with
      | none => none
      | some (key, r1) =>
        match skipJsonWS r1 with
        | ':' :: r2 =>
          let r2w := skipJsonWS r2
          match parseJsonValue F r2w with
          | none => none
          | some (v, r3) =>
            let raw := r2w.take (r2w.length - r3.length)
            match skipJsonWS r3 with
            | ',' :: r4 =>
              (parseJsonMembers F r4).map fun p => ((key, v, raw) :: p.1, p.2)
            | '\x7d' :: r4 => some ([(key, v, raw)], r4)
            | _ => none
        | _ => none := by rfl

/-- A leading whitespace character does not change the member parse. -/
theorem members_ws (F : Nat) (c0 : Char) (h : isJsonWS c0 = true) (Z : Str) :
    parseJsonMembers (F + 1) (c0 :: Z) = parseJsonMembers (F + 1) Z := by
  rw [parseJsonMembers, parseJsonMembers, skipJsonWS_cons_ws c0 Z h]

/-- A shaped string value parses to its decoded content. -/
theorem value_str_step (F : Nat) (k rest : Str) :
    parseJsonValue (F + 1) ('"' :: (encodeJSONString k ++ ('"' :: rest))) =
      some (JValue.jstr k, rest) := by
  rw [parseJsonValue]
  rw [skipJsonWS_cons_false _ _ (by decide)]
  dsimp only
  rw [if_neg (by decide), if_neg (by decide), if_pos rfl]
  rw [parseStringBody_encode k rest]
  rfl

/-- A shaped object value defers to its member parse. -/
theorem value_obj_step (F : Nat) (X : Str) :
    parseJsonValue (F + 1) ('\x7b' :: ('"' :: X)) =
      (parseJsonMembers F ('"' :: X)).map fun p =>
        (JValue.jobj (p.1.map fun m => (m.1, m.2.1)), p.2) := by
  rw [parseJsonValue]
  rw [skipJsonWS_cons_false _ _ (by decide)]
  dsimp only
  rw [if_pos rfl]
  rw [skipJsonWS_cons_false _ _ (by decide)]
  split
  · rename_i r2 heq
    injection heq with h1 h2
    exact absurd h1 (by decide)
  · rfl

/-- One fully shaped member: key, colon, space, value, then either a comma
and more members or the closing brace. -/
theorem member_step (F : Nat) (k X : Str) (hX : skipJsonWS X = X) :
    parseJsonMembers (F + 1)
      ('"' :: (encodeJSONString k ++ ('"' :: (':' :: (' ' :: X))))) =
      match parseJsonValue F X with
      | none => none
      | some (v, r3) =>
        let raw := X.take (X.length - r3.length)
        match skipJsonWS r3 with
        | ',' :: r4 =>
          (parseJsonMembers F r4).map fun p => ((k, v, raw) :: p.1, p.2)
        | '\x7d' :: r4 => some ([(k, v, raw)], r4)
        | _ => none := by
  rw [members_step F _]
  rw [parseStringBody_encode k (':' :: (' ' :: X))]
  dsimp only
  rw [skipJsonWS_cons_false ':' _ (by decide)]
  split
  · rename_i r2 heq
    injection heq with h1 h2
    subst h2
    rw [show skipJsonWS (' ' :: X) = X by
      rw [skipJsonWS_cons_ws ' ' X (by decide), hX]]
  · rename_i hno
    exact absurd rfl (by intro h; exact hno (' ' :: X) h)

/-- The inner arguments object of the round-trip block parses to the
content member. -/
theorem value_c4inner (c : Str) :
    parseJsonValue ((encodeJSONString c).length + 51)
      ('\x7b' :: ('"' :: (encodeJSONString "content".toList ++ ('"' :: (':' :: (' ' ::
        ('"' :: (encodeJSONString c ++ ('"' :: ('\x7d' :: ('\x7d' :: []))))))))))) =
      some (JValue.jobj [("content".toList, JValue.jstr c)], '\x7d' :: []) := by
  rw [show (encodeJSONString c).length + 51 = ((encodeJSONString c).length + 50) + 1
    from rfl]
  rw [value_obj_step]
  rw [show (encodeJSONString c).length + 50 = ((encodeJSONString c).length + 49) + 1
    from rfl]
  rw [member_step _ "content".toList _ (skipJsonWS_cons_false '"' _ (by decide))]
  rw [show (encodeJSONString c).length + 49 = ((encodeJSONString c).length + 48) + 1
    from rfl]
  rw [value_str_step]
  dsimp only
  rw [skipJsonWS_cons_false '\x7d' _ (by decide)]
  split
  · rename_i r4 heq
    injection heq with h1 h2
    exact absurd h1 (by decide)
  · rename_i r4 heq
    injection heq with h1 h2
    subst h2
    rfl
  · rename_i hno1 hno2
    exact absurd rfl (by intro h; exact hno2 ('\x7d' :: []) h)

/-- Raw span of the `name` member. -/
def c4nameRaw : Str := "\"write_file\"".toList

/-- The raw span taken for the `name` member is its source text. -/
theorem nameRaw_take (Z : Str) :
    ((('"' :: (encodeJSONString "write_file".toList ++ ('"' :: Z))) : Str)).take
      ((('"' :: (encodeJSONString "write_file".toList ++ ('"' :: Z))) : Str).length
        - Z.length) = c4nameRaw := by
  rw [show (('"' :: (encodeJSONString "write_file".toList ++ ('"' :: Z))) : Str) =
    c4nameRaw ++ Z by
    rw [show encodeJSONString "write_file".toList = "write_file".toList from rfl]
    rfl]
  rw [show (c4nameRaw ++ Z).length - Z.length = c4nameRaw.length by
    simp only [List.length_append]; omega]
  exact List.take_left _ _

/-- The whole round-trip block parses as a two-member object whose
`arguments` raw span is exactly the arguments object. -/
theorem parseTopLevelObject_c4block (c : Str) :
    parseTopLevelObject (c4block c) =
      some ([("name".toList, JValue.jstr "write_file".toList, c4nameRaw),
             ("arguments".toList,
              JValue.jobj [("content".toList, JValue.jstr c)], c4args c)], []) := by
  have henc52 : (c4block c).length = (encodeJSONString c).length + 52 := by
    unfold c4block
    simp only [List.length_append]
    rw [show c4pre.length = 49 from by decide, show c4post.length = 3 from by decide]
    omega
  rw [c4block_shape]
  rw [topLevel_step]
  rw [member_step _ "name".toList _ (skipJsonWS_cons_false '"' _ (by decide))]
  rw [← c4block_shape c, henc52]
  rw [show (encodeJSONString c).length + 52 = ((encodeJSONString c).length + 51) + 1
    from rfl]
  rw [value_str_step]
  dsimp only
  rw [skipJsonWS_cons_false ',' _ (by decide)]
  split
  · rename_i r4 heq
    injection heq with h1 h2
    subst h2
    rw [members_ws _ ' ' (by decide)]
    rw [member_step _ "arguments".toList _ (skipJsonWS_cons_false '\x7b' _ (by decide))]
    rw [value_c4inner c]
    dsimp only
    rw [skipJsonWS_cons_false '\x7d' _ (by decide)]
    split
    · rename_i r5 heq2
      injection heq2 with h3 h4
      exact absurd h3 (by decide)
    · rename_i r5 heq2
      injection heq2 with h3 h4
      subst h4
      rw [show ('\x7b' :: ('"' :: (encodeJSONString "content".toList ++ ('"' :: (':' ::
          (' ' :: ('"' :: (encodeJSONString c ++
            ('"' :: ('\x7d' :: ('\x7d' :: []))))))))))) =
          c4args c ++ ('\x7d' :: []) by
        rw [c4args_shape]
        simp [List.append_assoc]]
      rw [show (c4args c ++ ('\x7d' :: [])).length - ('\x7d' :: ([] : Str)).length =
          (c4args c).length by
        simp only [List.length_append, List.length_cons]
        omega]
      rw [List.take_left]
      rw [nameRaw_take]
      rfl
    · rename_i h5 h6
      exact absurd rfl (by intro h; exact h6 [] h)
  · rename_i r4 heq
    injection heq with h1 h2
    exact absurd h1 (by decide)
  · rename_i h5 h6
    exact absurd rfl (by intro h; exact h5 (' ' :: ('"' :: (encodeJSONString
      "arguments".toList ++ ('"' :: (':' :: (' ' :: ('\x7b' :: ('"' ::
      (encodeJSONString "content".toList ++ ('"' :: (':' :: (' ' :: ('"' ::
      (encodeJSONString c ++ ('"' :: ('\x7d' :: ('\x7d' :: []))))))))))))))))) h)

/-- `json.Unmarshal` of the block into `TextToolCall` succeeds, with the
arguments kept as the raw span. -/
theorem decodeTextToolCall_c4block (c : Str) :
    decodeTextToolCall (c4block c) =
      some ⟨"write_file".toList, some (c4args c)⟩ := by
  unfold decodeTextToolCall
  rw [parseTopLevelObject_c4block c]
  dsimp only
  rw [if_pos (show skipJsonWS [] = [] from rfl)]
  rfl

/-- `TrimSpace` is the identity on a string with non-space first and last
characters. -/
theorem trimSpace_wrapped (c0 : Char) (mid : Str) (d0 : Char)
    (hc : isTrimWS c0 = false) (hd : isTrimWS d0 = false) :
    trimSpace (c0 :: (mid ++ [d0])) = c0 :: (mid ++ [d0]) := by
  unfold trimSpace
  simp [List.dropWhile_cons, hc, hd, List.reverse_append]

/-- JSON-decoding the single string value out of an arguments object (the
spec's decode step of the round trip). -/
def decodeContentArg (s : Str) : Option Str :=
  match parseTopLevelObject s with
  | some ([(k, JValue.jstr v, _)], rest) =>
    if k = "content".toList ∧ skipJsonWS rest = [] then some v else none
  | _ => none

/-- The raw span of a shaped string member is its source text. -/
theorem strRaw_take (e Z : Str) :
    (('"' :: (e ++ ('"' :: Z))) : Str).take
      ((('"' :: (e ++ ('"' :: Z))) : Str).length - Z.length) =
      '"' :: (e ++ ['"']) := by
  rw [show (('"' :: (e ++ ('"' :: Z))) : Str) = ('"' :: (e ++ ['"'])) ++ Z by
    simp [List.append_assoc]]
  rw [show ((('"' :: (e ++ ['"'])) : Str) ++ Z).length - Z.length =
      (('"' :: (e ++ ['"'])) : Str).length by
    simp only [List.length_append]
    omega]
  exact List.take_left _ _

/-- The recovered arguments object parses as the single content member. -/
theorem parseTopLevelObject_c4args (c : Str) :
    parseTopLevelObject (c4args c) =
      some ([("content".toList, JValue.jstr c,
        '"' :: (encodeJSONString c ++ ['"']))], []) := by
  rw [c4args_shape, topLevel_step]
  rw [member_step _ "content".toList _ (skipJsonWS_cons_false '"' _ (by decide))]
  rw [← c4args_shape c]
  rw [show (c4args c).length = (encodeJSONString c).length + 15 by
    unfold c4args
    simp only [List.length_append]
    rw [show ("\x7b\"content\": \"".toList : Str).length = 13 from by decide,
      show ("\"\x7d".toList : Str).length = 2 from by decide]
    omega]
  rw [show (encodeJSONString c).length + 15 = ((encodeJSONString c).length + 14) + 1
    from rfl]
  rw [value_str_step]
  dsimp only
  rw [skipJsonWS_cons_false '\x7d' _ (by decide)]
  split
  · rename_i r4 heq
    injection heq with h1 h2
    exact absurd h1 (by decide)
  · rename_i r4 heq
    injection heq with h1 h2
    subst h2
    rw [strRaw_take (encodeJSONString c) ('\x7d' :: [])]
  · rename_i h5 h6
    exact absurd rfl (by intro hx; exact h6 [] hx)

/-- Decoding the recovered arguments object returns the content. -/
theorem decodeContentArg_c4args (c : Str) : decodeContentArg (c4args c) = some c := by
  unfold decodeContentArg
  rw [parseTopLevelObject_c4args c]
  dsimp only
  rw [if_pos ⟨rfl, rfl⟩]

/-- The opening marker of the round-trip text is found at position 0 with
the block starting right after it. -/
theorem findTagOpen_c4 (c : Str) :
    findTagOpen (tagOpen ++ (c4block c ++ tagClose)) = some (0, 11) := by
  have h := findTagOpen_block [] (c4block c) [] (by simp)
  simp only [List.nil_append, List.append_nil] at h
  rw [show ((c4block c).takeWhile fun x => isRegexWS x) = [] by
    rw [c4block_shape]; rfl] at h
  simpa using h

/-- No start of the closing marker inside the block when the encoded
content avoids it. -/
theorem noStart_c4block (c : Str) (Y : Str)
    (h : containsStr (encodeJSONString c) tagClose = false) :
    NoStart (c4block c) Y tagClose := by
  unfold c4block
  refine noStart_append c4pre (encodeJSONString c ++ c4post) Y tagClose ?_ ?_
  · rw [show tagClose = Char.ofNat 60 :: "/tool_call>".toList from rfl]
    exact noStart_no_head c4pre _ (Char.ofNat 60) _ (by decide)
  · refine noStart_append (encodeJSONString c) c4post Y tagClose ?_ ?_
    · rw [show c4post ++ Y = '"' :: (('\x7d' :: ('\x7d' :: [])) ++ Y) from rfl]
      exact noStart_cross (encodeJSONString c) '"' _ tagClose h (by decide)
    · rw [show tagClose = Char.ofNat 60 :: "/tool_call>".toList from rfl]
      exact noStart_no_head c4post _ (Char.ofNat 60) _ (by decide)

/-- The closing marker of the round-trip text is found exactly at the end
of the block. -/
theorem firstIndexOf_c4close (c : Str)
    (h : containsStr (encodeJSONString c) tagClose = false) :
    firstIndexOf ((tagOpen ++ (c4block c ++ tagClose)).drop 11) tagClose =
      some (c4block c).length := by
  rw [show (11 : Nat) = tagOpen.length from rfl, List.drop_left]
  rw [show c4block c ++ tagClose = c4block c ++ (tagClose ++ []) by
    rw [List.append_nil]]
  exact firstIndexOf_exact (c4block c) [] tagClose (noStart_c4block c _ h)

/-- The tagged loop on the round-trip text: one block, one call, empty
remainder. -/
theorem taggedLoop_c4 (c : Str)
    (h : containsStr (encodeJSONString c) tagClose = false) :
    taggedLoop (tagOpen ++ (c4block c ++ tagClose)) [] 0 =
      ([⟨"text_call_0".toList, "function".toList, "write_file".toList, c4args c⟩],
        [], 1) := by
  rw [taggedLoop_step _ [] 0 0 11 (c4block c).length (findTagOpen_c4 c)
    (firstIndexOf_c4close c h)]
  dsimp only
  rw [show (11 : Nat) = tagOpen.length from rfl, List.drop_left, List.take_left]
  rw [show trimSpace (c4block c) = c4block c by
    rw [show c4block c = '\x7b' ::
      (("\"name\": \"write_file\", \"arguments\": \x7b\"content\": \"".toList ++
        (encodeJSONString c ++ "\"\x7d".toList)) ++ ['\x7d']) by
      unfold c4block c4pre
      rw [show c4post = "\"\x7d".toList ++ ('\x7d' :: []) from rfl]
      simp [List.append_assoc]]
    exact trimSpace_wrapped '\x7b' _ '\x7d' (by decide) (by decide)]
  rw [extractJSON_c4block c]
  dsimp only
  rw [if_neg (show ¬ c4block c = [] by rw [c4block_shape]; simp)]
  rw [decodeTextToolCall_c4block c]
  dsimp only
  rw [List.take_zero, List.nil_append]
  rw [show tagOpen.length + (c4block c).length + tagClose.length =
    (tagOpen ++ (c4block c ++ tagClose)).length by
    simp only [List.length_append]
    omega]
  rw [List.drop_length]
  rw [taggedLoop_none _ _ _ (by decide)]
  rfl

/-- C4 (amended): encoding any content as a JSON string value inside the
arguments object of a tagged block, parsing the text, and JSON-decoding
the string value back out of the returned ToolCall's arguments returns
the original content — including content with literal braces, escaped
quotes and control characters — PROVIDED the encoded content does not
contain the literal closing marker `</tool_call>`: the closing-marker
search is a plain substring search that does not respect JSON string
boundaries, so content containing the marker breaks the round trip. -/
theorem parse_round_trip (c : Str)
    (h : containsStr (encodeJSONString c) tagClose = false) :
    parseToolCallsFromText (tagOpen ++ (c4block c ++ tagClose)) =
      ([⟨"text_call_0".toList, "function".toList, "write_file".toList, c4args c⟩],
        []) ∧
    decodeContentArg (c4args c) = some c := by
  refine ⟨?_, decodeContentArg_c4args c⟩
  unfold parseToolCallsFromText
  rw [taggedLoop_c4 c h]
  dsimp only
  rw [rawPhase_skip _ _ (by decide) _ _]
  rfl

/-- Counterexample to the original C4: content equal to the closing marker
is encoded verbatim by JSON string encoding, the closing-marker search
finds it inside the string value, the truncated span is not balanced, and
the parse returns zero ToolCalls with a garbled remainder — the round
trip fails. -/
theorem parse_round_trip_counterexample :
    parseToolCallsFromText
      (tagOpen ++ (c4block "</tool_call>".toList ++ tagClose)) =
      ([], "\"\x7d\x7d</tool_call>".toList) := by
  unfold parseToolCallsFromText
  rw [taggedLoop_step _ [] 0 0 11 49 (by decide) (by decide)]
  dsimp only
  rw [if_pos (by decide)]
  rw [taggedLoop_none _ _ _ (by decide)]
  dsimp only
  rw [rawPhase_skip _ _ (by decide) _ _]
  dsimp only
  rw [show trimSpace ((tagOpen ++
      (c4block "</tool_call>".toList ++ tagClose)).take 0 ++
      (tagOpen ++ (c4block "</tool_call>".toList ++ tagClose)).drop
        (11 + 49 + tagClose.length)) =
    "\"\x7d\x7d</tool_call>".toList from by decide]

/-- Witness for C4: a content string with literal braces, escaped quotes
and a backslash satisfies the hypothesis, and the theorem applies. -/
theorem parse_round_trip_witness :
    (containsStr (encodeJSONString "say \x7bhi\x7d \"w\" \\ ok".toList) tagClose
        = false) ∧
    (parseToolCallsFromText (tagOpen ++
        (c4block "say \x7bhi\x7d \"w\" \\ ok".toList ++ tagClose)) =
      ([⟨"text_call_0".toList, "function".toList, "write_file".toList,
         c4args "say \x7bhi\x7d \"w\" \\ ok".toList⟩], []) ∧
     decodeContentArg (c4args "say \x7bhi\x7d \"w\" \\ ok".toList) =
       some "say \x7bhi\x7d \"w\" \\ ok".toList) :=
  ⟨by decide, parse_round_trip "say \x7bhi\x7d \"w\" \\ ok".toList (by decide)⟩

end AicliSpec
